import Mathlib

/-!
# winconsole: a shallow embedding of `Console.h` / `Console.cpp`

Conventions of the embedding.

* C++ `int` is `Int`; `wchar_t` is an `Int` in `[0, 65536)` and `char` an `Int`
  in `[-128, 128)`; the narrowing conversions the source performs are the
  explicit functions `toWchar`, `toChar`, `toSHORT`.
* A C string (`const char*`) is the list of its characters before the
  terminating NUL (a list that holds a 0 denotes no C string); a returned
  `nullptr` is `none`, a pointer to the terminating NUL is `some []`.
* Pointers to windows and consoles are addresses (`Nat`); `nullptr` is `none`.
* The physical console is an external collaborator: every Win32 call the
  source makes is recorded, in order, as a `SurfaceOp` appended to a log.
* A window method reaches its console through `mOwner`; the embedding of a
  window method therefore takes an `OwnerCtx`, the dereferenced `mOwner`
  together with the window's own address and the other live windows.
-/

namespace WinConsole

/-! ## Geometry primitives -/

/-- The source's `struct ConRect`. -/
structure ConRect where
  x : Int
  y : Int
  w : Int
  h : Int
deriving DecidableEq

/-- The source's `struct ConPoint`. -/
structure ConPoint where
  x : Int
  y : Int
deriving DecidableEq

/-! ## Machine conversions -/

/-- The cast `SHORT( v )`: truncation to a signed 16-bit integer. -/
def toSHORT (v : Int) : Int := (v + 32768) % 65536 - 32768

/-- Conversion of an `int` or `char` to `wchar_t` (unsigned, 16 bits). -/
def toWchar (v : Int) : Int := v % 65536

/-- Conversion of a `wchar_t` to `char` (signed, 8 bits). -/
def toChar (v : Int) : Int := (v + 128) % 256 - 128

/-- The C locale's `isspace`: HT, LF, VT, FF, CR and the blank. (For a `char`
outside `[0, 128)` the C locale answers false; a negative argument is
undefined in C.) -/
def isspace (c : Int) : Bool := (decide (9 ≤ c) && decide (c ≤ 13)) || decide (c = 32)

/-- The C locale's `isprint`: the codes `0x20 .. 0x7e`. -/
def isprint (c : Int) : Bool := decide (32 ≤ c) && decide (c ≤ 126)

/-- The blank, `L' '`. -/
def blank : Int := 32

/-! ## The physical surface -/

/-- One call to the console API, as the source issues it. -/
inductive SurfaceOp where
  | WriteConsoleOutput (handle ch attr left top right bottom : Int)
  | ScrollConsoleScreenBuffer (handle left top right bottom destX destY fill attr : Int)
  | SetConsoleCursorPosition (handle x y : Int)
  | FillConsoleOutputCharacter (handle ch length x y : Int)
  | FillConsoleOutputAttribute (handle attr length x y : Int)
deriving DecidableEq

/-- The log of surface calls, oldest first. -/
abbrev Screen := List SurfaceOp

/-! ## Objects -/

/-- The data members of `class Console`. -/
structure Console where
  mRect : ConRect
  mScreenRect : ConRect
  mWindows : List Nat
  mFocusWindow : Option Nat
  mHandle : Int
  mDefaultAttributes : Int
deriving DecidableEq

/-- The value of `INVALID_HANDLE_VALUE`. -/
def INVALID_HANDLE_VALUE : Int := -1

/-- The data members of `class ConWindowBase`; `mData` is the buffer of
`mPos.w * mPos.h` code units, row-major. -/
structure ConWindowBase where
  mOwner : Option Nat
  mbFocus : Bool
  mPos : ConRect
  mCursor : ConPoint
  mData : List Int
deriving DecidableEq

/-- What a window method reaches through its `mOwner` pointer: the console
itself, the address of the window the method runs on (`this`), and the base
part of every other window (read by `Console::ResetCursor` through
`mFocusWindow`). -/
structure OwnerCtx where
  owner : Console
  self : Nat
  peers : Nat → ConWindowBase

/-- A window together with the surface log: the state a window method runs in. -/
structure Run (α : Type) where
  win : α
  screen : Screen

/-- The buffer has the size the constructor allocates: `mPos.w * mPos.h` code
units. -/
def ConWindowBase.sizeOk (win : ConWindowBase) : Prop :=
  win.mData.length = (win.mPos.w * win.mPos.h).toNat

instance (win : ConWindowBase) : Decidable win.sizeOk := by
  unfold ConWindowBase.sizeOk; infer_instance

/-! ## `Console::ResetCursor` -/

/-- Embeds `Console::ResetCursor`; `focus` is the dereferenced `mFocusWindow`
(`none` when the pointer is null). -/
def Console.ResetCursor (con : Console) (focus : Option ConWindowBase) : SurfaceOp :=
  match focus with
  | some fw =>
      SurfaceOp.SetConsoleCursorPosition con.mHandle
        (toSHORT (fw.mCursor.x + fw.mPos.x)) (toSHORT (fw.mCursor.y + fw.mPos.y))
  | none =>
      SurfaceOp.SetConsoleCursorPosition con.mHandle
        (toSHORT con.mRect.w) (toSHORT (con.mRect.h - 1))

/-- The window `mOwner->mFocusWindow` points to, as seen from a method running
on the window `me` at address `ctx.self`. -/
def OwnerCtx.focusWindow (ctx : OwnerCtx) (me : ConWindowBase) : Option ConWindowBase :=
  match ctx.owner.mFocusWindow with
  | none => none
  | some f => if f = ctx.self then some me else some (ctx.peers f)

/-! ## `ConWindowBase` -/

/-- The constructor's member initialisers: no owner yet, no focus, cursor at
the origin, a buffer of blanks. -/
def ConWindowBase.init (pos : ConRect) : ConWindowBase :=
  { mOwner := none, mbFocus := false, mPos := pos, mCursor := ⟨0, 0⟩,
    mData := List.replicate (pos.w * pos.h).toNat blank }

/-- The surface call of `SetChar` (lines 193-205): one cell, the character
`c` with the owner's default attribute, at the window-local position
`(row, col)` offset by the window's origin. -/
def cellWrite (ctx : OwnerCtx) (pos : ConRect) (row col c : Int) : SurfaceOp :=
  SurfaceOp.WriteConsoleOutput ctx.owner.mHandle c ctx.owner.mDefaultAttributes
    (toSHORT (col + pos.x)) (toSHORT (row + pos.y))
    (toSHORT (col + pos.x)) (toSHORT (row + pos.y))

/-- Embeds `ConWindowBase::SetChar`. -/
def ConWindowBase.SetChar (ctx : OwnerCtx) (s : Run ConWindowBase) (row col c : Int) :
    Run ConWindowBase :=
  if row < 0 ∨ row ≥ s.win.mPos.h ∨ col < 0 ∨ col ≥ s.win.mPos.w then s
  else
    { win := { s.win with mData := s.win.mData.set (row * s.win.mPos.w + col).toNat c },
      screen := s.screen ++ [cellWrite ctx s.win.mPos row col c] }

/-- Embeds `ConWindowBase::GetChar`. -/
def ConWindowBase.GetChar (win : ConWindowBase) (row col : Int) : Int :=
  if row < 0 ∨ row ≥ win.mPos.h ∨ col < 0 ∨ col ≥ win.mPos.w then 0
  else win.mData.getD (row * win.mPos.w + col).toNat 0

/-- Embeds `ConWindowBase::SetCursor`. -/
def ConWindowBase.SetCursor (ctx : OwnerCtx) (s : Run ConWindowBase) (row col : Int) :
    Run ConWindowBase :=
  if row < 0 ∨ row ≥ s.win.mPos.h ∨ col < 0 ∨ col > s.win.mPos.w then s
  else
    let win1 : ConWindowBase := { s.win with mCursor := ⟨col, row⟩ }
    if win1.mbFocus then
      { win := win1, screen := s.screen ++ [ctx.owner.ResetCursor (ctx.focusWindow win1)] }
    else { win := win1, screen := s.screen }

/-- Embeds `ConWindowBase::ScrollWindow`: one block-scroll of the surface; the
window itself is not touched. -/
def ConWindowBase.ScrollWindow (ctx : OwnerCtx) (s : Run ConWindowBase)
    (moveArea : ConRect) (target : ConPoint) (fillChar : Int) : Run ConWindowBase :=
  if moveArea.w ≤ 0 ∨ moveArea.h ≤ 0 then s
  else
    { win := s.win,
      screen := s.screen ++
        [SurfaceOp.ScrollConsoleScreenBuffer ctx.owner.mHandle
          (toSHORT (moveArea.x + s.win.mPos.x)) (toSHORT (moveArea.y + s.win.mPos.y))
          (toSHORT (moveArea.x + s.win.mPos.x + moveArea.w - 1))
          (toSHORT (moveArea.y + s.win.mPos.y + moveArea.h - 1))
          (toSHORT (s.win.mPos.x + target.x)) (toSHORT (s.win.mPos.y + target.y))
          fillChar ctx.owner.mDefaultAttributes] }

/-- Embeds `ConWindowBase::HasFocus`. -/
def ConWindowBase.HasFocus (win : ConWindowBase) : Bool := win.mbFocus

/-- Embeds `ConWindowBase::HandleKey`: does nothing. (`GiveFocus` is
`World.GiveFocus` below: it goes through the console.) -/
def ConWindowBase.HandleKey (s : Run ConWindowBase) (_keyCode : Int) : Run ConWindowBase := s

/-- Embeds `ConWindowBase::HandleFunctionKey`: does nothing. -/
def ConWindowBase.HandleFunctionKey (s : Run ConWindowBase) (_specialKeyCode : Int) :
    Run ConWindowBase := s

/-! ## `ConScrollingTextWindow` -/

/-- The data members of `class ConScrollingTextWindow`. -/
structure ConScrollingTextWindow extends ConWindowBase where
  mOutputLoc : ConPoint
deriving DecidableEq

/-- The constructor: the base constructor, and `mOutputLoc` default-constructed. -/
def ConScrollingTextWindow.init (pos : ConRect) : ConScrollingTextWindow :=
  { toConWindowBase := ConWindowBase.init pos, mOutputLoc := ⟨0, 0⟩ }

/-- A call of a base-class method on a scrolling text window. -/
def ConScrollingTextWindow.onBase (f : Run ConWindowBase → Run ConWindowBase)
    (s : Run ConScrollingTextWindow) : Run ConScrollingTextWindow :=
  { win := { s.win with toConWindowBase := (f ⟨s.win.toConWindowBase, s.screen⟩).win },
    screen := (f ⟨s.win.toConWindowBase, s.screen⟩).screen }

/-- Lines 424-443 of `WriteCharInternal`: column to 0, next row, and a scroll
of rows `[1, h)` to row 0 when the row reaches the window height. -/
def ConScrollingTextWindow.lineFeed (ctx : OwnerCtx) (s : Run ConScrollingTextWindow) :
    Run ConScrollingTextWindow :=
  let s1 : Run ConScrollingTextWindow :=
    { s with win := { s.win with mOutputLoc := ⟨0, s.win.mOutputLoc.y + 1⟩ } }
  if s1.win.mOutputLoc.y = s1.win.mPos.h then
    let s2 : Run ConScrollingTextWindow :=
      { s1 with win := { s1.win with mOutputLoc := ⟨0, s1.win.mOutputLoc.y - 1⟩ } }
    ConScrollingTextWindow.onBase
      (fun b => ConWindowBase.ScrollWindow ctx b
        ⟨0, 1, s2.win.mPos.w, s2.win.mPos.h - 1⟩ ⟨0, 0⟩ blank) s2
  else s1

/-- Lines 459-461 of `WriteCharInternal`: store the character at the output
position, advance the column, move the window cursor there. -/
def ConScrollingTextWindow.putChar (ctx : OwnerCtx) (s : Run ConScrollingTextWindow)
    (c : Int) : Run ConScrollingTextWindow :=
  let s1 := ConScrollingTextWindow.onBase
    (fun b => ConWindowBase.SetChar ctx b s.win.mOutputLoc.y s.win.mOutputLoc.x (toWchar c)) s
  let s2 : Run ConScrollingTextWindow :=
    { s1 with win := { s1.win with mOutputLoc := ⟨s1.win.mOutputLoc.x + 1, s1.win.mOutputLoc.y⟩ } }
  ConScrollingTextWindow.onBase
    (fun b => ConWindowBase.SetCursor ctx b s2.win.mOutputLoc.y s2.win.mOutputLoc.x) s2

/-- The body of `WriteCharInternal`, with the recursive call made in the tab
branch as the parameter `self`. -/
def ConScrollingTextWindow.WriteCharBody (ctx : OwnerCtx)
    (self : Run ConScrollingTextWindow → Int → Run ConScrollingTextWindow)
    (s : Run ConScrollingTextWindow) (c : Int) : Run ConScrollingTextWindow :=
  if c ≠ 9 ∧ c ≠ 10 ∧ isprint c = false then s
  else
    let afterFeed : Run ConScrollingTextWindow → Run ConScrollingTextWindow := fun t =>
      if c = 9 then
        Nat.iterate (fun u => self u blank) (4 - Int.tmod t.win.mOutputLoc.x 4).toNat t
      else ConScrollingTextWindow.putChar ctx t c
    if c = 10 ∨ s.win.mOutputLoc.x = s.win.mPos.w then
      if c = 10 then ConScrollingTextWindow.lineFeed ctx s
      else afterFeed (ConScrollingTextWindow.lineFeed ctx s)
    else afterFeed s

/-- Embeds `ConScrollingTextWindow::WriteCharInternal`. The function calls itself only
in the tab branch and only with a blank, for which the tab branch is not
taken: the recursion has depth one, and the inner call's own `self` is never
used. -/
def ConScrollingTextWindow.WriteCharInternal (ctx : OwnerCtx)
    (s : Run ConScrollingTextWindow) (c : Int) : Run ConScrollingTextWindow :=
  ConScrollingTextWindow.WriteCharBody ctx
    (ConScrollingTextWindow.WriteCharBody ctx (fun u _ => u)) s c

/-- Embeds `ConScrollingTextWindow::Write`. -/
def ConScrollingTextWindow.Write (ctx : OwnerCtx) (s : Run ConScrollingTextWindow)
    (text : List Int) : Run ConScrollingTextWindow :=
  text.foldl (ConScrollingTextWindow.WriteCharInternal ctx) s

/-- The cells `(y, 0) .. (y, w-1)`, `y` from `0` to `h-1`, in the order the two
loops of `Clear` visit them. -/
def cellsRowMajor (w h : Int) : List (Int × Int) :=
  (List.range h.toNat).flatMap fun y => (List.range w.toNat).map fun x => ((y : Int), (x : Int))

/-- Embeds `ConScrollingTextWindow::Clear`. -/
def ConScrollingTextWindow.Clear (ctx : OwnerCtx) (s : Run ConScrollingTextWindow) :
    Run ConScrollingTextWindow :=
  let s1 := (cellsRowMajor s.win.mPos.w s.win.mPos.h).foldl
    (fun t yx => ConScrollingTextWindow.onBase
      (fun b => ConWindowBase.SetChar ctx b yx.1 yx.2 blank) t) s
  let s2 : Run ConScrollingTextWindow := { s1 with win := { s1.win with mOutputLoc := ⟨0, 0⟩ } }
  ConScrollingTextWindow.onBase
    (fun b => ConWindowBase.SetCursor ctx b s2.win.mOutputLoc.y s2.win.mOutputLoc.x) s2

/-- The inner loop `while ( isspace( *spaceEnd ) )` of `Write_WordWrap_Line`:
`Sum.inl rest` when a newline is met (`rest` is `spaceEnd + 1`), otherwise
`Sum.inr rest` with `rest` the text at `spaceEnd`. -/
def scanSpaces : List Int → Sum (List Int) (List Int)
  | [] => Sum.inr []
  | c :: rest =>
      if isspace c then (if c = 10 then Sum.inl rest else scanSpaces rest)
      else Sum.inr (c :: rest)

/-- The loop `while ( *wordEnd && !isspace( *wordEnd ) )`: the text at `wordEnd`. -/
def scanWord : List Int → List Int
  | [] => []
  | c :: rest => if isspace c then c :: rest else scanWord rest

/-- The loop `while ( *text )` of `Write_WordWrap_Line`, for a line length
already defaulted. Every iteration that does not return consumes at least one
character, so `fuel = text.length` iterations are enough; `none` is "out of
fuel". The result is the state and the returned pointer. -/
def ConScrollingTextWindow.wrapLineLoop (ctx : OwnerCtx) (lineLen : Int) :
    Nat → Run ConScrollingTextWindow → List Int →
      Option (Run ConScrollingTextWindow × Option (List Int))
  | _, s, [] => some (s, none)
  | 0, _, _ :: _ => none
  | fuel + 1, s, c :: t =>
      match scanSpaces (c :: t) with
      | Sum.inl rest => some (s, some rest)
      | Sum.inr spaceEnd =>
          let spaceLen : Int := ((c :: t).length : Int) - (spaceEnd.length : Int)
          if s.win.mOutputLoc.x + spaceLen > lineLen then some (s, some spaceEnd)
          else
            let wordEnd := scanWord spaceEnd
            let wordLen : Int := (spaceEnd.length : Int) - (wordEnd.length : Int)
            let totalLen : Int := wordLen + spaceLen
            if wordLen < lineLen ∧ s.win.mOutputLoc.x + totalLen > lineLen then
              some (s, some spaceEnd)
            else
              ConScrollingTextWindow.wrapLineLoop ctx lineLen fuel
                (ConScrollingTextWindow.Write ctx s
                  ((c :: t).take ((c :: t).length - wordEnd.length)))
                wordEnd

/-- Embeds `ConScrollingTextWindow::Write_WordWrap_Line`; `lineLen = 0` is the
default argument. -/
def ConScrollingTextWindow.Write_WordWrap_Line (ctx : OwnerCtx)
    (s : Run ConScrollingTextWindow) (text : List Int) (lineLen : Int) :
    Option (Run ConScrollingTextWindow × Option (List Int)) :=
  ConScrollingTextWindow.wrapLineLoop ctx (if lineLen = 0 then s.win.mPos.w else lineLen)
    text.length s text

/-- The loop `while ( text )` of `Write_WordWrap`; `none` is "out of fuel". -/
def ConScrollingTextWindow.wrapLoop (ctx : OwnerCtx) (lineLen : Int) :
    Nat → Run ConScrollingTextWindow → Option (List Int) → Int →
      Option (Run ConScrollingTextWindow × Int)
  | _, s, none, n => some (s, n)
  | 0, _, some _, _ => none
  | fuel + 1, s, some text, n =>
      match ConScrollingTextWindow.Write_WordWrap_Line ctx
          (ConScrollingTextWindow.WriteCharInternal ctx s 10) text lineLen with
      | none => none
      | some r => ConScrollingTextWindow.wrapLoop ctx lineLen fuel r.1 r.2 (n + 1)

/-- Embeds `ConScrollingTextWindow::Write_WordWrap`: the final state and the number
of newlines written, when `fuel` iterations of the outer loop are enough. -/
def ConScrollingTextWindow.Write_WordWrap (ctx : OwnerCtx)
    (s : Run ConScrollingTextWindow) (text : List Int) (lineLen : Int) (fuel : Nat) :
    Option (Run ConScrollingTextWindow × Int) :=
  match ConScrollingTextWindow.Write_WordWrap_Line ctx s text lineLen with
  | none => none
  | some r => ConScrollingTextWindow.wrapLoop ctx lineLen fuel r.1 r.2 0

/-- A string literal as a C string (character codes). -/
def cstr (text : String) : List Int := text.toList.map fun ch => (ch.toNat : Int)

/-! ## `ConLineInputWindow` -/

/-- The data members of `class ConLineInputWindow`: the edit buffer (a
`std::wstring`) and the queue of completed lines (`std::string`s). -/
structure ConLineInputWindow extends ConWindowBase where
  mCurrentInput : List Int
  mPendingInput : List (List Int)
deriving DecidableEq

/-- The constructor. -/
def ConLineInputWindow.init (pos : ConRect) : ConLineInputWindow :=
  { toConWindowBase := ConWindowBase.init pos, mCurrentInput := [], mPendingInput := [] }

/-- A call of a base-class method on a line input window. -/
def ConLineInputWindow.onBase (f : Run ConWindowBase → Run ConWindowBase)
    (s : Run ConLineInputWindow) : Run ConLineInputWindow :=
  { win := { s.win with toConWindowBase := (f ⟨s.win.toConWindowBase, s.screen⟩).win },
    screen := (f ⟨s.win.toConWindowBase, s.screen⟩).screen }

/-- Embeds `ConLineInputWindow::ReadLine`: `none` is the return value `false` (and
`*pStr` untouched), `some line` is `true` with `*pStr = line`. -/
def ConLineInputWindow.ReadLine (win : ConLineInputWindow) :
    ConLineInputWindow × Option (List Int) :=
  match win.mPendingInput with
  | [] => (win, none)
  | line :: rest => ({ win with mPendingInput := rest }, some line)

/-- Embeds `ConLineInputWindow::UpdateInputLine`. -/
def ConLineInputWindow.UpdateInputLine (ctx : OwnerCtx) (s : Run ConLineInputWindow) :
    Run ConLineInputWindow :=
  let len0 : Int := (s.win.mCurrentInput.length : Int)
  let start : Int := if len0 > s.win.mPos.w then len0 - s.win.mPos.w else 0
  let len : Int := if len0 > s.win.mPos.w then s.win.mPos.w else len0
  let s1 := (List.range len.toNat).foldl
    (fun t (i : Nat) => ConLineInputWindow.onBase
      (fun b => ConWindowBase.SetChar ctx b 0 (i : Int)
        (t.win.mCurrentInput.getD (start + (i : Int)).toNat 0)) t) s
  (List.range' len.toNat (s.win.mPos.w.toNat - len.toNat)).foldl
    (fun t (i : Nat) => ConLineInputWindow.onBase
      (fun b => ConWindowBase.SetChar ctx b 0 (i : Int) blank) t) s1

/-- Embeds `ConLineInputWindow::ResetCursor`. -/
def ConLineInputWindow.ResetCursor (ctx : OwnerCtx) (s : Run ConLineInputWindow) :
    Run ConLineInputWindow :=
  let len0 : Int := (s.win.mCurrentInput.length : Int)
  let len : Int := if len0 > s.win.mPos.w then s.win.mPos.w else len0
  ConLineInputWindow.onBase (fun b => ConWindowBase.SetCursor ctx b 0 len) s

/-- The four branches of `ConLineInputWindow::HandleKey` on the edit buffer
and the pending queue (lines 268-289). -/
def ConLineInputWindow.editKey (win : ConLineInputWindow) (keyCode : Int) :
    ConLineInputWindow :=
  if keyCode = 13 then
    { win with mPendingInput := win.mPendingInput ++ [win.mCurrentInput.map toChar],
               mCurrentInput := [] }
  else if keyCode = 8 then
    if win.mCurrentInput ≠ [] then { win with mCurrentInput := win.mCurrentInput.dropLast }
    else win
  else if keyCode ≥ 128 then { win with mCurrentInput := win.mCurrentInput ++ [63] }
  else { win with mCurrentInput := win.mCurrentInput ++ [toWchar keyCode] }

/-- Embeds `ConLineInputWindow::HandleKey`. -/
def ConLineInputWindow.HandleKey (ctx : OwnerCtx) (s : Run ConLineInputWindow)
    (keyCode : Int) : Run ConLineInputWindow :=
  ConLineInputWindow.ResetCursor ctx
    (ConLineInputWindow.UpdateInputLine ctx
      { s with win := ConLineInputWindow.editKey s.win keyCode })

/-- Embeds `ConLineInputWindow::HandleFunctionKey`: does nothing. -/
def ConLineInputWindow.HandleFunctionKey (s : Run ConLineInputWindow) (_keyCode : Int) :
    Run ConLineInputWindow := s

/-! ## `ConCharInputWindow` -/

/-- The data members of `class ConCharInputWindow`. -/
structure ConCharInputWindow extends ConScrollingTextWindow where
  mPendingKeys : List Int
deriving DecidableEq

/-- The constructor. -/
def ConCharInputWindow.init (pos : ConRect) : ConCharInputWindow :=
  { toConScrollingTextWindow := ConScrollingTextWindow.init pos, mPendingKeys := [] }

/-- Embeds `ConCharInputWindow::ReadChar`: `none` is the return value `false`. -/
def ConCharInputWindow.ReadChar (win : ConCharInputWindow) :
    ConCharInputWindow × Option Int :=
  match win.mPendingKeys with
  | [] => (win, none)
  | key :: rest => ({ win with mPendingKeys := rest }, some key)

/-- Embeds `ConCharInputWindow::HandleKey`. -/
def ConCharInputWindow.HandleKey (s : Run ConCharInputWindow) (key : Int) :
    Run ConCharInputWindow :=
  { s with win := { s.win with mPendingKeys := s.win.mPendingKeys ++ [key] } }

/-! ## The console and its windows -/

/-- A live window object with its dynamic type. -/
inductive Win where
  | base (w : ConWindowBase)
  | text (w : ConScrollingTextWindow)
  | line (w : ConLineInputWindow)
  | char (w : ConCharInputWindow)
deriving DecidableEq

/-- The `ConWindowBase` part of a window object. -/
def Win.toBase : Win → ConWindowBase
  | Win.base w => w
  | Win.text w => w.toConWindowBase
  | Win.line w => w.toConWindowBase
  | Win.char w => w.toConWindowBase

/-- A window object with its `ConWindowBase` part replaced. -/
def Win.withBase : Win → ConWindowBase → Win
  | Win.base _, b => Win.base b
  | Win.text w, b => Win.text { w with toConWindowBase := b }
  | Win.line w, b => Win.line { w with toConWindowBase := b }
  | Win.char w, b => Win.char { w with toConWindowBase := b }

/-- Virtual dispatch of `HandleKey`. -/
def Win.HandleKey (ctx : OwnerCtx) (s : Run Win) (keyCode : Int) : Run Win :=
  match s.win with
  | Win.base w =>
      let r := ConWindowBase.HandleKey ⟨w, s.screen⟩ keyCode
      ⟨Win.base r.win, r.screen⟩
  | Win.text w =>
      let r := ConWindowBase.HandleKey ⟨w.toConWindowBase, s.screen⟩ keyCode
      ⟨Win.text { w with toConWindowBase := r.win }, r.screen⟩
  | Win.line w =>
      let r := ConLineInputWindow.HandleKey ctx ⟨w, s.screen⟩ keyCode
      ⟨Win.line r.win, r.screen⟩
  | Win.char w =>
      let r := ConCharInputWindow.HandleKey ⟨w, s.screen⟩ keyCode
      ⟨Win.char r.win, r.screen⟩

/-- Virtual dispatch of `HandleFunctionKey`: only `ConLineInputWindow`
overrides the base handler, and every handler does nothing. -/
def Win.HandleFunctionKey (s : Run Win) (code : Int) : Run Win :=
  match s.win with
  | Win.base w =>
      let r := ConWindowBase.HandleFunctionKey ⟨w, s.screen⟩ code
      ⟨Win.base r.win, r.screen⟩
  | Win.text w =>
      let r := ConWindowBase.HandleFunctionKey ⟨w.toConWindowBase, s.screen⟩ code
      ⟨Win.text { w with toConWindowBase := r.win }, r.screen⟩
  | Win.line w =>
      let r := ConLineInputWindow.HandleFunctionKey ⟨w, s.screen⟩ code
      ⟨Win.line r.win, r.screen⟩
  | Win.char w =>
      let r := ConWindowBase.HandleFunctionKey ⟨w.toConWindowBase, s.screen⟩ code
      ⟨Win.char { w with toConWindowBase := r.win }, r.screen⟩

/-- One console (at address `conAddr`), the window objects that are alive,
and the surface log. Dereferencing the address of a dead object is undefined
in the source; the operations below leave the state as it is there. -/
structure World where
  con : Console
  conAddr : Nat
  heap : Nat → Option Win
  screen : Screen

/-- The constructor `Console::Console`, no window alive, nothing drawn;
`mRect`, `mScreenRect` and `mDefaultAttributes` are not initialised by the
constructor and are parameters. -/
def World.fresh (conAddr : Nat) (rect screenRect : ConRect) (attr : Int) : World :=
  { con := { mRect := rect, mScreenRect := screenRect, mWindows := [], mFocusWindow := none,
             mHandle := INVALID_HANDLE_VALUE, mDefaultAttributes := attr },
    conAddr := conAddr, heap := fun _ => none, screen := [] }

/-- A write through a window pointer: the base part of the object at `p`. -/
def World.modifyBase (W : World) (p : Nat) (f : ConWindowBase → ConWindowBase) : World :=
  match W.heap p with
  | none => W
  | some win =>
      { W with heap := fun a => if a = p then some (win.withBase (f win.toBase)) else W.heap a }

/-- The base part read through a window pointer. -/
def World.peer (W : World) (p : Nat) : ConWindowBase :=
  match W.heap p with
  | some win => win.toBase
  | none => ConWindowBase.init ⟨0, 0, 0, 0⟩

/-- The call `p->HasFocus()`. -/
def World.HasFocus (W : World) (p : Nat) : Bool := (W.peer p).HasFocus

/-- The read `p->mOwner`. -/
def World.ownerOf (W : World) (p : Nat) : Option Nat := (W.peer p).mOwner

/-- Embeds `Console::ResetCursor` in the console's own state. -/
def World.ResetCursor (W : World) : World :=
  { W with screen := W.screen ++ [W.con.ResetCursor (W.con.mFocusWindow.map W.peer)] }

/-- Lines 98-99 of `SetFocusWindow`: `if ( mFocusWindow ) mFocusWindow->mbFocus = false`. -/
def World.clearFocusFlag (W : World) : World :=
  match W.con.mFocusWindow with
  | some f => W.modifyBase f fun b => { b with mbFocus := false }
  | none => W

/-- Lines 101-102 of `SetFocusWindow`: `if ( pWindow ) pWindow->mbFocus = true`. -/
def World.setFocusFlag (W : World) (pWindow : Option Nat) : World :=
  match pWindow with
  | some p => W.modifyBase p fun b => { b with mbFocus := true }
  | none => W

/-- Embeds `Console::SetFocusWindow`. -/
def World.SetFocusWindow (W : World) (pWindow : Option Nat) : World :=
  if (∃ p, pWindow = some p ∧ W.ownerOf p ≠ some W.conAddr) then W
  else if W.con.mFocusWindow = pWindow then W
  else
    let W2 := W.clearFocusFlag.setFocusFlag pWindow
    World.ResetCursor { W2 with con := { W2.con with mFocusWindow := pWindow } }

/-- Embeds `Console::AddWindow`. -/
def World.AddWindow (W : World) (pWindow : Nat) : World :=
  if W.ownerOf pWindow ≠ none then W
  else
    World.modifyBase { W with con := { W.con with mWindows := W.con.mWindows ++ [pWindow] } }
      pWindow fun b => { b with mOwner := some W.conAddr }

/-- Embeds `Console::RemoveWindow`. -/
def World.RemoveWindow (W : World) (pWindow : Nat) : World :=
  if W.ownerOf pWindow ≠ some W.conAddr then W
  else
    let W1 := if W.con.mFocusWindow = some pWindow then W.SetFocusWindow none else W
    let W2 := W1.modifyBase pWindow fun b => { b with mOwner := none }
    { W2 with con := { W2.con with mWindows := W2.con.mWindows.erase pWindow } }

/-- The loop of `Console::Shutdown`; it makes no progress, and does not end,
when `RemoveWindow` refuses the last registered window: `none`. -/
def World.shutdownLoop : Nat → World → Option World
  | fuel, W =>
      match W.con.mWindows.getLast? with
      | none => some W
      | some p =>
          match fuel with
          | 0 => none
          | fuel + 1 => World.shutdownLoop fuel (W.RemoveWindow p)

/-- Embeds `Console::Shutdown`. -/
def World.Shutdown (W : World) : Option World :=
  match World.shutdownLoop W.con.mWindows.length W with
  | none => none
  | some W1 => some { W1 with con := { W1.con with mHandle := INVALID_HANDLE_VALUE } }

/-- Embeds `ConWindowBase::GiveFocus` on the window at `p`, whose owner is this
console (a null `mOwner` is dereferenced by the source). -/
def World.GiveFocus (W : World) (p : Nat) : World :=
  if W.ownerOf p = some W.conAddr then W.SetFocusWindow (some p) else W

/-- The four window classes. -/
inductive WinKind where
  | base
  | text
  | line
  | char
deriving DecidableEq

/-- The object a class constructor builds for the region `pos`, before the
base constructor registers it. -/
def Win.new : WinKind → ConRect → Win
  | WinKind.base, pos => Win.base (ConWindowBase.init pos)
  | WinKind.text, pos => Win.text (ConScrollingTextWindow.init pos)
  | WinKind.line, pos => Win.line (ConLineInputWindow.init pos)
  | WinKind.char, pos => Win.char (ConCharInputWindow.init pos)

/-- Construction of a window of class `kind` at the unused address `p`: the
members are initialised, then `if ( owner ) owner->AddWindow( this )`. The
only console is the one at `conAddr`. -/
def World.construct (W : World) (p : Nat) (kind : WinKind) (pos : ConRect)
    (owner : Option Nat) : World :=
  let W1 : World := { W with heap := fun a => if a = p then some (Win.new kind pos) else W.heap a }
  if owner = some W.conAddr then W1.AddWindow p else W1

/-- Destruction of the window object at `p`: `~ConWindowBase` unregisters the
window from its owner, then the object is gone. -/
def World.destroy (W : World) (p : Nat) : World :=
  let W1 := if W.ownerOf p = some W.conAddr then W.RemoveWindow p else W
  { W1 with heap := fun a => if a = p then none else W1.heap a }

/-- The context a method of the window at `p` runs in. -/
def World.ctx (W : World) (p : Nat) : OwnerCtx :=
  { owner := W.con, self := p, peers := W.peer }

/-- The call `mFocusWindow->HandleKey( key )`, guarded by `if ( mFocusWindow )`. -/
def World.dispatchKey (W : World) (key : Int) : World :=
  match W.con.mFocusWindow with
  | none => W
  | some f =>
      match W.heap f with
      | none => W
      | some win =>
          let r := Win.HandleKey (W.ctx f) ⟨win, W.screen⟩ key
          { W with heap := fun a => if a = f then some r.win else W.heap a, screen := r.screen }

/-- The call `mFocusWindow->HandleFunctionKey( code )`, guarded likewise. -/
def World.dispatchFunctionKey (W : World) (code : Int) : World :=
  match W.con.mFocusWindow with
  | none => W
  | some f =>
      match W.heap f with
      | none => W
      | some win =>
          let r := Win.HandleFunctionKey ⟨win, W.screen⟩ code
          { W with heap := fun a => if a = f then some r.win else W.heap a, screen := r.screen }

/-- Embeds `Console::Update` on the raw codes that are pending, oldest first:
`_kbhit()` is "the list is not empty", `_getwch()` takes its head. When the
last pending code is an extended-key marker the second `_getwch()` waits for
input that is not there: `none`. -/
def World.Update : World → List Int → Option World
  | W, [] => some W
  | W, key :: rest =>
      if key = 0 ∨ key = 224 then
        match rest with
        | [] => none
        | code :: rest2 => World.Update (W.dispatchFunctionKey code) rest2
      else World.Update (W.dispatchKey key) rest

/-! ## `Console::Initialize` -/

/-- The fields of `CONSOLE_SCREEN_BUFFER_INFO` the source reads. -/
structure ScreenBufferInfo where
  dwSizeX : Int
  dwSizeY : Int
  wAttributes : Int
  srWindowLeft : Int
  srWindowTop : Int
deriving DecidableEq

/-- Embeds `Console::Initialize`. The two calls of `GetConsoleScreenBufferInfo`
are answered by the surface, an external collaborator: `query1` and `query2`
are its answers (`none` when the call fails). The result is the new state and
the returned boolean. -/
def World.Initialize (W : World) (consoleHandle : Int)
    (query1 query2 : Option ScreenBufferInfo) : World × Bool :=
  if W.con.mHandle ≠ INVALID_HANDLE_VALUE then (W, false)
  else
    let W1 : World := { W with con := { W.con with mHandle := consoleHandle } }
    match query1 with
    | none => (W1, false)
    | some info =>
        let W2 : World :=
          { W1 with con := { W1.con with mRect := ⟨0, 0, info.dwSizeX - 1, info.dwSizeY⟩,
                                         mDefaultAttributes := info.wAttributes } }
        let consoleSize : Int := info.dwSizeX * info.dwSizeY
        let W3 : World :=
          { W2 with screen := W2.screen ++
              [SurfaceOp.FillConsoleOutputCharacter W2.con.mHandle blank consoleSize 0 0,
               SurfaceOp.FillConsoleOutputAttribute W2.con.mHandle W2.con.mDefaultAttributes
                 consoleSize 0 0] }
        let W4 := World.ResetCursor W3
        match query2 with
        | none => (W4, false)
        | some info2 =>
            ({ W4 with con := { W4.con with mScreenRect :=
                ⟨info2.srWindowLeft, info2.srWindowTop,
                 W4.con.mRect.w - info2.srWindowLeft, W4.con.mRect.h - info2.srWindowTop⟩ } },
              true)

/-! ## Repeated reads and calls -/

/-- The results of `n` successive calls of `ReadChar`, oldest first, and the
window after them. -/
def ConCharInputWindow.readMany : Nat → ConCharInputWindow → ConCharInputWindow × List (Option Int)
  | 0, win => (win, [])
  | n + 1, win =>
      ((ConCharInputWindow.readMany n (ConCharInputWindow.ReadChar win).1).1,
        (ConCharInputWindow.ReadChar win).2 ::
          (ConCharInputWindow.readMany n (ConCharInputWindow.ReadChar win).1).2)

/-! ## Observations on a scrolling text window -/

/-- Whether a surface call is a cell write (`WriteConsoleOutput`). -/
def SurfaceOp.isCellWrite : SurfaceOp → Bool
  | SurfaceOp.WriteConsoleOutput _ _ _ _ _ _ _ => true
  | _ => false

/-- The cell writes of a surface log, in order. -/
def cellWrites (scr : Screen) : List SurfaceOp := scr.filter SurfaceOp.isCellWrite

/-- The cell writes that put the characters of `text` on the row `row` of a
window, in consecutive columns from `col` rightwards. -/
def rowWrites (ctx : OwnerCtx) (pos : ConRect) (row : Int) : Int → List Int → List SurfaceOp
  | _, [] => []
  | col, c :: rest => cellWrite ctx pos row col (toWchar c) :: rowWrites ctx pos row (col + 1) rest

/-- The output position is inside the window: `0 <= y < h` and `0 <= x <= w`
(the column may be parked one past the last column), for a window with
`w > 0` and `h > 0`. -/
def ConScrollingTextWindow.outputOk (win : ConScrollingTextWindow) : Prop :=
  0 < win.mPos.w ∧ 0 < win.mPos.h ∧ 0 ≤ win.mOutputLoc.x ∧ win.mOutputLoc.x ≤ win.mPos.w ∧
    0 ≤ win.mOutputLoc.y ∧ win.mOutputLoc.y < win.mPos.h

instance (win : ConScrollingTextWindow) : Decidable win.outputOk := by
  unfold ConScrollingTextWindow.outputOk; infer_instance

/-- A freshly constructed scrolling text window for the region `pos`, attached
to the console at address `owner`, and an empty surface log. -/
def freshText (owner : Nat) (pos : ConRect) : Run ConScrollingTextWindow :=
  { win := { ConScrollingTextWindow.init pos with mOwner := some owner }, screen := [] }

/-- The state `t` is a later state of the window of `s`: same region, and the
surface log of `s` extended by further calls. -/
def laterState (s t : Run ConScrollingTextWindow) : Prop :=
  t.win.mPos = s.win.mPos ∧ ∃ ops, t.screen = s.screen ++ ops

/-- The function `Write_WordWrap` with its counter `nNewLines` starting at `n`: what is
left of a call of `Write_WordWrap` after `n` newlines have been written. -/
def ConScrollingTextWindow.wrapFrom (ctx : OwnerCtx) (s : Run ConScrollingTextWindow)
    (text : List Int) (lineLen : Int) (n : Int) (fuel : Nat) :
    Option (Run ConScrollingTextWindow × Int) :=
  match ConScrollingTextWindow.Write_WordWrap_Line ctx s text lineLen with
  | none => none
  | some r => ConScrollingTextWindow.wrapLoop ctx lineLen fuel r.1 r.2 n

/-- The whitespace run a text ends with, last character first. -/
def trailingSpaces (text : List Int) : List Int := text.reverse.takeWhile isspace

/-! ## Call sequences on a scrolling text window -/

/-- One call, which returns, of a writing method of a scrolling text window:
`Write`, `Write_WordWrap`, `Write_WordWrap_Line` or `Clear`, with any
arguments and in any state of the owning console. -/
inductive TextStep : Run ConScrollingTextWindow → Run ConScrollingTextWindow → Prop where
  | write (ctx : OwnerCtx) (s : Run ConScrollingTextWindow) (text : List Int) :
      TextStep s (ConScrollingTextWindow.Write ctx s text)
  | wordWrap (ctx : OwnerCtx) (s r : Run ConScrollingTextWindow) (text : List Int)
      (lineLen : Int) (fuel : Nat) (n : Int)
      (h : ConScrollingTextWindow.Write_WordWrap ctx s text lineLen fuel = some (r, n)) :
      TextStep s r
  | wordWrapLine (ctx : OwnerCtx) (s r : Run ConScrollingTextWindow) (text : List Int)
      (lineLen : Int) (rest : Option (List Int))
      (h : ConScrollingTextWindow.Write_WordWrap_Line ctx s text lineLen = some (r, rest)) :
      TextStep s r
  | clear (ctx : OwnerCtx) (s : Run ConScrollingTextWindow) :
      TextStep s (ConScrollingTextWindow.Clear ctx s)

/-- The states of a scrolling text window constructed for the region `pos`
after any sequence of such calls. -/
inductive TextReachable (owner : Nat) (pos : ConRect) : Run ConScrollingTextWindow → Prop where
  | fresh : TextReachable owner pos (freshText owner pos)
  | step {s t : Run ConScrollingTextWindow} :
      TextReachable owner pos s → TextStep s t → TextReachable owner pos t

/-! ## Reachable states of the console -/

/-- One call a client of the library can make on the console and its
windows: constructing a window at an unused address (detached, or owned by
the console), destroying a live window, `AddWindow` / `RemoveWindow` on a
live window, `SetFocusWindow` on null or a live window, `GiveFocus` on a live
window, and `Shutdown`. -/
inductive World.Step : World → World → Prop
  | construct (W : World) (p : Nat) (kind : WinKind) (pos : ConRect) (owner : Option Nat) :
      W.heap p = none → (owner = none ∨ owner = some W.conAddr) →
        World.Step W (W.construct p kind pos owner)
  | destroy (W : World) (p : Nat) :
      (W.heap p).isSome = true → World.Step W (W.destroy p)
  | addWindow (W : World) (p : Nat) :
      (W.heap p).isSome = true → World.Step W (W.AddWindow p)
  | removeWindow (W : World) (p : Nat) :
      (W.heap p).isSome = true → World.Step W (W.RemoveWindow p)
  | setFocusWindow (W : World) (pWindow : Option Nat) :
      (∀ p, pWindow = some p → (W.heap p).isSome = true) →
        World.Step W (W.SetFocusWindow pWindow)
  | giveFocus (W : World) (p : Nat) :
      (W.heap p).isSome = true → World.Step W (W.GiveFocus p)
  | shutdown (W V : World) :
      W.Shutdown = some V → World.Step W V

/-- The states reachable from a freshly constructed console. -/
inductive World.Reachable : World → Prop
  | fresh (conAddr : Nat) (rect screenRect : ConRect) (attr : Int) :
      World.Reachable (World.fresh conAddr rect screenRect attr)
  | step (W V : World) : World.Reachable W → World.Step W V → World.Reachable V

/-- The invariant of the console: the focus flag of a window is set exactly
when the console's focus reference is that window; the focus reference is
registered; the registered windows are alive and owned by the console; a
window owned by the console is registered; no window is registered twice. -/
def World.Inv (W : World) : Prop :=
  (∀ p, (W.peer p).mbFocus = true ↔ W.con.mFocusWindow = some p) ∧
  (∀ f, W.con.mFocusWindow = some f → f ∈ W.con.mWindows) ∧
  (∀ p, p ∈ W.con.mWindows → (W.heap p).isSome = true ∧ (W.peer p).mOwner = some W.conAddr) ∧
  (∀ p, (W.peer p).mOwner = some W.conAddr → p ∈ W.con.mWindows) ∧
  W.con.mWindows.Nodup

/-! ## Concrete values used to instantiate the theorems -/

/-- A console with an open handle. -/
def demoConsole : Console :=
  { mRect := ⟨0, 0, 79, 25⟩, mScreenRect := ⟨0, 0, 79, 25⟩, mWindows := [1], mFocusWindow := none,
    mHandle := 7, mDefaultAttributes := 7 }

/-- The context of the window at address 1 of `demoConsole`. -/
def demoCtx : OwnerCtx :=
  { owner := demoConsole, self := 1, peers := fun _ => ConWindowBase.init ⟨0, 0, 0, 0⟩ }

/-- A 3 x 2 window whose buffer holds arbitrary data. -/
def demoWindow : ConWindowBase :=
  { mOwner := some 0, mbFocus := false, mPos := ⟨5, 5, 3, 2⟩, mCursor := ⟨0, 0⟩,
    mData := [1, 2, 3, 4, 5, 6] }

/-- A freshly constructed line input window, 8 x 1, attached to the console at 0. -/
def demoLineWindow : ConLineInputWindow :=
  { ConLineInputWindow.init ⟨0, 24, 8, 1⟩ with mOwner := some 0 }

/-- A console at address 0 with two windows it owns: a line input window at
address 1 and a char input window at address 2. -/
def demoWorld : World :=
  ((World.fresh 0 ⟨0, 0, 79, 25⟩ ⟨0, 0, 79, 25⟩ 7).construct 1 WinKind.line ⟨0, 24, 8, 1⟩
    (some 0)).construct 2 WinKind.char ⟨0, 0, 8, 4⟩ (some 0)

/-! ## Basic facts on the buffer -/

theorem cell_index_lt {w h row col : Int} (h0 : 0 ≤ row) (h1 : row < h) (h2 : 0 ≤ col)
    (h3 : col < w) : (row * w + col).toNat < (w * h).toNat := by
  have hw : 0 < w := by omega
  have e1 : row * w + col < w * h := by
    have : (row + 1) * w ≤ h * w := by
      apply Int.mul_le_mul_of_nonneg_right <;> omega
    nlinarith
  have e0 : 0 ≤ row * w + col := add_nonneg (mul_nonneg h0 (le_of_lt hw)) h2
  omega

theorem cell_index_inj {w row col row2 col2 : Int} (h0 : 0 ≤ row) (h2 : 0 ≤ col)
    (h3 : col < w) (k0 : 0 ≤ row2) (k2 : 0 ≤ col2) (k3 : col2 < w)
    (e : (row * w + col).toNat = (row2 * w + col2).toNat) : row = row2 ∧ col = col2 := by
  have hw : 0 ≤ w := by omega
  have a0 : 0 ≤ row * w + col := add_nonneg (mul_nonneg h0 hw) h2
  have b0 : 0 ≤ row2 * w + col2 := add_nonneg (mul_nonneg k0 hw) k2
  have e2 : row * w + col = row2 * w + col2 := by omega
  have hrow : row = row2 := by
    rcases lt_trichotomy row row2 with hlt | heq | hgt
    · have : (row + 1) * w ≤ row2 * w := by
        apply Int.mul_le_mul_of_nonneg_right <;> omega
      nlinarith
    · exact heq
    · have : (row2 + 1) * w ≤ row * w := by
        apply Int.mul_le_mul_of_nonneg_right <;> omega
      nlinarith
  subst hrow
  exact ⟨rfl, by omega⟩

theorem GetChar_SetChar_same (ctx : OwnerCtx) (s : Run ConWindowBase) (row col c : Int)
    (hsz : s.win.sizeOk) (h0 : 0 ≤ row) (h1 : row < s.win.mPos.h) (h2 : 0 ≤ col)
    (h3 : col < s.win.mPos.w) :
    (ConWindowBase.SetChar ctx s row col c).win.GetChar row col = c := by
  have hlt := cell_index_lt h0 h1 h2 h3
  unfold ConWindowBase.sizeOk at hsz
  have hr : ¬ (row < 0 ∨ row ≥ s.win.mPos.h ∨ col < 0 ∨ col ≥ s.win.mPos.w) := by omega
  simp only [ConWindowBase.SetChar, ConWindowBase.GetChar, if_neg hr]
  rw [List.getD_eq_getElem?_getD, List.getElem?_set_self (by omega)]
  rfl


theorem GetChar_out_of_range (win : ConWindowBase) (row col : Int)
    (h : row < 0 ∨ win.mPos.h ≤ row ∨ col < 0 ∨ win.mPos.w ≤ col) :
    win.GetChar row col = 0 := by
  have hr : row < 0 ∨ row ≥ win.mPos.h ∨ col < 0 ∨ col ≥ win.mPos.w := by omega
  simp only [ConWindowBase.GetChar, if_pos hr]

theorem SetChar_out_of_range (ctx : OwnerCtx) (s : Run ConWindowBase) (row col c : Int)
    (h : row < 0 ∨ s.win.mPos.h ≤ row ∨ col < 0 ∨ s.win.mPos.w ≤ col) :
    ConWindowBase.SetChar ctx s row col c = s := by
  have hr : row < 0 ∨ row ≥ s.win.mPos.h ∨ col < 0 ∨ col ≥ s.win.mPos.w := by omega
  simp only [ConWindowBase.SetChar, if_pos hr]

/-! ## Claims C1 and C2: the buffer primitives -/

/-- C1: for an in-range position of a window whose buffer has its `w * h`
cells, `GetChar(row, col)` after `SetChar(row, col, c)` returns `c`, whatever
the buffer held before. -/
theorem C1_GetChar_after_SetChar (ctx : OwnerCtx) (s : Run ConWindowBase) (row col c : Int)
    (hsz : s.win.sizeOk) (h0 : 0 ≤ row) (h1 : row < s.win.mPos.h) (h2 : 0 ≤ col)
    (h3 : col < s.win.mPos.w) :
    (ConWindowBase.SetChar ctx s row col c).win.GetChar row col = c :=
  GetChar_SetChar_same ctx s row col c hsz h0 h1 h2 h3

/-- C1 at the 3 x 2 window `demoWindow`, row 1, column 2, code unit 65. -/
theorem C1_GetChar_after_SetChar_witness :
    demoWindow.sizeOk ∧ (0 : Int) ≤ 1 ∧ (1 : Int) < demoWindow.mPos.h ∧ (0 : Int) ≤ 2 ∧
      (2 : Int) < demoWindow.mPos.w ∧
      (ConWindowBase.SetChar demoCtx ⟨demoWindow, []⟩ 1 2 65).win.GetChar 1 2 = 65 :=
  ⟨by decide, by decide, by decide, by decide, by decide,
    C1_GetChar_after_SetChar demoCtx ⟨demoWindow, []⟩ 1 2 65
      (by decide) (by decide) (by decide) (by decide) (by decide)⟩

/-- C2: for a position with `row` outside `[0, h)` or `col` outside `[0, w)`,
`SetChar` returns the state it was given (window and surface log alike) and
`GetChar` returns 0, whatever the buffer holds. -/
theorem C2_out_of_range_noop (ctx : OwnerCtx) (s : Run ConWindowBase) (row col c : Int)
    (h : row < 0 ∨ s.win.mPos.h ≤ row ∨ col < 0 ∨ s.win.mPos.w ≤ col) :
    ConWindowBase.SetChar ctx s row col c = s ∧ s.win.GetChar row col = 0 :=
  ⟨SetChar_out_of_range ctx s row col c h, GetChar_out_of_range s.win row col h⟩

/-- C2 at the 3 x 2 window `demoWindow`, row 2 (one past the last row). -/
theorem C2_out_of_range_noop_witness :
    ((2 : Int) < 0 ∨ demoWindow.mPos.h ≤ 2 ∨ (1 : Int) < 0 ∨ demoWindow.mPos.w ≤ 1) ∧
      ConWindowBase.SetChar demoCtx ⟨demoWindow, []⟩ 2 1 65 = ⟨demoWindow, []⟩ ∧
      demoWindow.GetChar 2 1 = 0 :=
  ⟨by decide, C2_out_of_range_noop demoCtx ⟨demoWindow, []⟩ 2 1 65 (by decide)⟩

/-! ## Line input: the edit buffer and the pending queue -/

theorem lineFold_cur {ι : Type} (f : Run ConLineInputWindow → ι → Run ConLineInputWindow)
    (h : ∀ a i, (f a i).win.mCurrentInput = a.win.mCurrentInput) (l : List ι)
    (a : Run ConLineInputWindow) :
    (l.foldl f a).win.mCurrentInput = a.win.mCurrentInput := by
  induction l generalizing a with
  | nil => rfl
  | cons i l ih => rw [List.foldl_cons, ih, h]

theorem lineFold_pend {ι : Type} (f : Run ConLineInputWindow → ι → Run ConLineInputWindow)
    (h : ∀ a i, (f a i).win.mPendingInput = a.win.mPendingInput) (l : List ι)
    (a : Run ConLineInputWindow) :
    (l.foldl f a).win.mPendingInput = a.win.mPendingInput := by
  induction l generalizing a with
  | nil => rfl
  | cons i l ih => rw [List.foldl_cons, ih, h]

theorem UpdateInputLine_edit (ctx : OwnerCtx) (s : Run ConLineInputWindow) :
    (ConLineInputWindow.UpdateInputLine ctx s).win.mCurrentInput = s.win.mCurrentInput ∧
      (ConLineInputWindow.UpdateInputLine ctx s).win.mPendingInput = s.win.mPendingInput := by
  unfold ConLineInputWindow.UpdateInputLine
  simp only []
  constructor
  · refine (lineFold_cur _ ?_ _ _).trans (lineFold_cur _ ?_ _ _)
    · intro a i; rfl
    · intro a i; rfl
  · refine (lineFold_pend _ ?_ _ _).trans (lineFold_pend _ ?_ _ _)
    · intro a i; rfl
    · intro a i; rfl

theorem HandleKey_edit (ctx : OwnerCtx) (s : Run ConLineInputWindow) (keyCode : Int) :
    (ConLineInputWindow.HandleKey ctx s keyCode).win.mCurrentInput
        = (ConLineInputWindow.editKey s.win keyCode).mCurrentInput ∧
      (ConLineInputWindow.HandleKey ctx s keyCode).win.mPendingInput
        = (ConLineInputWindow.editKey s.win keyCode).mPendingInput := by
  unfold ConLineInputWindow.HandleKey ConLineInputWindow.ResetCursor
  have h := UpdateInputLine_edit ctx { s with win := ConLineInputWindow.editKey s.win keyCode }
  exact ⟨h.1, h.2⟩


theorem toWchar_ascii (k : Int) (h0 : 0 ≤ k) (h1 : k < 128) : toWchar k = k := by
  unfold toWchar; omega

theorem toChar_ascii (k : Int) (h0 : 0 ≤ k) (h1 : k < 128) : toChar k = k := by
  unfold toChar; omega

theorem map_toChar_ascii (keys : List Int) (h : ∀ k ∈ keys, 0 ≤ k ∧ k < 128) :
    keys.map toChar = keys := by
  induction keys with
  | nil => rfl
  | cons k ks ih =>
      have hk := h k (List.mem_cons_self k ks)
      rw [List.map_cons, toChar_ascii k hk.1 hk.2,
        ih (fun a ha => h a (List.mem_cons_of_mem k ha))]

theorem editKey_plain (win : ConLineInputWindow) (k : Int)
    (h : 0 ≤ k ∧ k < 128 ∧ k ≠ 13 ∧ k ≠ 8) :
    (ConLineInputWindow.editKey win k).mCurrentInput = win.mCurrentInput ++ [k] ∧
      (ConLineInputWindow.editKey win k).mPendingInput = win.mPendingInput := by
  have h128 : ¬ (k ≥ 128) := by omega
  simp only [ConLineInputWindow.editKey, if_neg h.2.2.1, if_neg h.2.2.2, if_neg h128,
    toWchar_ascii k h.1 h.2.1, and_self]

theorem HandleKey_plain_keys (ctx : OwnerCtx) (keys : List Int) (s : Run ConLineInputWindow)
    (h : ∀ k ∈ keys, 0 ≤ k ∧ k < 128 ∧ k ≠ 13 ∧ k ≠ 8) :
    (keys.foldl (ConLineInputWindow.HandleKey ctx) s).win.mCurrentInput
        = s.win.mCurrentInput ++ keys ∧
      (keys.foldl (ConLineInputWindow.HandleKey ctx) s).win.mPendingInput
        = s.win.mPendingInput := by
  induction keys generalizing s with
  | nil => simp
  | cons k ks ih =>
      have hk := h k (List.mem_cons_self k ks)
      have hrest := ih (ConLineInputWindow.HandleKey ctx s k)
        (fun a ha => h a (List.mem_cons_of_mem k ha))
      have hstep := HandleKey_edit ctx s k
      have hedit := editKey_plain s.win k hk
      rw [List.foldl_cons, hrest.1, hrest.2, hstep.1, hstep.2, hedit.1, hedit.2]
      simp

theorem HandleKey_return (ctx : OwnerCtx) (s : Run ConLineInputWindow) :
    (ConLineInputWindow.HandleKey ctx s 13).win.mCurrentInput = [] ∧
      (ConLineInputWindow.HandleKey ctx s 13).win.mPendingInput
        = s.win.mPendingInput ++ [s.win.mCurrentInput.map toChar] := by
  have hstep := HandleKey_edit ctx s 13
  rw [hstep.1, hstep.2]
  simp [ConLineInputWindow.editKey]

theorem HandleKey_backspace (ctx : OwnerCtx) (s : Run ConLineInputWindow) :
    (ConLineInputWindow.HandleKey ctx s 8).win.mCurrentInput = s.win.mCurrentInput.dropLast ∧
      (ConLineInputWindow.HandleKey ctx s 8).win.mPendingInput = s.win.mPendingInput := by
  have hstep := HandleKey_edit ctx s 8
  rw [hstep.1, hstep.2]
  by_cases hne : s.win.mCurrentInput = []
  · simp [ConLineInputWindow.editKey, hne]
  · simp [ConLineInputWindow.editKey, hne]

/-! ## Claims C7 and C8: line input -/

/-- C7: on a line input window with empty edit buffer and empty pending
queue, after the keys of `keys` (codes in `[0, 0x80)`, none a carriage return
or a backspace) and then a carriage return, `ReadLine` returns true with
exactly `keys`, and the next `ReadLine` returns false. -/
theorem C7_line_input_round_trip (ctx : OwnerCtx) (s : Run ConLineInputWindow)
    (keys : List Int) (hcur : s.win.mCurrentInput = []) (hpend : s.win.mPendingInput = [])
    (hkeys : ∀ k ∈ keys, 0 ≤ k ∧ k < 128 ∧ k ≠ 13 ∧ k ≠ 8) :
    (ConLineInputWindow.ReadLine
        (ConLineInputWindow.HandleKey ctx
          (keys.foldl (ConLineInputWindow.HandleKey ctx) s) 13).win).2 = some keys ∧
      (ConLineInputWindow.ReadLine
        (ConLineInputWindow.ReadLine
          (ConLineInputWindow.HandleKey ctx
            (keys.foldl (ConLineInputWindow.HandleKey ctx) s) 13).win).1).2 = none := by
  have hk := HandleKey_plain_keys ctx keys s hkeys
  have hr := HandleKey_return ctx (keys.foldl (ConLineInputWindow.HandleKey ctx) s)
  rw [hk.1, hk.2, hcur, hpend, List.nil_append, List.nil_append,
    map_toChar_ascii keys (fun k hkm => ⟨(hkeys k hkm).1, (hkeys k hkm).2.1⟩)] at hr
  simp [ConLineInputWindow.ReadLine, hr.2]

/-- C7 at the key sequence "abc" on a freshly constructed 8 x 1 line input window. -/
theorem C7_line_input_round_trip_witness :
    demoLineWindow.mCurrentInput = [] ∧ demoLineWindow.mPendingInput = [] ∧
      (∀ k ∈ cstr "abc", 0 ≤ k ∧ k < 128 ∧ k ≠ 13 ∧ k ≠ 8) ∧
      (ConLineInputWindow.ReadLine
        (ConLineInputWindow.HandleKey demoCtx
          ((cstr "abc").foldl (ConLineInputWindow.HandleKey demoCtx) ⟨demoLineWindow, []⟩)
            13).win).2 = some (cstr "abc") ∧
      (ConLineInputWindow.ReadLine
        (ConLineInputWindow.ReadLine
          (ConLineInputWindow.HandleKey demoCtx
            ((cstr "abc").foldl (ConLineInputWindow.HandleKey demoCtx) ⟨demoLineWindow, []⟩)
              13).win).1).2 = none :=
  ⟨rfl, rfl, by decide,
    C7_line_input_round_trip demoCtx ⟨demoLineWindow, []⟩ (cstr "abc") rfl rfl (by decide)⟩

/-- C8: a backspace key removes exactly the last code unit of the edit buffer
(nothing when the buffer is empty: its length is the old length minus one,
truncated at zero) and leaves the pending-lines queue unchanged. -/
theorem C8_backspace (ctx : OwnerCtx) (s : Run ConLineInputWindow) :
    (ConLineInputWindow.HandleKey ctx s 8).win.mCurrentInput = s.win.mCurrentInput.dropLast ∧
      (ConLineInputWindow.HandleKey ctx s 8).win.mCurrentInput.length
        = s.win.mCurrentInput.length - 1 ∧
      (ConLineInputWindow.HandleKey ctx (⟨{ s.win with mCurrentInput := [] }, s.screen⟩) 8).win.mCurrentInput
        = [] ∧
      (ConLineInputWindow.HandleKey ctx s 8).win.mPendingInput = s.win.mPendingInput := by
  have h := HandleKey_backspace ctx s
  have h0 := HandleKey_backspace ctx (⟨{ s.win with mCurrentInput := [] }, s.screen⟩)
  refine ⟨h.1, ?_, ?_, h.2⟩
  · rw [h.1, List.length_dropLast]
  · rw [h0.1]; rfl


/-! ## The console: reads and writes through window pointers -/

theorem Win.toBase_withBase (win : Win) (b : ConWindowBase) : (win.withBase b).toBase = b := by
  cases win <;> rfl

theorem World.modifyBase_con (W : World) (p : Nat) (f : ConWindowBase → ConWindowBase) :
    (W.modifyBase p f).con = W.con ∧ (W.modifyBase p f).conAddr = W.conAddr ∧
      (W.modifyBase p f).screen = W.screen := by
  unfold World.modifyBase
  cases W.heap p <;> exact ⟨rfl, rfl, rfl⟩

theorem World.modifyBase_heap_ne (W : World) (p q : Nat) (f : ConWindowBase → ConWindowBase)
    (h : q ≠ p) : (W.modifyBase p f).heap q = W.heap q := by
  unfold World.modifyBase
  cases W.heap p with
  | none => rfl
  | some win => simp only [if_neg h]

theorem World.modifyBase_live (W : World) (p q : Nat) (f : ConWindowBase → ConWindowBase) :
    ((W.modifyBase p f).heap q).isSome = (W.heap q).isSome := by
  by_cases h : q = p
  · subst h
    unfold World.modifyBase
    cases hq : W.heap q with
    | none => simp only [hq]
    | some win => simp only [if_true, Option.isSome_some]
  · rw [World.modifyBase_heap_ne W p q f h]

theorem World.modifyBase_peer (W : World) (p q : Nat) (f : ConWindowBase → ConWindowBase) :
    (W.modifyBase p f).peer q
      = if q = p ∧ (W.heap p).isSome = true then f (W.peer p) else W.peer q := by
  by_cases h : q = p
  · subst h
    unfold World.peer World.modifyBase
    cases hq : W.heap q with
    | none => simp [hq]
    | some win => simp [Win.toBase_withBase]
  · have hn : ¬ (q = p ∧ (W.heap p).isSome = true) := fun hc => h hc.1
    rw [if_neg hn]
    unfold World.peer
    rw [World.modifyBase_heap_ne W p q f h]

theorem World.peer_dead (W : World) (p : Nat) (h : (W.heap p).isSome = false) :
    W.peer p = ConWindowBase.init ⟨0, 0, 0, 0⟩ := by
  unfold World.peer
  cases hp : W.heap p with
  | none => rfl
  | some win => rw [hp] at h; simp at h

theorem World.peer_heap_eq (W V : World) (q : Nat) (h : V.heap q = W.heap q) :
    V.peer q = W.peer q := by
  unfold World.peer; rw [h]

theorem World.clearFocusFlag_spec (W : World) :
    W.clearFocusFlag.con = W.con ∧ W.clearFocusFlag.conAddr = W.conAddr ∧
      W.clearFocusFlag.screen = W.screen ∧
      (∀ q, (W.clearFocusFlag.heap q).isSome = (W.heap q).isSome) ∧
      (∀ q, W.clearFocusFlag.peer q =
        if W.con.mFocusWindow = some q ∧ (W.heap q).isSome = true
        then { W.peer q with mbFocus := false } else W.peer q) := by
  unfold World.clearFocusFlag
  cases hf : W.con.mFocusWindow with
  | none => simp
  | some f =>
      refine ⟨(World.modifyBase_con W f _).1, (World.modifyBase_con W f _).2.1,
        (World.modifyBase_con W f _).2.2, fun q => World.modifyBase_live W f q _, ?_⟩
      intro q
      rw [World.modifyBase_peer]
      by_cases hq : q = f
      · subst hq; simp
      · have hq2 : ¬ (f = q) := fun e => hq e.symm
        simp [hq, hq2]

theorem World.setFocusFlag_spec (W : World) (pWindow : Option Nat) :
    (W.setFocusFlag pWindow).con = W.con ∧ (W.setFocusFlag pWindow).conAddr = W.conAddr ∧
      (W.setFocusFlag pWindow).screen = W.screen ∧
      (∀ q, ((W.setFocusFlag pWindow).heap q).isSome = (W.heap q).isSome) ∧
      (∀ q, (W.setFocusFlag pWindow).peer q =
        if pWindow = some q ∧ (W.heap q).isSome = true
        then { W.peer q with mbFocus := true } else W.peer q) := by
  unfold World.setFocusFlag
  cases hp : pWindow with
  | none => simp
  | some p =>
      refine ⟨(World.modifyBase_con W p _).1, (World.modifyBase_con W p _).2.1,
        (World.modifyBase_con W p _).2.2, fun q => World.modifyBase_live W p q _, ?_⟩
      intro q
      rw [World.modifyBase_peer]
      by_cases hq : q = p
      · subst hq; simp
      · have hq2 : ¬ (p = q) := fun e => hq e.symm
        simp [hq, hq2]

/-- The state `SetFocusWindow` builds when it neither rejects the window nor
finds it focused already. -/
theorem World.SetFocusWindow_changed (W : World) (pWindow : Option Nat)
    (hacc : ∀ p, pWindow = some p → W.ownerOf p = some W.conAddr)
    (hne : W.con.mFocusWindow ≠ pWindow) :
    (W.SetFocusWindow pWindow).con = { W.con with mFocusWindow := pWindow } ∧
      (W.SetFocusWindow pWindow).conAddr = W.conAddr ∧
      (∀ q, ((W.SetFocusWindow pWindow).heap q).isSome = (W.heap q).isSome) ∧
      (∀ q, (W.SetFocusWindow pWindow).peer q =
        if pWindow = some q ∧ (W.heap q).isSome = true
        then { W.peer q with mbFocus := true }
        else if W.con.mFocusWindow = some q ∧ (W.heap q).isSome = true
        then { W.peer q with mbFocus := false } else W.peer q) := by
  have hrej : ¬ (∃ p, pWindow = some p ∧ W.ownerOf p ≠ some W.conAddr) := by
    rintro ⟨p, hp, hown⟩
    exact hown (hacc p hp)
  have h1 := World.clearFocusFlag_spec W
  have h2 := World.setFocusFlag_spec W.clearFocusFlag pWindow
  unfold World.SetFocusWindow
  rw [if_neg hrej, if_neg hne]
  refine ⟨?_, ?_, ?_, ?_⟩
  · show ({ (W.clearFocusFlag.setFocusFlag pWindow).con with mFocusWindow := pWindow } : Console) = _
    rw [h2.1, h1.1]
  · show (W.clearFocusFlag.setFocusFlag pWindow).conAddr = _
    rw [h2.2.1, h1.2.1]
  · intro q
    show ((W.clearFocusFlag.setFocusFlag pWindow).heap q).isSome = _
    rw [h2.2.2.2.1, h1.2.2.2.1]
  · intro q
    show (W.clearFocusFlag.setFocusFlag pWindow).peer q = _
    rw [h2.2.2.2.2, h1.2.2.2.2, h1.2.2.2.1]
    by_cases hpq : pWindow = some q ∧ (W.heap q).isSome = true
    · rw [if_pos hpq, if_pos hpq]
      split_ifs <;> rfl
    · rw [if_neg hpq, if_neg hpq]

theorem World.SetFocusWindow_same (W : World) (pWindow : Option Nat)
    (h : W.con.mFocusWindow = pWindow) : W.SetFocusWindow pWindow = W := by
  unfold World.SetFocusWindow
  rw [if_pos h]
  split_ifs <;> rfl

theorem World.SetFocusWindow_rejected (W : World) (p : Nat)
    (h : W.ownerOf p ≠ some W.conAddr) : W.SetFocusWindow (some p) = W := by
  unfold World.SetFocusWindow
  rw [if_pos ⟨p, rfl, h⟩]


theorem World.SetFocusWindow_accepted (W : World) (pWindow : Option Nat)
    (hacc : ∀ p, pWindow = some p → W.ownerOf p = some W.conAddr) :
    (W.SetFocusWindow pWindow).con.mFocusWindow = pWindow ∧
      (W.SetFocusWindow pWindow).con.mWindows = W.con.mWindows ∧
      (W.SetFocusWindow pWindow).conAddr = W.conAddr ∧
      (∀ q, ((W.SetFocusWindow pWindow).heap q).isSome = (W.heap q).isSome) ∧
      (∀ q, (W.SetFocusWindow pWindow).ownerOf q = W.ownerOf q) := by
  by_cases hne : W.con.mFocusWindow = pWindow
  · rw [World.SetFocusWindow_same W pWindow hne]
    exact ⟨hne, rfl, rfl, fun _ => rfl, fun _ => rfl⟩
  · have h := World.SetFocusWindow_changed W pWindow hacc hne
    refine ⟨by rw [h.1], by rw [h.1], h.2.1, h.2.2.1, ?_⟩
    intro q
    unfold World.ownerOf
    rw [h.2.2.2 q]
    split_ifs <;> rfl

theorem World.dispatchKey_frame (W : World) (key : Int) :
    (W.dispatchKey key).con = W.con ∧
      ∀ p, W.con.mFocusWindow ≠ some p → (W.dispatchKey key).heap p = W.heap p := by
  cases hf : W.con.mFocusWindow with
  | none =>
      have e : W.dispatchKey key = W := by simp only [World.dispatchKey, hf]
      rw [e]; exact ⟨rfl, fun _ _ => rfl⟩
  | some f =>
      cases hw : W.heap f with
      | none =>
          have e : W.dispatchKey key = W := by simp only [World.dispatchKey, hf, hw]
          rw [e]; exact ⟨rfl, fun _ _ => rfl⟩
      | some win =>
          simp only [World.dispatchKey, hf, hw, true_and]
          intro p hp
          have hpf : ¬ (p = f) := fun e => hp (by rw [e])
          simp only [if_neg hpf]

theorem World.dispatchFunctionKey_frame (W : World) (code : Int) :
    (W.dispatchFunctionKey code).con = W.con ∧
      ∀ p, W.con.mFocusWindow ≠ some p → (W.dispatchFunctionKey code).heap p = W.heap p := by
  cases hf : W.con.mFocusWindow with
  | none =>
      have e : W.dispatchFunctionKey code = W := by simp only [World.dispatchFunctionKey, hf]
      rw [e]; exact ⟨rfl, fun _ _ => rfl⟩
  | some f =>
      cases hw : W.heap f with
      | none =>
          have e : W.dispatchFunctionKey code = W := by simp only [World.dispatchFunctionKey, hf, hw]
          rw [e]; exact ⟨rfl, fun _ _ => rfl⟩
      | some win =>
          simp only [World.dispatchFunctionKey, hf, hw, true_and]
          intro p hp
          have hpf : ¬ (p = f) := fun e => hp (by rw [e])
          simp only [if_neg hpf]

theorem World.Update_frame_aux (n : Nat) : ∀ (keys : List Int) (W W3 : World),
    keys.length ≤ n → W.Update keys = some W3 →
      W3.con = W.con ∧ ∀ p, W.con.mFocusWindow ≠ some p → W3.heap p = W.heap p := by
  induction n with
  | zero =>
      intro keys W W3 hlen h
      cases keys with
      | nil =>
          simp only [World.Update, Option.some.injEq] at h
          subst h; exact ⟨rfl, fun _ _ => rfl⟩
      | cons k ks => simp at hlen
  | succ n ih =>
      intro keys W W3 hlen h
      cases keys with
      | nil =>
          simp only [World.Update, Option.some.injEq] at h
          subst h; exact ⟨rfl, fun _ _ => rfl⟩
      | cons key rest =>
          by_cases hm : key = 0 ∨ key = 224
          · cases rest with
            | nil => simp [World.Update, hm] at h
            | cons code rest2 =>
                rw [World.Update.eq_def] at h
                simp only [if_pos hm] at h
                have hl : rest2.length ≤ n := by simp at hlen; omega
                have hr := ih rest2 (W.dispatchFunctionKey code) W3 hl h
                have hd := World.dispatchFunctionKey_frame W code
                refine ⟨hr.1.trans hd.1, ?_⟩
                intro p hp
                rw [hr.2 p (by rw [hd.1]; exact hp), hd.2 p hp]
          · rw [World.Update.eq_def] at h
            simp only [if_neg hm] at h
            have hl : rest.length ≤ n := by simp at hlen; omega
            have hr := ih rest (W.dispatchKey key) W3 hl h
            have hd := World.dispatchKey_frame W key
            refine ⟨hr.1.trans hd.1, ?_⟩
            intro p hp
            rw [hr.2 p (by rw [hd.1]; exact hp), hd.2 p hp]

/-- The call `Update` changes neither the console nor any window but the focused one. -/
theorem World.Update_frame (keys : List Int) (W W3 : World) (h : W.Update keys = some W3) :
    W3.con = W.con ∧ ∀ p, W.con.mFocusWindow ≠ some p → W3.heap p = W.heap p :=
  World.Update_frame_aux keys.length keys W W3 (le_refl _) h

/-! ## Claim C9: focus exclusivity -/

/-- C9: for two distinct live windows `A` and `B` owned by the console, after
`SetFocusWindow(A)` then `SetFocusWindow(B)`: `A.HasFocus()` is false,
`B.HasFocus()` is true; `Update` with one pending plain key returns and has
replaced `B` by the result of `B`'s own `HandleKey` on that key; with an
extended key (marker, code) likewise with `HandleFunctionKey`; and whatever
keys are pending, no window other than `B` (so not `A`) is changed. -/
theorem C9_focus_exclusivity (W : World) (A B : Nat) (hAB : A ≠ B)
    (hA : (W.heap A).isSome = true) (hB : (W.heap B).isSome = true)
    (hAo : W.ownerOf A = some W.conAddr) (hBo : W.ownerOf B = some W.conAddr) :
    ((W.SetFocusWindow (some A)).SetFocusWindow (some B)).HasFocus A = false ∧
      ((W.SetFocusWindow (some A)).SetFocusWindow (some B)).HasFocus B = true ∧
      (∃ objB, ((W.SetFocusWindow (some A)).SetFocusWindow (some B)).heap B = some objB ∧
        (∀ key : Int, key ≠ 0 → key ≠ 224 →
          ∃ W3, ((W.SetFocusWindow (some A)).SetFocusWindow (some B)).Update [key] = some W3 ∧
            W3.heap B = some (Win.HandleKey
              (((W.SetFocusWindow (some A)).SetFocusWindow (some B)).ctx B)
              ⟨objB, ((W.SetFocusWindow (some A)).SetFocusWindow (some B)).screen⟩ key).win) ∧
        (∀ marker code : Int, marker = 0 ∨ marker = 224 →
          ∃ W3, ((W.SetFocusWindow (some A)).SetFocusWindow (some B)).Update [marker, code]
              = some W3 ∧
            W3.heap B = some (Win.HandleFunctionKey
              ⟨objB, ((W.SetFocusWindow (some A)).SetFocusWindow (some B)).screen⟩ code).win)) ∧
      (∀ (keys : List Int) (W3 : World),
        ((W.SetFocusWindow (some A)).SetFocusWindow (some B)).Update keys = some W3 →
          ∀ p, p ≠ B →
            W3.heap p = ((W.SetFocusWindow (some A)).SetFocusWindow (some B)).heap p) := by
  have hacA : ∀ p, some A = some p → W.ownerOf p = some W.conAddr := by
    intro p hp; cases hp; exact hAo
  have h1 := World.SetFocusWindow_accepted W (some A) hacA
  generalize W.SetFocusWindow (some A) = W1 at h1 ⊢
  have hacB : ∀ p, some B = some p → W1.ownerOf p = some W1.conAddr := by
    intro p hp; cases hp; rw [h1.2.2.2.2, h1.2.2.1]; exact hBo
  have hne : W1.con.mFocusWindow ≠ some B := by
    rw [h1.1]; intro e; exact hAB (Option.some.inj e)
  have h2 := World.SetFocusWindow_changed W1 (some B) hacB hne
  have hfoc : (W1.SetFocusWindow (some B)).con.mFocusWindow = some B := by rw [h2.1]
  have hliveB : ((W1.SetFocusWindow (some B)).heap B).isSome = true := by
    rw [h2.2.2.1, h1.2.2.2.1]; exact hB
  refine ⟨?_, ?_, ?_, ?_⟩
  · unfold World.HasFocus ConWindowBase.HasFocus
    rw [h2.2.2.2 A]
    have hn : ¬ (some B = some A ∧ (W1.heap A).isSome = true) :=
      fun hc => hAB (Option.some.inj hc.1).symm
    have hy : W1.con.mFocusWindow = some A ∧ (W1.heap A).isSome = true :=
      ⟨h1.1, by rw [h1.2.2.2.1]; exact hA⟩
    rw [if_neg hn, if_pos hy]
  · unfold World.HasFocus ConWindowBase.HasFocus
    rw [h2.2.2.2 B]
    have hy : some B = some B ∧ (W1.heap B).isSome = true :=
      ⟨rfl, by rw [h1.2.2.2.1]; exact hB⟩
    rw [if_pos hy]
  · generalize W1.SetFocusWindow (some B) = W2 at hfoc hliveB ⊢
    cases hobj : W2.heap B with
    | none => rw [hobj] at hliveB; simp at hliveB
    | some objB =>
        refine ⟨objB, rfl, ?_, ?_⟩
        · intro key hk0 hk1
          have hm : ¬ (key = 0 ∨ key = 224) := by
            intro hc; cases hc with
            | inl h => exact hk0 h
            | inr h => exact hk1 h
          refine ⟨W2.dispatchKey key, ?_, ?_⟩
          · simp only [World.Update, if_neg hm]
          · simp only [World.dispatchKey, hfoc, hobj, if_true]
        · intro marker code hm
          refine ⟨W2.dispatchFunctionKey code, ?_, ?_⟩
          · simp only [World.Update, if_pos hm]
          · simp only [World.dispatchFunctionKey, hfoc, hobj, if_true]
  · intro keys W3 hup p hp
    have hfr := World.Update_frame keys _ W3 hup
    apply hfr.2 p
    rw [hfoc]
    intro e
    exact hp (Option.some.inj e).symm


/-- C9 at `demoWorld`, with `A` the line input window at address 1 and `B` the
char input window at address 2. -/
theorem C9_focus_exclusivity_witness :
    (1 : Nat) ≠ 2 ∧ (demoWorld.heap 1).isSome = true ∧ (demoWorld.heap 2).isSome = true ∧
      demoWorld.ownerOf 1 = some demoWorld.conAddr ∧
      demoWorld.ownerOf 2 = some demoWorld.conAddr ∧
      ((demoWorld.SetFocusWindow (some 1)).SetFocusWindow (some 2)).HasFocus 1 = false ∧
      ((demoWorld.SetFocusWindow (some 1)).SetFocusWindow (some 2)).HasFocus 2 = true :=
  ⟨by decide, by decide, by decide, by decide, by decide,
    (C9_focus_exclusivity demoWorld 1 2 (by decide) (by decide) (by decide) (by decide)
      (by decide)).1,
    (C9_focus_exclusivity demoWorld 1 2 (by decide) (by decide) (by decide) (by decide)
      (by decide)).2.1⟩

/-! ## The focus invariant is kept by every operation -/

theorem World.Inv_SetFocusWindow (W : World) (pWindow : Option Nat) (hInv : W.Inv)
    (hlive : ∀ p, pWindow = some p → (W.heap p).isSome = true) :
    (W.SetFocusWindow pWindow).Inv := by
  by_cases hrej : ∃ p, pWindow = some p ∧ W.ownerOf p ≠ some W.conAddr
  · obtain ⟨p, hp, hown⟩ := hrej
    subst hp
    rw [World.SetFocusWindow_rejected W p hown]; exact hInv
  · by_cases hsame : W.con.mFocusWindow = pWindow
    · rw [World.SetFocusWindow_same W pWindow hsame]; exact hInv
    · have hacc : ∀ p, pWindow = some p → W.ownerOf p = some W.conAddr := by
        intro p hp
        by_contra hc
        exact hrej ⟨p, hp, hc⟩
      have h := World.SetFocusWindow_changed W pWindow hacc hsame
      obtain ⟨hcon, haddr, hlv, hpeer⟩ := h
      obtain ⟨i1, i2, i3, i4, i5⟩ := hInv
      have hown : ∀ q, ((W.SetFocusWindow pWindow).peer q).mOwner = (W.peer q).mOwner := by
        intro q; rw [hpeer q]; split_ifs <;> rfl
      refine ⟨?_, ?_, ?_, ?_, ?_⟩
      · intro q
        rw [hpeer q, hcon]
        show _ ↔ pWindow = some q
        by_cases hpq : pWindow = some q
        · have hl := hlive q hpq
          rw [if_pos ⟨hpq, hl⟩]
          exact ⟨fun _ => hpq, fun _ => rfl⟩
        · have hn : ¬ (pWindow = some q ∧ (W.heap q).isSome = true) := fun hc => hpq hc.1
          rw [if_neg hn]
          by_cases hfq : W.con.mFocusWindow = some q ∧ (W.heap q).isSome = true
          · rw [if_pos hfq]
            constructor
            · intro hc; exact absurd hc (by simp)
            · intro hc; exact absurd hc hpq
          · rw [if_neg hfq]
            constructor
            · intro hc
              have hf := (i1 q).1 hc
              exact absurd ⟨hf, (i3 q (i2 q hf)).1⟩ hfq
            · intro hc; exact absurd hc hpq
      · intro f hf
        rw [hcon] at hf ⊢
        have hf2 : pWindow = some f := hf
        exact i4 f (hacc f hf2)
      · intro q hq
        rw [hcon] at hq
        rw [hlv q, hown q, haddr]
        exact i3 q hq
      · intro q hq
        rw [hown q, haddr] at hq
        rw [hcon]
        exact i4 q hq
      · rw [hcon]; exact i5

theorem World.Inv_AddWindow (W : World) (p : Nat) (hInv : W.Inv)
    (hlive : (W.heap p).isSome = true) : (W.AddWindow p).Inv := by
  unfold World.AddWindow
  by_cases hown : W.ownerOf p ≠ none
  · rw [if_pos hown]; exact hInv
  · rw [if_neg hown]
    have hnone : (W.peer p).mOwner = none := by
      unfold World.ownerOf at hown; exact not_not.mp hown
    obtain ⟨i1, i2, i3, i4, i5⟩ := hInv
    generalize hV : ({ W with con := { W.con with mWindows := W.con.mWindows ++ [p] } } : World)
      = V
    have hVheap : V.heap = W.heap := by rw [← hV]
    have hVcon : V.con = { W.con with mWindows := W.con.mWindows ++ [p] } := by rw [← hV]
    have hVaddr : V.conAddr = W.conAddr := by rw [← hV]
    have hVpeer : ∀ q, V.peer q = W.peer q := fun q =>
      World.peer_heap_eq W V q (by rw [hVheap])
    have hc := World.modifyBase_con V p (fun b => { b with mOwner := some W.conAddr })
    have hpeer : ∀ q, (V.modifyBase p (fun b => { b with mOwner := some W.conAddr })).peer q
        = if q = p then { W.peer p with mOwner := some W.conAddr } else W.peer q := by
      intro q
      rw [World.modifyBase_peer, hVheap, hVpeer, hVpeer]
      by_cases hq : q = p
      · rw [if_pos ⟨hq, hlive⟩, if_pos hq]
      · rw [if_neg (fun hc => hq hc.1), if_neg hq]
    refine ⟨?_, ?_, ?_, ?_, ?_⟩
    · intro q
      rw [hpeer q, hc.1, hVcon]
      show _ ↔ W.con.mFocusWindow = some q
      by_cases hq : q = p
      · rw [if_pos hq]; subst hq; exact i1 q
      · rw [if_neg hq]; exact i1 q
    · intro f hf
      rw [hc.1, hVcon] at hf ⊢
      exact List.mem_append_left _ (i2 f hf)
    · intro q hq
      rw [hc.1, hVcon] at hq
      rw [World.modifyBase_live, hVheap, hpeer q, hc.2.1, hVaddr]
      by_cases hqp : q = p
      · subst hqp; rw [if_pos rfl]; exact ⟨hlive, rfl⟩
      · rw [if_neg hqp]
        have hq2 : q ∈ W.con.mWindows := by
          rcases List.mem_append.mp hq with h | h
          · exact h
          · exact absurd (List.mem_singleton.mp h) hqp
        exact i3 q hq2
    · intro q hq
      rw [hpeer q, hc.2.1, hVaddr] at hq
      rw [hc.1, hVcon]
      by_cases hqp : q = p
      · subst hqp; exact List.mem_append_right _ (List.mem_singleton.mpr rfl)
      · rw [if_neg hqp] at hq
        exact List.mem_append_left _ (i4 q hq)
    · rw [hc.1, hVcon]
      show (W.con.mWindows ++ [p]).Nodup
      rw [List.nodup_append]
      refine ⟨i5, List.nodup_singleton p, ?_⟩
      intro a ha hb
      have hap : a = p := List.mem_singleton.mp hb
      subst hap
      have := (i3 a ha).2
      rw [hnone] at this
      exact absurd this (by simp)


theorem World.owner_live (W : World) (p : Nat) (a : Nat) (h : (W.peer p).mOwner = some a) :
    (W.heap p).isSome = true := by
  cases hp : (W.heap p).isSome with
  | true => rfl
  | false =>
      rw [World.peer_dead W p hp] at h
      exact absurd h (by simp [ConWindowBase.init])

/-- The call `RemoveWindow` keeps the invariant; when it accepts the window, the window
is no longer registered and the other registrations stay. -/
theorem World.Inv_RemoveWindow (W : World) (p : Nat) (hInv : W.Inv) :
    (W.RemoveWindow p).Inv ∧ (W.RemoveWindow p).conAddr = W.conAddr ∧
      (W.ownerOf p = some W.conAddr →
        (W.RemoveWindow p).con.mWindows = W.con.mWindows.erase p) := by
  unfold World.RemoveWindow
  by_cases hown : W.ownerOf p ≠ some W.conAddr
  · rw [if_pos hown]; exact ⟨hInv, rfl, fun h => absurd h hown⟩
  · rw [if_neg hown]
    dsimp only []
    have hown2 : (W.peer p).mOwner = some W.conAddr := not_not.mp hown
    have hlive : (W.heap p).isSome = true := World.owner_live W p _ hown2
    -- the state after the optional `SetFocusWindow( nullptr )`
    have hW1 : ∃ W1 : World, (if W.con.mFocusWindow = some p then W.SetFocusWindow none else W)
        = W1 ∧ W1.Inv ∧ W1.con.mFocusWindow ≠ some p ∧ W1.con.mWindows = W.con.mWindows ∧
        W1.conAddr = W.conAddr ∧ (W1.heap p).isSome = true := by
      by_cases hf : W.con.mFocusWindow = some p
      · rw [if_pos hf]
        have hacc : ∀ q, (none : Option Nat) = some q → W.ownerOf q = some W.conAddr := by
          intro q hq; cases hq
        have ha := World.SetFocusWindow_accepted W none hacc
        refine ⟨_, rfl, World.Inv_SetFocusWindow W none hInv (by intro q hq; cases hq), ?_,
          ha.2.1, ha.2.2.1, ?_⟩
        · rw [ha.1]; simp
        · rw [ha.2.2.2.1]; exact hlive
      · rw [if_neg hf]
        exact ⟨W, rfl, hInv, hf, rfl, rfl, hlive⟩
    obtain ⟨W1, hW1eq, hInv1, hfoc1, hwin1, haddr1, hlive1⟩ := hW1
    rw [hW1eq]
    obtain ⟨i1, i2, i3, i4, i5⟩ := hInv1
    have hc := World.modifyBase_con W1 p (fun b => { b with mOwner := none })
    have hpeer : ∀ q, (W1.modifyBase p (fun b => { b with mOwner := none })).peer q
        = if q = p then { W1.peer p with mOwner := none } else W1.peer q := by
      intro q
      rw [World.modifyBase_peer]
      by_cases hq : q = p
      · rw [if_pos ⟨hq, hlive1⟩, if_pos hq]
      · rw [if_neg (fun hc => hq hc.1), if_neg hq]
    generalize hW2 : W1.modifyBase p (fun b => { b with mOwner := none }) = W2 at hc hpeer
    have hlv2 : ∀ q, (W2.heap q).isSome = (W1.heap q).isSome := by
      intro q; rw [← hW2]; exact World.modifyBase_live W1 p q _
    refine ⟨⟨?_, ?_, ?_, ?_, ?_⟩, ?_, ?_⟩
    · intro q
      show (W2.peer q).mbFocus = true ↔ W2.con.mFocusWindow = some q
      rw [hpeer q, hc.1]
      by_cases hq : q = p
      · rw [if_pos hq]; subst hq; exact i1 q
      · rw [if_neg hq]; exact i1 q
    · intro f hf
      have hf1 : W1.con.mFocusWindow = some f := by rw [← hc.1]; exact hf
      have hfp : f ≠ p := by
        intro e; rw [e] at hf1; exact hfoc1 hf1
      show f ∈ W2.con.mWindows.erase p
      rw [hc.1]
      exact (List.mem_erase_of_ne hfp).mpr (i2 f hf1)
    · intro q hq
      have hq1 : q ∈ W1.con.mWindows.erase p := by rw [← hc.1]; exact hq
      have hqp : q ≠ p := fun e => by
        rw [e] at hq1; exact (List.Nodup.not_mem_erase i5) hq1
      have hq2 : q ∈ W1.con.mWindows := List.mem_of_mem_erase hq1
      show (W2.heap q).isSome = true ∧ (W2.peer q).mOwner = some W2.conAddr
      rw [hlv2 q, hpeer q, if_neg hqp, hc.2.1]
      exact i3 q hq2
    · intro q hq
      have hq1 : (W2.peer q).mOwner = some W2.conAddr := hq
      rw [hpeer q, hc.2.1] at hq1
      have hqp : q ≠ p := by
        intro e; rw [if_pos e] at hq1; exact absurd hq1 (by simp)
      rw [if_neg hqp] at hq1
      show q ∈ W2.con.mWindows.erase p
      rw [hc.1]
      exact (List.mem_erase_of_ne hqp).mpr (i4 q hq1)
    · show (W2.con.mWindows.erase p).Nodup
      rw [hc.1]
      exact List.Nodup.erase p i5
    · show W2.conAddr = W.conAddr
      rw [hc.2.1, haddr1]
    · intro _
      show W2.con.mWindows.erase p = W.con.mWindows.erase p
      rw [hc.1, hwin1]

theorem World.Inv_fresh (conAddr : Nat) (rect screenRect : ConRect) (attr : Int) :
    (World.fresh conAddr rect screenRect attr).Inv := by
  refine ⟨?_, ?_, ?_, ?_, ?_⟩
  · intro p; simp [World.fresh, World.peer, ConWindowBase.init]
  · intro f hf; simp [World.fresh] at hf
  · intro p hp; simp [World.fresh] at hp
  · intro p hp; simp [World.fresh, World.peer, ConWindowBase.init] at hp
  · simp [World.fresh]

theorem Win.new_toBase (kind : WinKind) (pos : ConRect) :
    (Win.new kind pos).toBase = ConWindowBase.init pos := by
  cases kind <;> rfl

theorem World.Inv_construct (W : World) (p : Nat) (kind : WinKind) (pos : ConRect)
    (owner : Option Nat) (hInv : W.Inv) (hdead : W.heap p = none) :
    (W.construct p kind pos owner).Inv := by
  unfold World.construct
  generalize hV : ({ W with heap := fun a => if a = p then some (Win.new kind pos) else W.heap a }
    : World) = V
  have hVcon : V.con = W.con := by rw [← hV]
  have hVaddr : V.conAddr = W.conAddr := by rw [← hV]
  have hVp : V.heap p = some (Win.new kind pos) := by rw [← hV]; simp
  have hVq : ∀ q, q ≠ p → V.heap q = W.heap q := by
    intro q hq; rw [← hV]; simp [hq]
  have hpeerp : V.peer p = ConWindowBase.init pos := by
    unfold World.peer; rw [hVp]; exact Win.new_toBase kind pos
  have hpeerq : ∀ q, q ≠ p → V.peer q = W.peer q := fun q hq =>
    World.peer_heap_eq W V q (hVq q hq)
  have hdeadp : (W.heap p).isSome = false := by rw [hdead]; rfl
  obtain ⟨i1, i2, i3, i4, i5⟩ := hInv
  have hpw : p ∉ W.con.mWindows := by
    intro hc; have := (i3 p hc).1; rw [hdeadp] at this; exact absurd this (by simp)
  have hInvV : V.Inv := by
    refine ⟨?_, ?_, ?_, ?_, ?_⟩
    · intro q
      rw [hVcon]
      by_cases hq : q = p
      · subst hq
        rw [hpeerp]
        constructor
        · intro hc; simp [ConWindowBase.init] at hc
        · intro hc; exact absurd (i2 q hc) hpw
      · rw [hpeerq q hq]; exact i1 q
    · intro f hf; rw [hVcon] at hf ⊢; exact i2 f hf
    · intro q hq
      rw [hVcon] at hq
      have hqp : q ≠ p := fun e => hpw (e ▸ hq)
      rw [hVq q hqp, hpeerq q hqp, hVaddr]
      exact i3 q hq
    · intro q hq
      rw [hVcon]
      by_cases hqp : q = p
      · subst hqp; rw [hpeerp] at hq; simp [ConWindowBase.init] at hq
      · rw [hpeerq q hqp, hVaddr] at hq; exact i4 q hq
    · rw [hVcon]; exact i5
  by_cases ho : owner = some W.conAddr
  · rw [if_pos ho]
    exact World.Inv_AddWindow V p hInvV (by rw [hVp]; rfl)
  · rw [if_neg ho]; exact hInvV

theorem World.Inv_destroy (W : World) (p : Nat) (hInv : W.Inv) : (W.destroy p).Inv := by
  unfold World.destroy
  have hW1 : ∃ W1 : World, (if W.ownerOf p = some W.conAddr then W.RemoveWindow p else W) = W1 ∧
      W1.Inv ∧ p ∉ W1.con.mWindows := by
    by_cases ho : W.ownerOf p = some W.conAddr
    · rw [if_pos ho]
      have hr := World.Inv_RemoveWindow W p hInv
      refine ⟨_, rfl, hr.1, ?_⟩
      rw [hr.2.2 ho]
      exact List.Nodup.not_mem_erase hInv.2.2.2.2
    · rw [if_neg ho]
      refine ⟨W, rfl, hInv, ?_⟩
      intro hc
      exact ho (hInv.2.2.1 p hc).2
  obtain ⟨W1, hW1eq, hInv1, hpw⟩ := hW1
  rw [hW1eq]
  obtain ⟨i1, i2, i3, i4, i5⟩ := hInv1
  generalize hV : ({ W1 with heap := fun a => if a = p then none else W1.heap a } : World) = V
  have hVcon : V.con = W1.con := by rw [← hV]
  have hVaddr : V.conAddr = W1.conAddr := by rw [← hV]
  have hVp : V.heap p = none := by rw [← hV]; simp
  have hVq : ∀ q, q ≠ p → V.heap q = W1.heap q := by
    intro q hq; rw [← hV]; simp [hq]
  have hpeerp : V.peer p = ConWindowBase.init ⟨0, 0, 0, 0⟩ :=
    World.peer_dead V p (by rw [hVp]; rfl)
  have hpeerq : ∀ q, q ≠ p → V.peer q = W1.peer q := fun q hq =>
    World.peer_heap_eq W1 V q (hVq q hq)
  refine ⟨?_, ?_, ?_, ?_, ?_⟩
  · intro q
    rw [hVcon]
    by_cases hq : q = p
    · subst hq
      rw [hpeerp]
      constructor
      · intro hc; simp [ConWindowBase.init] at hc
      · intro hc; exact absurd (i2 q hc) hpw
    · rw [hpeerq q hq]; exact i1 q
  · intro f hf; rw [hVcon] at hf ⊢; exact i2 f hf
  · intro q hq
    rw [hVcon] at hq
    have hqp : q ≠ p := fun e => hpw (e ▸ hq)
    rw [hVq q hqp, hpeerq q hqp, hVaddr]
    exact i3 q hq
  · intro q hq
    rw [hVcon]
    by_cases hqp : q = p
    · subst hqp; rw [hpeerp] at hq; simp [ConWindowBase.init] at hq
    · rw [hpeerq q hqp, hVaddr] at hq; exact i4 q hq
  · rw [hVcon]; exact i5

theorem World.Inv_GiveFocus (W : World) (p : Nat) (hInv : W.Inv)
    (hlive : (W.heap p).isSome = true) : (W.GiveFocus p).Inv := by
  unfold World.GiveFocus
  split_ifs
  · exact World.Inv_SetFocusWindow W (some p) hInv (by intro q hq; cases hq; exact hlive)
  · exact hInv

/-- With the invariant, the loop of `Shutdown` ends within `mWindows.length`
iterations, keeps the invariant and leaves no window registered. -/
theorem World.shutdownLoop_spec (fuel : Nat) : ∀ (W : World), W.Inv →
    W.con.mWindows.length ≤ fuel →
      ∃ V, World.shutdownLoop fuel W = some V ∧ V.Inv ∧ V.con.mWindows = [] := by
  induction fuel with
  | zero =>
      intro W hInv hlen
      have hnil : W.con.mWindows = [] := List.length_eq_zero.mp (Nat.le_zero.mp hlen)
      refine ⟨W, ?_, hInv, hnil⟩
      unfold World.shutdownLoop
      rw [hnil]; rfl
  | succ fuel ih =>
      intro W hInv hlen
      unfold World.shutdownLoop
      cases hl : W.con.mWindows.getLast? with
      | none =>
          have hnil : W.con.mWindows = [] := List.getLast?_eq_none_iff.mp hl
          exact ⟨W, rfl, hInv, hnil⟩
      | some p =>
          have hmem : p ∈ W.con.mWindows := List.mem_of_getLast?_eq_some hl
          have hr := World.Inv_RemoveWindow W p hInv
          have hown : W.ownerOf p = some W.conAddr := (hInv.2.2.1 p hmem).2
          have hlen2 : (W.RemoveWindow p).con.mWindows.length ≤ fuel := by
            rw [hr.2.2 hown, List.length_erase_of_mem hmem]
            omega
          exact ih (W.RemoveWindow p) hr.1 hlen2

theorem World.Inv_Shutdown (W : World) (hInv : W.Inv) :
    ∃ V, W.Shutdown = some V ∧ V.Inv := by
  obtain ⟨V, hV, hInvV, _⟩ := World.shutdownLoop_spec W.con.mWindows.length W hInv (le_refl _)
  refine ⟨{ V with con := { V.con with mHandle := INVALID_HANDLE_VALUE } }, ?_, ?_⟩
  · unfold World.Shutdown; rw [hV]
  · exact hInvV

theorem World.Inv_step (W V : World) (hInv : W.Inv) (hstep : World.Step W V) : V.Inv := by
  cases hstep with
  | construct p kind pos owner hdead _ => exact World.Inv_construct W p kind pos owner hInv hdead
  | destroy p _ => exact World.Inv_destroy W p hInv
  | addWindow p hlive => exact World.Inv_AddWindow W p hInv hlive
  | removeWindow p _ => exact (World.Inv_RemoveWindow W p hInv).1
  | setFocusWindow pWindow hlive => exact World.Inv_SetFocusWindow W pWindow hInv hlive
  | giveFocus p hlive => exact World.Inv_GiveFocus W p hInv hlive
  | shutdown V hs =>
      obtain ⟨V2, hV2, hInv2⟩ := World.Inv_Shutdown W hInv
      rw [hV2] at hs
      cases hs
      exact hInv2

theorem World.Inv_reachable (W : World) (h : World.Reachable W) : W.Inv := by
  induction h with
  | fresh conAddr rect screenRect attr => exact World.Inv_fresh conAddr rect screenRect attr
  | step W V _ hstep ih => exact World.Inv_step W V ih hstep


/-! ## Claim C10: the focus invariant -/

/-- C10: in every state reachable from a fresh console by window
construction and destruction, `AddWindow`, `RemoveWindow`, `SetFocusWindow`,
`GiveFocus` and `Shutdown`: at most one window reports `HasFocus()` true; a
window reports focus exactly when it is the console's focus reference; the
focus reference is a live window, registered with and owned by the console;
and `Shutdown` returns from such a state. -/
theorem C10_focus_invariant (W : World) (h : World.Reachable W) :
    (∀ p q, W.HasFocus p = true → W.HasFocus q = true → p = q) ∧
      (∀ p, W.HasFocus p = true ↔ W.con.mFocusWindow = some p) ∧
      (∀ f, W.con.mFocusWindow = some f →
        (W.heap f).isSome = true ∧ f ∈ W.con.mWindows ∧ W.ownerOf f = some W.conAddr) ∧
      (∃ V, W.Shutdown = some V) := by
  have hInv := World.Inv_reachable W h
  obtain ⟨V, hV, _⟩ := World.Inv_Shutdown W hInv
  obtain ⟨i1, i2, i3, _, _⟩ := hInv
  refine ⟨?_, i1, ?_, ⟨V, hV⟩⟩
  · intro p q hp hq
    have h1 := (i1 p).1 hp
    have h2 := (i1 q).1 hq
    rw [h1] at h2
    exact Option.some.inj h2
  · intro f hf
    exact ⟨(i3 f (i2 f hf)).1, i2 f hf, (i3 f (i2 f hf)).2⟩

/-- C10 at the state reached by constructing the two windows of `demoWorld`
and giving the focus to the window at address 2. -/
theorem C10_focus_invariant_witness :
    World.Reachable (demoWorld.SetFocusWindow (some 2)) ∧
      (∀ p q, (demoWorld.SetFocusWindow (some 2)).HasFocus p = true →
        (demoWorld.SetFocusWindow (some 2)).HasFocus q = true → p = q) ∧
      (∀ p, (demoWorld.SetFocusWindow (some 2)).HasFocus p = true ↔
        (demoWorld.SetFocusWindow (some 2)).con.mFocusWindow = some p) ∧
      (∀ f, (demoWorld.SetFocusWindow (some 2)).con.mFocusWindow = some f →
        ((demoWorld.SetFocusWindow (some 2)).heap f).isSome = true ∧
          f ∈ (demoWorld.SetFocusWindow (some 2)).con.mWindows ∧
          (demoWorld.SetFocusWindow (some 2)).ownerOf f
            = some (demoWorld.SetFocusWindow (some 2)).conAddr) ∧
      (∃ V, (demoWorld.SetFocusWindow (some 2)).Shutdown = some V) :=
  have hr : World.Reachable (demoWorld.SetFocusWindow (some 2)) :=
    World.Reachable.step _ _
      (World.Reachable.step _ _
        (World.Reachable.step _ _ (World.Reachable.fresh 0 ⟨0, 0, 79, 25⟩ ⟨0, 0, 79, 25⟩ 7)
          (World.Step.construct _ 1 WinKind.line ⟨0, 24, 8, 1⟩ (some 0) rfl (Or.inr rfl)))
        (World.Step.construct _ 2 WinKind.char ⟨0, 0, 8, 4⟩ (some 0) (by decide) (Or.inr rfl)))
      (World.Step.setFocusWindow demoWorld (some 2)
        (by intro p hp; cases hp; decide))
  ⟨hr, C10_focus_invariant _ hr⟩


/-! ## The single-character writer -/

theorem isCellWrite_ResetCursor (con : Console) (focus : Option ConWindowBase) :
    (con.ResetCursor focus).isCellWrite = false := by
  cases focus <;> rfl

theorem cellWrites_append (a b : Screen) : cellWrites (a ++ b) = cellWrites a ++ cellWrites b := by
  unfold cellWrites; exact List.filter_append a b

theorem cellWrites_nil : cellWrites [] = [] := rfl

theorem SetChar_frame (ctx : OwnerCtx) (s : Run ConWindowBase) (row col c : Int) :
    (ConWindowBase.SetChar ctx s row col c).win.mPos = s.win.mPos ∧
      (ConWindowBase.SetChar ctx s row col c).win.mbFocus = s.win.mbFocus ∧
      (ConWindowBase.SetChar ctx s row col c).win.mOwner = s.win.mOwner ∧
      (ConWindowBase.SetChar ctx s row col c).win.mCursor = s.win.mCursor ∧
      (ConWindowBase.SetChar ctx s row col c).win.mData.length = s.win.mData.length := by
  unfold ConWindowBase.SetChar
  split_ifs
  · exact ⟨rfl, rfl, rfl, rfl, rfl⟩
  · exact ⟨rfl, rfl, rfl, rfl, List.length_set _ _ _⟩

theorem SetChar_in_range (ctx : OwnerCtx) (s : Run ConWindowBase) (row col c : Int)
    (h0 : 0 ≤ row) (h1 : row < s.win.mPos.h) (h2 : 0 ≤ col) (h3 : col < s.win.mPos.w) :
    (ConWindowBase.SetChar ctx s row col c).win.mData
        = s.win.mData.set (row * s.win.mPos.w + col).toNat c ∧
      (ConWindowBase.SetChar ctx s row col c).screen
        = s.screen ++ [cellWrite ctx s.win.mPos row col c] := by
  have hr : ¬ (row < 0 ∨ row ≥ s.win.mPos.h ∨ col < 0 ∨ col ≥ s.win.mPos.w) := by omega
  unfold ConWindowBase.SetChar
  rw [if_neg hr]
  exact ⟨rfl, rfl⟩

theorem SetChar_screen (ctx : OwnerCtx) (s : Run ConWindowBase) (row col c : Int) :
    ∃ ops, (ConWindowBase.SetChar ctx s row col c).screen = s.screen ++ ops := by
  unfold ConWindowBase.SetChar
  split_ifs
  · exact ⟨[], by simp⟩
  · exact ⟨_, rfl⟩

theorem SetCursor_frame (ctx : OwnerCtx) (s : Run ConWindowBase) (row col : Int) :
    (ConWindowBase.SetCursor ctx s row col).win.mPos = s.win.mPos ∧
      (ConWindowBase.SetCursor ctx s row col).win.mbFocus = s.win.mbFocus ∧
      (ConWindowBase.SetCursor ctx s row col).win.mOwner = s.win.mOwner ∧
      (ConWindowBase.SetCursor ctx s row col).win.mData = s.win.mData ∧
      (∃ ops, (ConWindowBase.SetCursor ctx s row col).screen = s.screen ++ ops ∧
        cellWrites ops = []) := by
  unfold ConWindowBase.SetCursor
  by_cases hr : row < 0 ∨ row ≥ s.win.mPos.h ∨ col < 0 ∨ col > s.win.mPos.w
  · rw [if_pos hr]
    exact ⟨rfl, rfl, rfl, rfl, [], by simp, rfl⟩
  · rw [if_neg hr]
    dsimp only []
    by_cases hf : s.win.mbFocus = true
    · rw [if_pos hf]
      refine ⟨rfl, rfl, rfl, rfl, _, rfl, ?_⟩
      simp [cellWrites, isCellWrite_ResetCursor]
    · rw [if_neg hf]
      exact ⟨rfl, rfl, rfl, rfl, [], by simp, rfl⟩

theorem ScrollWindow_frame (ctx : OwnerCtx) (s : Run ConWindowBase) (moveArea : ConRect)
    (target : ConPoint) (fillChar : Int) :
    (ConWindowBase.ScrollWindow ctx s moveArea target fillChar).win = s.win ∧
      (∃ ops, (ConWindowBase.ScrollWindow ctx s moveArea target fillChar).screen
          = s.screen ++ ops ∧ cellWrites ops = []) := by
  unfold ConWindowBase.ScrollWindow
  split_ifs
  · exact ⟨rfl, [], by simp, rfl⟩
  · exact ⟨rfl, _, rfl, rfl⟩

theorem lineFeed_spec (ctx : OwnerCtx) (s : Run ConScrollingTextWindow) :
    (ConScrollingTextWindow.lineFeed ctx s).win.mPos = s.win.mPos ∧
      (ConScrollingTextWindow.lineFeed ctx s).win.mData = s.win.mData ∧
      (ConScrollingTextWindow.lineFeed ctx s).win.mOutputLoc
        = ⟨0, if s.win.mOutputLoc.y + 1 = s.win.mPos.h then s.win.mOutputLoc.y
              else s.win.mOutputLoc.y + 1⟩ ∧
      (∃ ops, (ConScrollingTextWindow.lineFeed ctx s).screen = s.screen ++ ops ∧
        cellWrites ops = []) := by
  unfold ConScrollingTextWindow.lineFeed
  by_cases hy : s.win.mOutputLoc.y + 1 = s.win.mPos.h
  · simp only [hy, if_true]
    have hf := ScrollWindow_frame ctx ⟨s.win.toConWindowBase, s.screen⟩
      ⟨0, 1, s.win.mPos.w, s.win.mPos.h - 1⟩ ⟨0, 0⟩ blank
    unfold ConScrollingTextWindow.onBase
    simp only [hf.1]
    refine ⟨trivial, trivial, ?_, hf.2⟩
    have : s.win.mPos.h - 1 = s.win.mOutputLoc.y := by omega
    rw [this]
  · simp only [if_neg hy]
    exact ⟨trivial, trivial, trivial, [], by simp, rfl⟩

theorem putChar_eq (ctx : OwnerCtx) (s : Run ConScrollingTextWindow) (c : Int) :
    ConScrollingTextWindow.putChar ctx s c =
      ⟨{ toConWindowBase :=
            (ConWindowBase.SetCursor ctx
              (ConWindowBase.SetChar ctx ⟨s.win.toConWindowBase, s.screen⟩
                s.win.mOutputLoc.y s.win.mOutputLoc.x (toWchar c))
              s.win.mOutputLoc.y (s.win.mOutputLoc.x + 1)).win,
          mOutputLoc := ⟨s.win.mOutputLoc.x + 1, s.win.mOutputLoc.y⟩ },
        (ConWindowBase.SetCursor ctx
          (ConWindowBase.SetChar ctx ⟨s.win.toConWindowBase, s.screen⟩
            s.win.mOutputLoc.y s.win.mOutputLoc.x (toWchar c))
          s.win.mOutputLoc.y (s.win.mOutputLoc.x + 1)).screen⟩ := rfl

theorem putChar_spec (ctx : OwnerCtx) (s : Run ConScrollingTextWindow) (c : Int) :
    (ConScrollingTextWindow.putChar ctx s c).win.mPos = s.win.mPos ∧
      (ConScrollingTextWindow.putChar ctx s c).win.mOutputLoc
        = ⟨s.win.mOutputLoc.x + 1, s.win.mOutputLoc.y⟩ ∧
      (ConScrollingTextWindow.putChar ctx s c).win.mData
        = ((ConWindowBase.SetChar ctx ⟨s.win.toConWindowBase, s.screen⟩
            s.win.mOutputLoc.y s.win.mOutputLoc.x (toWchar c)).win).mData ∧
      (∃ ops, (ConScrollingTextWindow.putChar ctx s c).screen = s.screen ++ ops) ∧
      (0 ≤ s.win.mOutputLoc.y → s.win.mOutputLoc.y < s.win.mPos.h → 0 ≤ s.win.mOutputLoc.x →
        s.win.mOutputLoc.x < s.win.mPos.w →
        cellWrites (ConScrollingTextWindow.putChar ctx s c).screen
          = cellWrites s.screen ++
              [cellWrite ctx s.win.mPos s.win.mOutputLoc.y s.win.mOutputLoc.x (toWchar c)]) := by
  rw [putChar_eq]
  have h1 := SetChar_frame ctx ⟨s.win.toConWindowBase, s.screen⟩
    s.win.mOutputLoc.y s.win.mOutputLoc.x (toWchar c)
  have h1s := SetChar_screen ctx ⟨s.win.toConWindowBase, s.screen⟩
    s.win.mOutputLoc.y s.win.mOutputLoc.x (toWchar c)
  have h2 := SetCursor_frame ctx (ConWindowBase.SetChar ctx ⟨s.win.toConWindowBase, s.screen⟩
    s.win.mOutputLoc.y s.win.mOutputLoc.x (toWchar c)) s.win.mOutputLoc.y
    (s.win.mOutputLoc.x + 1)
  obtain ⟨ops2, hops2, hcw2⟩ := h2.2.2.2.2
  obtain ⟨ops1, hops1⟩ := h1s
  refine ⟨h2.1.trans h1.1, rfl, h2.2.2.2.1, ?_, ?_⟩
  · refine ⟨ops1 ++ ops2, ?_⟩
    show (ConWindowBase.SetCursor _ _ _ _).screen = _
    rw [hops2, hops1, List.append_assoc]
  · intro h0 hh1 hh2 hh3
    have hin := SetChar_in_range ctx ⟨s.win.toConWindowBase, s.screen⟩
      s.win.mOutputLoc.y s.win.mOutputLoc.x (toWchar c) h0 hh1 hh2 hh3
    show cellWrites (ConWindowBase.SetCursor _ _ _ _).screen = _
    rw [hops2, hin.2, cellWrites_append, cellWrites_append, hcw2, List.append_nil]
    rfl


theorem laterState_refl (s : Run ConScrollingTextWindow) : laterState s s :=
  ⟨rfl, [], by simp⟩

theorem laterState_trans {s t u : Run ConScrollingTextWindow} (h1 : laterState s t)
    (h2 : laterState t u) : laterState s u := by
  obtain ⟨p1, o1, e1⟩ := h1
  obtain ⟨p2, o2, e2⟩ := h2
  exact ⟨p2.trans p1, o1 ++ o2, by rw [e2, e1, List.append_assoc]⟩

theorem laterState_cellWrites {s t : Run ConScrollingTextWindow} (h : laterState s t) :
    ∃ l, cellWrites t.screen = cellWrites s.screen ++ l := by
  obtain ⟨_, ops, e⟩ := h
  exact ⟨cellWrites ops, by rw [e, cellWrites_append]⟩

theorem isprint_bounds (c : Int) (hp : isprint c = true) : 32 ≤ c ∧ c ≤ 126 := by
  unfold isprint at hp
  simp only [Bool.and_eq_true, decide_eq_true_eq] at hp
  exact hp

theorem isprint_false_of (c : Int) (h : c < 32 ∨ 126 < c) : isprint c = false := by
  unfold isprint
  rcases h with h | h
  · have : ¬ (32 ≤ c) := by omega
    simp [this]
  · have : ¬ (c ≤ 126) := by omega
    simp [this]

theorem WCI_newline (ctx : OwnerCtx) (s : Run ConScrollingTextWindow) :
    ConScrollingTextWindow.WriteCharInternal ctx s 10 = ConScrollingTextWindow.lineFeed ctx s := by
  unfold ConScrollingTextWindow.WriteCharInternal ConScrollingTextWindow.WriteCharBody
  have h1 : ¬ ((10 : Int) ≠ 9 ∧ (10 : Int) ≠ 10 ∧ isprint 10 = false) := by
    intro h; exact h.2.1 rfl
  rw [if_neg h1]
  simp only [true_or, if_true]

theorem WCI_dropped (ctx : OwnerCtx) (s : Run ConScrollingTextWindow) (c : Int)
    (h9 : c ≠ 9) (h10 : c ≠ 10) (hp : isprint c = false) :
    ConScrollingTextWindow.WriteCharInternal ctx s c = s := by
  unfold ConScrollingTextWindow.WriteCharInternal ConScrollingTextWindow.WriteCharBody
  rw [if_pos ⟨h9, h10, hp⟩]

theorem WriteCharBody_printable (ctx : OwnerCtx)
    (self : Run ConScrollingTextWindow → Int → Run ConScrollingTextWindow)
    (s : Run ConScrollingTextWindow) (c : Int) (hp : isprint c = true) :
    ConScrollingTextWindow.WriteCharBody ctx self s c =
      ConScrollingTextWindow.putChar ctx
        (if s.win.mOutputLoc.x = s.win.mPos.w then ConScrollingTextWindow.lineFeed ctx s else s)
        c := by
  have hb := isprint_bounds c hp
  have h9 : c ≠ 9 := by omega
  have h10 : c ≠ 10 := by omega
  unfold ConScrollingTextWindow.WriteCharBody
  have h1 : ¬ (c ≠ 9 ∧ c ≠ 10 ∧ isprint c = false) := by
    intro h; rw [hp] at h; exact absurd h.2.2 (by simp)
  rw [if_neg h1]
  simp only [h9, h10, false_or, if_false]
  split_ifs <;> rfl

theorem WCI_printable (ctx : OwnerCtx) (s : Run ConScrollingTextWindow) (c : Int)
    (hp : isprint c = true) :
    ConScrollingTextWindow.WriteCharInternal ctx s c =
      ConScrollingTextWindow.putChar ctx
        (if s.win.mOutputLoc.x = s.win.mPos.w then ConScrollingTextWindow.lineFeed ctx s else s)
        c :=
  WriteCharBody_printable ctx _ s c hp

theorem WriteCharBody_tab (ctx : OwnerCtx)
    (self : Run ConScrollingTextWindow → Int → Run ConScrollingTextWindow)
    (s : Run ConScrollingTextWindow) :
    ConScrollingTextWindow.WriteCharBody ctx self s 9 =
      Nat.iterate (fun u => self u blank)
        (4 - Int.tmod (if s.win.mOutputLoc.x = s.win.mPos.w
            then ConScrollingTextWindow.lineFeed ctx s else s).win.mOutputLoc.x 4).toNat
        (if s.win.mOutputLoc.x = s.win.mPos.w then ConScrollingTextWindow.lineFeed ctx s else s) := by
  unfold ConScrollingTextWindow.WriteCharBody
  have h1 : ¬ ((9 : Int) ≠ 9 ∧ (9 : Int) ≠ 10 ∧ isprint 9 = false) := by
    intro h; exact h.1 rfl
  rw [if_neg h1]
  have h2 : ¬ ((9 : Int) = 10) := by decide
  simp only [h2, false_or, if_false, if_true]
  split_ifs <;> rfl

theorem WCI_tab (ctx : OwnerCtx) (s : Run ConScrollingTextWindow) :
    ConScrollingTextWindow.WriteCharInternal ctx s 9 =
      Nat.iterate (fun u => ConScrollingTextWindow.WriteCharInternal ctx u blank)
        (4 - Int.tmod (if s.win.mOutputLoc.x = s.win.mPos.w
            then ConScrollingTextWindow.lineFeed ctx s else s).win.mOutputLoc.x 4).toNat
        (if s.win.mOutputLoc.x = s.win.mPos.w then ConScrollingTextWindow.lineFeed ctx s else s) := by
  have hfun : (fun u => ConScrollingTextWindow.WriteCharBody ctx (fun u _ => u) u blank)
      = (fun u => ConScrollingTextWindow.WriteCharInternal ctx u blank) := by
    funext u
    rw [WCI_printable ctx u blank (by decide), WriteCharBody_printable ctx _ u blank (by decide)]
  have h := WriteCharBody_tab ctx (ConScrollingTextWindow.WriteCharBody ctx (fun u _ => u)) s
  rw [hfun] at h
  exact h


theorem lineFeed_ok (ctx : OwnerCtx) (s : Run ConScrollingTextWindow) (hok : s.win.outputOk) :
    (ConScrollingTextWindow.lineFeed ctx s).win.outputOk ∧
      laterState s (ConScrollingTextWindow.lineFeed ctx s) ∧
      (ConScrollingTextWindow.lineFeed ctx s).win.mOutputLoc.x = 0 := by
  obtain ⟨hp, _, hloc, ops, hops, _⟩ := lineFeed_spec ctx s
  unfold ConScrollingTextWindow.outputOk at hok ⊢
  refine ⟨?_, ⟨hp, ops, hops⟩, by rw [hloc]⟩
  rw [hp, hloc]
  dsimp only []
  split_ifs <;> omega

theorem putChar_ok (ctx : OwnerCtx) (s : Run ConScrollingTextWindow) (c : Int)
    (hok : s.win.outputOk) (hx : s.win.mOutputLoc.x < s.win.mPos.w) :
    (ConScrollingTextWindow.putChar ctx s c).win.outputOk ∧
      laterState s (ConScrollingTextWindow.putChar ctx s c) := by
  obtain ⟨hp, hloc, _, hops, _⟩ := putChar_spec ctx s c
  unfold ConScrollingTextWindow.outputOk at hok ⊢
  refine ⟨?_, ⟨hp, hops⟩⟩
  rw [hp, hloc]
  dsimp only []
  omega

theorem WCI_printable_ok (ctx : OwnerCtx) (s : Run ConScrollingTextWindow) (c : Int)
    (hp : isprint c = true) (hok : s.win.outputOk) :
    (ConScrollingTextWindow.WriteCharInternal ctx s c).win.outputOk ∧
      laterState s (ConScrollingTextWindow.WriteCharInternal ctx s c) := by
  rw [WCI_printable ctx s c hp]
  by_cases hx : s.win.mOutputLoc.x = s.win.mPos.w
  · rw [if_pos hx]
    obtain ⟨hok1, hl1, hx1⟩ := lineFeed_ok ctx s hok
    have hlt : (ConScrollingTextWindow.lineFeed ctx s).win.mOutputLoc.x
        < (ConScrollingTextWindow.lineFeed ctx s).win.mPos.w := by
      rw [hx1]; exact hok1.1
    obtain ⟨hok2, hl2⟩ := putChar_ok ctx _ c hok1 hlt
    exact ⟨hok2, laterState_trans hl1 hl2⟩
  · rw [if_neg hx]
    have hlt : s.win.mOutputLoc.x < s.win.mPos.w := by
      unfold ConScrollingTextWindow.outputOk at hok; omega
    exact putChar_ok ctx s c hok hlt

theorem iterate_ok (f : Run ConScrollingTextWindow → Run ConScrollingTextWindow)
    (hf : ∀ u, u.win.outputOk → (f u).win.outputOk ∧ laterState u (f u)) (n : Nat) :
    ∀ s : Run ConScrollingTextWindow, s.win.outputOk →
      (Nat.iterate f n s).win.outputOk ∧ laterState s (Nat.iterate f n s) := by
  induction n with
  | zero => intro s hok; exact ⟨hok, laterState_refl s⟩
  | succ n ih =>
      intro s hok
      rw [Function.iterate_succ_apply]
      obtain ⟨h1, h2⟩ := hf s hok
      obtain ⟨h3, h4⟩ := ih (f s) h1
      exact ⟨h3, laterState_trans h2 h4⟩

/-- The single-character writer keeps the output position inside the window,
whatever the character. -/
theorem WCI_ok (ctx : OwnerCtx) (s : Run ConScrollingTextWindow) (c : Int)
    (hok : s.win.outputOk) :
    (ConScrollingTextWindow.WriteCharInternal ctx s c).win.outputOk ∧
      laterState s (ConScrollingTextWindow.WriteCharInternal ctx s c) := by
  by_cases hp : isprint c = true
  · exact WCI_printable_ok ctx s c hp hok
  · have hp2 : isprint c = false := by simpa using hp
    by_cases h9 : c = 9
    · subst h9
      rw [WCI_tab]
      have hbase : (if s.win.mOutputLoc.x = s.win.mPos.w
          then ConScrollingTextWindow.lineFeed ctx s else s).win.outputOk ∧
          laterState s (if s.win.mOutputLoc.x = s.win.mPos.w
            then ConScrollingTextWindow.lineFeed ctx s else s) := by
        split_ifs
        · exact ⟨(lineFeed_ok ctx s hok).1, (lineFeed_ok ctx s hok).2.1⟩
        · exact ⟨hok, laterState_refl s⟩
      obtain ⟨h1, h2⟩ := iterate_ok
        (fun u => ConScrollingTextWindow.WriteCharInternal ctx u blank)
        (fun u hu => WCI_printable_ok ctx u blank (by decide) hu) _ _ hbase.1
      exact ⟨h1, laterState_trans hbase.2 h2⟩
    · by_cases h10 : c = 10
      · subst h10
        rw [WCI_newline]
        exact ⟨(lineFeed_ok ctx s hok).1, (lineFeed_ok ctx s hok).2.1⟩
      · rw [WCI_dropped ctx s c h9 h10 hp2]
        exact ⟨hok, laterState_refl s⟩

theorem Write_nil (ctx : OwnerCtx) (s : Run ConScrollingTextWindow) :
    ConScrollingTextWindow.Write ctx s [] = s := rfl

theorem Write_cons (ctx : OwnerCtx) (s : Run ConScrollingTextWindow) (c : Int) (t : List Int) :
    ConScrollingTextWindow.Write ctx s (c :: t)
      = ConScrollingTextWindow.Write ctx (ConScrollingTextWindow.WriteCharInternal ctx s c) t :=
  rfl

theorem Write_append (ctx : OwnerCtx) (s : Run ConScrollingTextWindow) (a b : List Int) :
    ConScrollingTextWindow.Write ctx s (a ++ b)
      = ConScrollingTextWindow.Write ctx (ConScrollingTextWindow.Write ctx s a) b := by
  unfold ConScrollingTextWindow.Write
  exact List.foldl_append _ _ _ _

theorem Write_ok (ctx : OwnerCtx) (text : List Int) :
    ∀ s : Run ConScrollingTextWindow, s.win.outputOk →
      (ConScrollingTextWindow.Write ctx s text).win.outputOk ∧
        laterState s (ConScrollingTextWindow.Write ctx s text) := by
  induction text with
  | nil => intro s hok; exact ⟨hok, laterState_refl s⟩
  | cons c t ih =>
      intro s hok
      rw [Write_cons]
      obtain ⟨h1, h2⟩ := WCI_ok ctx s c hok
      obtain ⟨h3, h4⟩ := ih _ h1
      exact ⟨h3, laterState_trans h2 h4⟩


/-! ## The buffer under the single-character writer -/

theorem GetChar_SetChar (ctx : OwnerCtx) (s : Run ConWindowBase) (row col c r k : Int)
    (hsz : s.win.sizeOk) (h0 : 0 ≤ row) (h1 : row < s.win.mPos.h) (h2 : 0 ≤ col)
    (h3 : col < s.win.mPos.w) :
    (ConWindowBase.SetChar ctx s row col c).win.GetChar r k
      = if r = row ∧ k = col then c else s.win.GetChar r k := by
  by_cases hrk : r = row ∧ k = col
  · rw [if_pos hrk, hrk.1, hrk.2]
    exact GetChar_SetChar_same ctx s row col c hsz h0 h1 h2 h3
  · rw [if_neg hrk]
    have hf := SetChar_frame ctx s row col c
    have hin := SetChar_in_range ctx s row col c h0 h1 h2 h3
    unfold ConWindowBase.GetChar
    rw [hf.1]
    by_cases hr : r < 0 ∨ r ≥ s.win.mPos.h ∨ k < 0 ∨ k ≥ s.win.mPos.w
    · rw [if_pos hr, if_pos hr]
    · rw [if_neg hr, if_neg hr, hin.1, List.getD_eq_getElem?_getD, List.getD_eq_getElem?_getD]
      have hne : (row * s.win.mPos.w + col).toNat ≠ (r * s.win.mPos.w + k).toNat := by
        intro e
        have := cell_index_inj h0 h2 h3 (by omega) (by omega) (by omega) e
        exact hrk ⟨this.1.symm, this.2.symm⟩
      rw [List.getElem?_set_ne hne]

theorem putChar_buffer (ctx : OwnerCtx) (s : Run ConScrollingTextWindow) (c : Int)
    (hsz : s.win.toConWindowBase.sizeOk) (h0 : 0 ≤ s.win.mOutputLoc.y)
    (h1 : s.win.mOutputLoc.y < s.win.mPos.h) (h2 : 0 ≤ s.win.mOutputLoc.x)
    (h3 : s.win.mOutputLoc.x < s.win.mPos.w) :
    (ConScrollingTextWindow.putChar ctx s c).win.toConWindowBase.sizeOk ∧
      ∀ r k, (ConScrollingTextWindow.putChar ctx s c).win.toConWindowBase.GetChar r k
        = if r = s.win.mOutputLoc.y ∧ k = s.win.mOutputLoc.x then toWchar c
          else s.win.toConWindowBase.GetChar r k := by
  obtain ⟨hp, _, hd, _, _⟩ := putChar_spec ctx s c
  have hf := SetChar_frame ctx ⟨s.win.toConWindowBase, s.screen⟩
    s.win.mOutputLoc.y s.win.mOutputLoc.x (toWchar c)
  constructor
  · unfold ConWindowBase.sizeOk at hsz ⊢
    rw [hp, hd, hf.2.2.2.2]; exact hsz
  · intro r k
    have hg := GetChar_SetChar ctx ⟨s.win.toConWindowBase, s.screen⟩
      s.win.mOutputLoc.y s.win.mOutputLoc.x (toWchar c) r k hsz h0 h1 h2 h3
    rw [← hg]
    unfold ConWindowBase.GetChar
    rw [hp, hd, hf.1]

theorem lineFeed_buffer (ctx : OwnerCtx) (s : Run ConScrollingTextWindow)
    (hsz : s.win.toConWindowBase.sizeOk) :
    (ConScrollingTextWindow.lineFeed ctx s).win.toConWindowBase.sizeOk ∧
      ∀ r k, (ConScrollingTextWindow.lineFeed ctx s).win.toConWindowBase.GetChar r k
        = s.win.toConWindowBase.GetChar r k := by
  obtain ⟨hp, hd, _, _⟩ := lineFeed_spec ctx s
  constructor
  · unfold ConWindowBase.sizeOk at hsz ⊢
    rw [hp, hd]; exact hsz
  · intro r k
    unfold ConWindowBase.GetChar
    rw [hp, hd]

/-- Writing printable characters that fit on the current row: they are stored
in consecutive cells of that row, one cell write each, and the output column
advances by their number. -/
theorem Write_row (ctx : OwnerCtx) (u : List Int) :
    ∀ s : Run ConScrollingTextWindow, (∀ c ∈ u, isprint c = true) → s.win.outputOk →
      s.win.mOutputLoc.x + (u.length : Int) ≤ s.win.mPos.w →
      (ConScrollingTextWindow.Write ctx s u).win.mPos = s.win.mPos ∧
        (ConScrollingTextWindow.Write ctx s u).win.mOutputLoc
          = ⟨s.win.mOutputLoc.x + (u.length : Int), s.win.mOutputLoc.y⟩ ∧
        cellWrites (ConScrollingTextWindow.Write ctx s u).screen
          = cellWrites s.screen ++ rowWrites ctx s.win.mPos s.win.mOutputLoc.y s.win.mOutputLoc.x u ∧
        (s.win.toConWindowBase.sizeOk →
          (ConScrollingTextWindow.Write ctx s u).win.toConWindowBase.sizeOk ∧
          ∀ r k, (ConScrollingTextWindow.Write ctx s u).win.toConWindowBase.GetChar r k
            = if r = s.win.mOutputLoc.y ∧ s.win.mOutputLoc.x ≤ k ∧
                  k < s.win.mOutputLoc.x + (u.length : Int)
              then toWchar (u.getD (k - s.win.mOutputLoc.x).toNat 0)
              else s.win.toConWindowBase.GetChar r k) := by
  induction u with
  | nil =>
      intro s _ _ _
      rw [Write_nil]
      refine ⟨rfl, by simp, by simp [rowWrites], ?_⟩
      intro hsz
      refine ⟨hsz, ?_⟩
      intro r k
      have : ¬ (r = s.win.mOutputLoc.y ∧ s.win.mOutputLoc.x ≤ k ∧
          k < s.win.mOutputLoc.x + ((([] : List Int).length : Nat) : Int)) := by
        simp only [List.length_nil, Nat.cast_zero, add_zero]; omega
      rw [if_neg this]
  | cons c t ih =>
      intro s hpr hok hfit
      have hc : isprint c = true := hpr c (List.mem_cons_self c t)
      have ht : ∀ a ∈ t, isprint a = true := fun a ha => hpr a (List.mem_cons_of_mem c ha)
      have hlen : ((c :: t).length : Int) = (t.length : Int) + 1 := by
        simp only [List.length_cons, Nat.cast_add, Nat.cast_one]
      rw [hlen] at hfit
      have hokc := hok
      unfold ConScrollingTextWindow.outputOk at hok
      have hx : ¬ (s.win.mOutputLoc.x = s.win.mPos.w) := by omega
      have hlt : s.win.mOutputLoc.x < s.win.mPos.w := by omega
      rw [Write_cons, WCI_printable ctx s c hc, if_neg hx]
      obtain ⟨hp, hloc, _, _, hcw⟩ := putChar_spec ctx s c
      have hcw2 := hcw hok.2.2.2.2.1 hok.2.2.2.2.2 hok.2.2.1 hlt
      obtain ⟨hok2, _⟩ := putChar_ok ctx s c hokc hlt
      have hfit2 : (ConScrollingTextWindow.putChar ctx s c).win.mOutputLoc.x + (t.length : Int)
          ≤ (ConScrollingTextWindow.putChar ctx s c).win.mPos.w := by
        rw [hp, hloc]; dsimp only []; omega
      obtain ⟨i1, i2, i3, i4⟩ := ih (ConScrollingTextWindow.putChar ctx s c) ht hok2 hfit2
      refine ⟨i1.trans hp, ?_, ?_, ?_⟩
      · rw [i2, hloc, hlen]
        dsimp only []
        rw [add_assoc, add_comm 1 (t.length : Int)]
      · rw [i3, hcw2, hp, hloc, List.append_assoc]
        rfl
      · intro hsz
        obtain ⟨hsz1, hb1⟩ := putChar_buffer ctx s c hsz hok.2.2.2.2.1 hok.2.2.2.2.2
          hok.2.2.1 hlt
        obtain ⟨hsz2, hb2⟩ := i4 hsz1
        refine ⟨hsz2, ?_⟩
        intro r k
        rw [hb2 r k, hb1 r k, hloc, hlen]
        dsimp only []
        by_cases hr : r = s.win.mOutputLoc.y
        · by_cases hk0 : k = s.win.mOutputLoc.x
          · have e1 : ¬ (r = s.win.mOutputLoc.y ∧ s.win.mOutputLoc.x + 1 ≤ k ∧
                k < s.win.mOutputLoc.x + 1 + (t.length : Int)) := by omega
            have e2 : r = s.win.mOutputLoc.y ∧ s.win.mOutputLoc.x ≤ k ∧
                k < s.win.mOutputLoc.x + ((t.length : Int) + 1) := by omega
            rw [if_neg e1, if_pos ⟨hr, hk0⟩, if_pos e2]
            have : (k - s.win.mOutputLoc.x).toNat = 0 := by omega
            rw [this]; rfl
          · by_cases hk1 : s.win.mOutputLoc.x + 1 ≤ k ∧
                k < s.win.mOutputLoc.x + 1 + (t.length : Int)
            · have e2 : r = s.win.mOutputLoc.y ∧ s.win.mOutputLoc.x ≤ k ∧
                  k < s.win.mOutputLoc.x + ((t.length : Int) + 1) := by omega
              rw [if_pos ⟨hr, hk1⟩, if_pos e2]
              have : (k - s.win.mOutputLoc.x).toNat
                  = (k - (s.win.mOutputLoc.x + 1)).toNat + 1 := by omega
              rw [this]; rfl
            · have e1 : ¬ (r = s.win.mOutputLoc.y ∧ s.win.mOutputLoc.x + 1 ≤ k ∧
                  k < s.win.mOutputLoc.x + 1 + (t.length : Int)) := fun h => hk1 h.2
              have e2 : ¬ (r = s.win.mOutputLoc.y ∧ s.win.mOutputLoc.x ≤ k ∧
                  k < s.win.mOutputLoc.x + ((t.length : Int) + 1)) := by omega
              have e3 : ¬ (r = s.win.mOutputLoc.y ∧ k = s.win.mOutputLoc.x) := fun h => hk0 h.2
              rw [if_neg e1, if_neg e3, if_neg e2]
        · have e1 : ¬ (r = s.win.mOutputLoc.y ∧ s.win.mOutputLoc.x + 1 ≤ k ∧
              k < s.win.mOutputLoc.x + 1 + (t.length : Int)) := fun h => hr h.1
          have e2 : ¬ (r = s.win.mOutputLoc.y ∧ s.win.mOutputLoc.x ≤ k ∧
              k < s.win.mOutputLoc.x + ((t.length : Int) + 1)) := fun h => hr h.1
          have e3 : ¬ (r = s.win.mOutputLoc.y ∧ k = s.win.mOutputLoc.x) := fun h => hr h.1
          rw [if_neg e1, if_neg e3, if_neg e2]


/-! ## The two scans of `Write_WordWrap_Line` -/

/-- A run of whitespace without a newline in front of a text that is empty or
starts with a non-whitespace character: the scan stops at that text. -/
theorem scanSpaces_run (u v : List Int) (hu : ∀ c ∈ u, isspace c = true ∧ c ≠ 10)
    (hv : ∀ c ∈ v.head?, isspace c = false) : scanSpaces (u ++ v) = Sum.inr v := by
  induction u with
  | nil =>
      cases v with
      | nil => rfl
      | cons c r =>
          have hc : isspace c = false := hv c (by simp)
          simp [scanSpaces, hc]
  | cons a u ih =>
      have ha := hu a (List.mem_cons_self a u)
      have hrest := ih (fun c hc => hu c (List.mem_cons_of_mem a hc))
      rw [List.cons_append, scanSpaces, if_pos ha.1, if_neg ha.2]
      exact hrest

/-- A run of whitespace without a newline, then a newline: the scan returns
the text after the newline. -/
theorem scanSpaces_newline (u v : List Int) (hu : ∀ c ∈ u, isspace c = true ∧ c ≠ 10) :
    scanSpaces (u ++ 10 :: v) = Sum.inl v := by
  induction u with
  | nil => simp [scanSpaces, isspace]
  | cons a u ih =>
      have ha := hu a (List.mem_cons_self a u)
      have hrest := ih (fun c hc => hu c (List.mem_cons_of_mem a hc))
      rw [List.cons_append, scanSpaces, if_pos ha.1, if_neg ha.2]
      exact hrest

/-- A run of non-whitespace in front of a text that is empty or starts with
whitespace: the word scan stops at that text. -/
theorem scanWord_run (g v : List Int) (hg : ∀ c ∈ g, isspace c = false)
    (hv : ∀ c ∈ v.head?, isspace c = true) : scanWord (g ++ v) = v := by
  induction g with
  | nil =>
      cases v with
      | nil => rfl
      | cons c r =>
          have hc : isspace c = true := hv c (by simp)
          simp [scanWord, hc]
  | cons a g ih =>
      have ha := hg a (List.mem_cons_self a g)
      have hrest := ih (fun c hc => hg c (List.mem_cons_of_mem a hc))
      rw [List.cons_append, scanWord, ha]
      simpa using hrest

/-- Every text is a run of whitespace without a newline followed by a text
that is empty, starts with a newline or starts with a non-whitespace character. -/
theorem split_spaces (t : List Int) :
    ∃ u v, t = u ++ v ∧ (∀ c ∈ u, isspace c = true ∧ c ≠ 10) ∧
      (∀ c ∈ v.head?, c = 10 ∨ isspace c = false) := by
  induction t with
  | nil => exact ⟨[], [], rfl, by simp, by simp⟩
  | cons a t ih =>
      by_cases ha : isspace a = true ∧ a ≠ 10
      · obtain ⟨u, v, e, hu, hv⟩ := ih
        refine ⟨a :: u, v, by rw [e]; rfl, ?_, hv⟩
        intro c hc
        rcases List.mem_cons.mp hc with h | h
        · rw [h]; exact ha
        · exact hu c h
      · refine ⟨[], a :: t, rfl, by simp, ?_⟩
        intro c hc
        simp only [List.head?_cons, Option.mem_def, Option.some.injEq] at hc
        subst hc
        by_cases h10 : a = 10
        · exact Or.inl h10
        · right
          by_contra hc
          exact ha ⟨by simpa using hc, h10⟩

/-- Every text is a run of non-whitespace followed by a text that is empty or
starts with whitespace. -/
theorem split_word (t : List Int) :
    ∃ g v, t = g ++ v ∧ (∀ c ∈ g, isspace c = false) ∧ (∀ c ∈ v.head?, isspace c = true) := by
  induction t with
  | nil => exact ⟨[], [], rfl, by simp, by simp⟩
  | cons a t ih =>
      by_cases ha : isspace a = true
      · refine ⟨[], a :: t, rfl, by simp, ?_⟩
        intro c hc
        simp only [List.head?_cons, Option.mem_def, Option.some.injEq] at hc
        subst hc; exact ha
      · obtain ⟨g, v, e, hg, hv⟩ := ih
        refine ⟨a :: g, v, by rw [e]; rfl, ?_, hv⟩
        intro c hc
        rcases List.mem_cons.mp hc with h | h
        · rw [h]; simpa using ha
        · exact hg c h


/-! ## One iteration of the loop of `Write_WordWrap_Line` -/

/-- The iteration that meets a newline in the leading whitespace returns the
text after the newline and writes nothing. -/
theorem wrapLineLoop_newline (ctx : OwnerCtx) (L : Int) (f : Nat)
    (s : Run ConScrollingTextWindow) (u v : List Int)
    (hu : ∀ c ∈ u, isspace c = true ∧ c ≠ 10) :
    ConScrollingTextWindow.wrapLineLoop ctx L (f + 1) s (u ++ 10 :: v) = some (s, some v) := by
  have hsc := scanSpaces_newline u v hu
  obtain ⟨c, t, hct⟩ : ∃ c t, u ++ 10 :: v = c :: t := by
    cases u with
    | nil => exact ⟨10, v, rfl⟩
    | cons a u2 => exact ⟨a, u2 ++ 10 :: v, rfl⟩
  rw [hct] at hsc ⊢
  rw [ConScrollingTextWindow.wrapLineLoop, hsc]

/-- The iteration on a text that starts with the whitespace run `u` (no
newline) and the word `g`: it returns the text at the word when the
whitespace, or the whitespace and a word shorter than the line, would pass
the line length; otherwise it writes `u ++ g` and goes on with the rest. -/
theorem wrapLineLoop_chunk (ctx : OwnerCtx) (L : Int) (f : Nat)
    (s : Run ConScrollingTextWindow) (u g rest : List Int)
    (hu : ∀ c ∈ u, isspace c = true ∧ c ≠ 10) (hg : ∀ c ∈ g, isspace c = false)
    (hrest : ∀ c ∈ rest.head?, isspace c = true) (hne : u ++ g ≠ [])
    (hmax : g ≠ [] ∨ rest = []) :
    ConScrollingTextWindow.wrapLineLoop ctx L (f + 1) s (u ++ g ++ rest) =
      if s.win.mOutputLoc.x + (u.length : Int) > L then some (s, some (g ++ rest))
      else if (g.length : Int) < L ∧ s.win.mOutputLoc.x + ((g.length : Int) + (u.length : Int)) > L
        then some (s, some (g ++ rest))
      else ConScrollingTextWindow.wrapLineLoop ctx L f
        (ConScrollingTextWindow.Write ctx s (u ++ g)) rest := by
  have hhead : ∀ c ∈ (g ++ rest).head?, isspace c = false := by
    intro c hc
    cases g with
    | nil =>
        rcases hmax with h | h
        · exact absurd rfl h
        · rw [h] at hc; simp at hc
    | cons a g2 =>
        simp only [List.cons_append, List.head?_cons, Option.mem_def, Option.some.injEq] at hc
        subst hc; exact hg _ (List.mem_cons_self _ g2)
  have hsc : scanSpaces (u ++ g ++ rest) = Sum.inr (g ++ rest) := by
    rw [List.append_assoc]; exact scanSpaces_run u (g ++ rest) hu hhead
  have hsw : scanWord (g ++ rest) = rest := scanWord_run g rest hg hrest
  obtain ⟨c, t, hct⟩ : ∃ c t, u ++ g ++ rest = c :: t := by
    cases hug : u ++ g with
    | nil => exact absurd hug hne
    | cons a r => exact ⟨a, r ++ rest, rfl⟩
  have hlen1 : (((c :: t).length : Nat) : Int) - ((g ++ rest).length : Int) = (u.length : Int) := by
    rw [← hct]; simp only [List.length_append, Nat.cast_add]; ring
  have hlen2 : (((g ++ rest).length : Nat) : Int) - (rest.length : Int) = (g.length : Int) := by
    simp only [List.length_append, Nat.cast_add]; ring
  have htake : (c :: t).take ((c :: t).length - rest.length) = u ++ g := by
    rw [← hct]
    have : (u ++ g ++ rest).length - rest.length = (u ++ g).length := by
      simp only [List.length_append]; omega
    rw [this, List.take_left]
  rw [hct] at hsc ⊢
  rw [ConScrollingTextWindow.wrapLineLoop, hsc]
  simp only [hsw, hlen1, hlen2, htake]

/-- The text before a loop iteration: empty, or one of the two shapes above. -/
theorem text_shape (t : List Int) :
    t = [] ∨
      (∃ u v, t = u ++ 10 :: v ∧ (∀ c ∈ u, isspace c = true ∧ c ≠ 10)) ∨
      (∃ u g rest, t = u ++ g ++ rest ∧ (∀ c ∈ u, isspace c = true ∧ c ≠ 10) ∧
        (∀ c ∈ g, isspace c = false) ∧ (∀ c ∈ rest.head?, isspace c = true) ∧
        u ++ g ≠ [] ∧ (g ≠ [] ∨ rest = [])) := by
  by_cases ht : t = []
  · exact Or.inl ht
  · right
    obtain ⟨u, v, e, hu, hv⟩ := split_spaces t
    cases v with
    | nil =>
        right
        refine ⟨u, [], [], by rw [e]; simp, hu, by simp, by simp, ?_, Or.inr rfl⟩
        intro hc
        rw [List.append_nil] at hc e
        rw [hc] at e; exact ht e
    | cons a v2 =>
        have ha := hv a (by simp)
        by_cases h10 : a = 10
        · left; subst h10; exact ⟨u, v2, e, hu⟩
        · right
          have hans : isspace a = false := by
            rcases ha with h | h
            · exact absurd h h10
            · exact h
          obtain ⟨g, rest, e2, hg, hrest⟩ := split_word (a :: v2)
          have hgne : g ≠ [] := by
            intro hc
            rw [hc, List.nil_append] at e2
            rw [← e2] at hrest
            have := hrest a (by simp)
            rw [hans] at this; exact absurd this (by simp)
          refine ⟨u, g, rest, by rw [e, e2, List.append_assoc], hu, hg, hrest, ?_, Or.inl hgne⟩
          intro hc
          exact hgne (List.append_eq_nil.mp hc).2

/-- Fuel beyond the length of the text does not change the result of the loop. -/
theorem wrapLineLoop_fuel (ctx : OwnerCtx) (L : Int) (n : Nat) :
    ∀ (t : List Int) (s : Run ConScrollingTextWindow) (f1 f2 : Nat),
      t.length ≤ n → t.length ≤ f1 → t.length ≤ f2 →
        ConScrollingTextWindow.wrapLineLoop ctx L f1 s t
          = ConScrollingTextWindow.wrapLineLoop ctx L f2 s t := by
  induction n with
  | zero =>
      intro t s f1 f2 hn _ _
      have ht : t = [] := List.length_eq_zero.mp (Nat.le_zero.mp hn)
      subst ht
      simp [ConScrollingTextWindow.wrapLineLoop]
  | succ n ih =>
      intro t s f1 f2 hn h1 h2
      rcases text_shape t with ht | ⟨u, v, e, hu⟩ | ⟨u, g, rest, e, hu, hg, hrest, hne, hmax⟩
      · subst ht
        simp [ConScrollingTextWindow.wrapLineLoop]
      · subst e
        have hpos : 0 < (u ++ 10 :: v).length := by simp
        obtain ⟨k1, hk1⟩ : ∃ k, f1 = k + 1 := ⟨f1 - 1, by omega⟩
        obtain ⟨k2, hk2⟩ : ∃ k, f2 = k + 1 := ⟨f2 - 1, by omega⟩
        rw [hk1, hk2, wrapLineLoop_newline ctx L k1 s u v hu,
          wrapLineLoop_newline ctx L k2 s u v hu]
      · subst e
        have hpos : 0 < (u ++ g).length := List.length_pos.mpr hne
        have hl : (u ++ g ++ rest).length = (u ++ g).length + rest.length := List.length_append _ _
        obtain ⟨k1, hk1⟩ : ∃ k, f1 = k + 1 := ⟨f1 - 1, by omega⟩
        obtain ⟨k2, hk2⟩ : ∃ k, f2 = k + 1 := ⟨f2 - 1, by omega⟩
        rw [hk1, hk2, wrapLineLoop_chunk ctx L k1 s u g rest hu hg hrest hne hmax,
          wrapLineLoop_chunk ctx L k2 s u g rest hu hg hrest hne hmax,
          ih rest _ k1 k2 (by omega) (by omega) (by omega)]


/-- The loop of `Write_WordWrap_Line` never runs out of a fuel of at least the
length of the text: the call returns, from every state and for every line
length. -/
theorem wrapLineLoop_returns (ctx : OwnerCtx) (L : Int) (n : Nat) :
    ∀ (t : List Int) (s : Run ConScrollingTextWindow) (fuel : Nat),
      t.length ≤ n → t.length ≤ fuel →
        (ConScrollingTextWindow.wrapLineLoop ctx L fuel s t).isSome = true := by
  induction n with
  | zero =>
      intro t s fuel hn _
      have ht : t = [] := List.length_eq_zero.mp (Nat.le_zero.mp hn)
      subst ht
      simp [ConScrollingTextWindow.wrapLineLoop]
  | succ n ih =>
      intro t s fuel hn hfuel
      rcases text_shape t with ht | ⟨u, v, e, hu⟩ | ⟨u, g, rest, e, hu, hg, hrest, hne, hmax⟩
      · subst ht
        simp [ConScrollingTextWindow.wrapLineLoop]
      · subst e
        have hpos : 0 < (u ++ 10 :: v).length := by simp
        obtain ⟨k, hk⟩ : ∃ k, fuel = k + 1 := ⟨fuel - 1, by omega⟩
        rw [hk, wrapLineLoop_newline ctx L k s u v hu]
        rfl
      · subst e
        have hpos : 0 < (u ++ g).length := List.length_pos.mpr hne
        have hl : (u ++ g ++ rest).length = (u ++ g).length + rest.length := List.length_append _ _
        obtain ⟨k, hk⟩ : ∃ k, fuel = k + 1 := ⟨fuel - 1, by omega⟩
        rw [hk, wrapLineLoop_chunk ctx L k s u g rest hu hg hrest hne hmax]
        split_ifs
        · rfl
        · rfl
        · exact ih rest _ k (by omega) (by omega)

/-! ## `Write_WordWrap_Line` and `Write_WordWrap` as a whole -/

theorem WCI_later (ctx : OwnerCtx) (s : Run ConScrollingTextWindow) (c : Int) :
    laterState s (ConScrollingTextWindow.WriteCharInternal ctx s c) := by
  have hlf : ∀ u : Run ConScrollingTextWindow,
      laterState u (ConScrollingTextWindow.lineFeed ctx u) := by
    intro u
    obtain ⟨hp, _, _, ops, hops, _⟩ := lineFeed_spec ctx u
    exact ⟨hp, ops, hops⟩
  have hpc : ∀ (u : Run ConScrollingTextWindow) (a : Int),
      laterState u (ConScrollingTextWindow.putChar ctx u a) := by
    intro u a
    obtain ⟨hp, _, _, hops, _⟩ := putChar_spec ctx u a
    exact ⟨hp, hops⟩
  have hpr : ∀ (u : Run ConScrollingTextWindow) (a : Int), isprint a = true →
      laterState u (ConScrollingTextWindow.WriteCharInternal ctx u a) := by
    intro u a ha
    rw [WCI_printable ctx u a ha]
    split_ifs
    · exact laterState_trans (hlf u) (hpc _ a)
    · exact hpc u a
  by_cases hp : isprint c = true
  · exact hpr s c hp
  · have hp2 : isprint c = false := by simpa using hp
    by_cases h9 : c = 9
    · subst h9
      rw [WCI_tab]
      have hit : ∀ (n : Nat) (u : Run ConScrollingTextWindow), laterState u
          (Nat.iterate (fun v => ConScrollingTextWindow.WriteCharInternal ctx v blank) n u) := by
        intro n
        induction n with
        | zero => intro u; exact laterState_refl u
        | succ n ih =>
            intro u
            rw [Function.iterate_succ_apply]
            exact laterState_trans (hpr u blank (by decide)) (ih _)
      split_ifs
      · exact laterState_trans (hlf s) (hit _ _)
      · exact hit _ _
    · by_cases h10 : c = 10
      · subst h10; rw [WCI_newline]; exact hlf s
      · rw [WCI_dropped ctx s c h9 h10 hp2]; exact laterState_refl s

theorem Write_later (ctx : OwnerCtx) (text : List Int) :
    ∀ s : Run ConScrollingTextWindow, laterState s (ConScrollingTextWindow.Write ctx s text) := by
  induction text with
  | nil => intro s; exact laterState_refl s
  | cons c t ih =>
      intro s
      rw [Write_cons]
      exact laterState_trans (WCI_later ctx s c) (ih _)

theorem Line_nil (ctx : OwnerCtx) (s : Run ConScrollingTextWindow) (lineLen : Int) :
    ConScrollingTextWindow.Write_WordWrap_Line ctx s [] lineLen = some (s, none) := by
  simp [ConScrollingTextWindow.Write_WordWrap_Line, ConScrollingTextWindow.wrapLineLoop]

theorem Line_newline (ctx : OwnerCtx) (s : Run ConScrollingTextWindow) (lineLen : Int)
    (u v : List Int) (hu : ∀ c ∈ u, isspace c = true ∧ c ≠ 10) :
    ConScrollingTextWindow.Write_WordWrap_Line ctx s (u ++ 10 :: v) lineLen
      = some (s, some v) := by
  unfold ConScrollingTextWindow.Write_WordWrap_Line
  obtain ⟨k, hk⟩ : ∃ k, (u ++ 10 :: v).length = k + 1 :=
    ⟨(u ++ 10 :: v).length - 1, by simp only [List.length_append, List.length_cons]; omega⟩
  rw [hk]
  exact wrapLineLoop_newline ctx _ k s u v hu

theorem Line_chunk (ctx : OwnerCtx) (s : Run ConScrollingTextWindow) (lineLen : Int)
    (u g rest : List Int)
    (hu : ∀ c ∈ u, isspace c = true ∧ c ≠ 10) (hg : ∀ c ∈ g, isspace c = false)
    (hrest : ∀ c ∈ rest.head?, isspace c = true) (hne : u ++ g ≠ [])
    (hmax : g ≠ [] ∨ rest = []) :
    ConScrollingTextWindow.Write_WordWrap_Line ctx s (u ++ g ++ rest) lineLen =
      if s.win.mOutputLoc.x + (u.length : Int) > (if lineLen = 0 then s.win.mPos.w else lineLen)
        then some (s, some (g ++ rest))
      else if (g.length : Int) < (if lineLen = 0 then s.win.mPos.w else lineLen) ∧
          s.win.mOutputLoc.x + ((g.length : Int) + (u.length : Int))
            > (if lineLen = 0 then s.win.mPos.w else lineLen)
        then some (s, some (g ++ rest))
      else ConScrollingTextWindow.Write_WordWrap_Line ctx
        (ConScrollingTextWindow.Write ctx s (u ++ g)) rest lineLen := by
  have hpos : 0 < (u ++ g).length := List.length_pos.mpr hne
  have hl : (u ++ g ++ rest).length = (u ++ g).length + rest.length := List.length_append _ _
  obtain ⟨k, hk⟩ : ∃ k, (u ++ g ++ rest).length = k + 1 :=
    ⟨(u ++ g ++ rest).length - 1, by omega⟩
  have hpos2 := (Write_later ctx (u ++ g) s).1
  unfold ConScrollingTextWindow.Write_WordWrap_Line
  rw [hk, wrapLineLoop_chunk ctx _ k s u g rest hu hg hrest hne hmax, hpos2,
    wrapLineLoop_fuel ctx _ rest.length rest _ k rest.length (le_refl _) (by omega) (le_refl _)]

/-- With the default line length, from an output position inside the window:
`Write_WordWrap_Line` returns, keeps the output position inside the window,
never returns more text than it was given, and returns less when it starts at
column 0. -/
theorem Line_total (ctx : OwnerCtx) (n : Nat) :
    ∀ (t : List Int) (s : Run ConScrollingTextWindow), t.length ≤ n → s.win.outputOk →
      ∃ s2 r, ConScrollingTextWindow.Write_WordWrap_Line ctx s t 0 = some (s2, r) ∧
        s2.win.outputOk ∧ laterState s s2 ∧
        ∀ t2, r = some t2 → t2.length ≤ t.length ∧
          (s.win.mOutputLoc.x = 0 → t2.length < t.length) := by
  induction n with
  | zero =>
      intro t s hn hok
      have ht : t = [] := List.length_eq_zero.mp (Nat.le_zero.mp hn)
      subst ht
      exact ⟨s, none, Line_nil ctx s 0, hok, laterState_refl s, by intro t2 h; cases h⟩
  | succ n ih =>
      intro t s hn hok
      rcases text_shape t with ht | ⟨u, v, e, hu⟩ | ⟨u, g, rest, e, hu, hg, hrest, hne, hmax⟩
      · subst ht
        exact ⟨s, none, Line_nil ctx s 0, hok, laterState_refl s, by intro t2 h; cases h⟩
      · subst e
        refine ⟨s, some v, Line_newline ctx s 0 u v hu, hok, laterState_refl s, ?_⟩
        intro t2 h
        cases h
        simp only [List.length_append, List.length_cons]
        omega
      · subst e
        have hw := hok.1
        have hpos : 0 < (u ++ g).length := List.length_pos.mpr hne
        have hl : (u ++ g ++ rest).length = u.length + g.length + rest.length := by
          simp only [List.length_append]
        have hl2 : (u ++ g).length = u.length + g.length := List.length_append _ _
        have hl3 : (g ++ rest).length = g.length + rest.length := List.length_append _ _
        rw [Line_chunk ctx s 0 u g rest hu hg hrest hne hmax]
        simp only [if_true]
        by_cases h1 : s.win.mOutputLoc.x + (u.length : Int) > s.win.mPos.w
        · rw [if_pos h1]
          refine ⟨s, some (g ++ rest), rfl, hok, laterState_refl s, ?_⟩
          intro t2 h
          cases h
          refine ⟨by omega, ?_⟩
          intro hx
          rw [hx] at h1
          omega
        · rw [if_neg h1]
          by_cases h2 : (g.length : Int) < s.win.mPos.w ∧
              s.win.mOutputLoc.x + ((g.length : Int) + (u.length : Int)) > s.win.mPos.w
          · rw [if_pos h2]
            refine ⟨s, some (g ++ rest), rfl, hok, laterState_refl s, ?_⟩
            intro t2 h
            cases h
            refine ⟨by omega, ?_⟩
            intro hx
            rw [hx] at h2
            omega
          · rw [if_neg h2]
            obtain ⟨hok2, hl2s⟩ := Write_ok ctx (u ++ g) s hok
            obtain ⟨s3, r, he, hok3, hl3s, hprog⟩ := ih rest _ (by omega) hok2
            refine ⟨s3, r, he, hok3, laterState_trans hl2s hl3s, ?_⟩
            intro t2 h
            have := (hprog t2 h).1
            exact ⟨by omega, fun _ => by omega⟩

theorem wrapLoop_none (ctx : OwnerCtx) (lineLen : Int) (fuel : Nat)
    (s : Run ConScrollingTextWindow) (n : Int) :
    ConScrollingTextWindow.wrapLoop ctx lineLen fuel s none n = some (s, n) := by
  cases fuel <;> rfl

theorem wrapLoop_some (ctx : OwnerCtx) (lineLen : Int) (fuel : Nat)
    (s : Run ConScrollingTextWindow) (t : List Int) (n : Int) :
    ConScrollingTextWindow.wrapLoop ctx lineLen (fuel + 1) s (some t) n
      = ConScrollingTextWindow.wrapFrom ctx
          (ConScrollingTextWindow.WriteCharInternal ctx s 10) t lineLen (n + 1) fuel := by
  rw [ConScrollingTextWindow.wrapLoop]
  rfl

theorem Write_WordWrap_eq (ctx : OwnerCtx) (s : Run ConScrollingTextWindow) (t : List Int)
    (lineLen : Int) (fuel : Nat) :
    ConScrollingTextWindow.Write_WordWrap ctx s t lineLen fuel
      = ConScrollingTextWindow.wrapFrom ctx s t lineLen 0 fuel := rfl

theorem wrapFrom_of_line (ctx : OwnerCtx) (s s2 : Run ConScrollingTextWindow) (t : List Int)
    (r : Option (List Int)) (lineLen n : Int) (fuel : Nat)
    (h : ConScrollingTextWindow.Write_WordWrap_Line ctx s t lineLen = some (s2, r)) :
    ConScrollingTextWindow.wrapFrom ctx s t lineLen n fuel
      = ConScrollingTextWindow.wrapLoop ctx lineLen fuel s2 r n := by
  unfold ConScrollingTextWindow.wrapFrom
  rw [h]

theorem newline_ok (ctx : OwnerCtx) (s : Run ConScrollingTextWindow) (hok : s.win.outputOk) :
    (ConScrollingTextWindow.WriteCharInternal ctx s 10).win.outputOk ∧
      laterState s (ConScrollingTextWindow.WriteCharInternal ctx s 10) ∧
      (ConScrollingTextWindow.WriteCharInternal ctx s 10).win.mOutputLoc.x = 0 := by
  rw [WCI_newline]
  exact lineFeed_ok ctx s hok

/-- With the default line length, from an output position inside the window,
the loop of `Write_WordWrap` ends within `text.length + 1` iterations. -/
theorem wrapLoop_total (ctx : OwnerCtx) (k : Nat) :
    ∀ (t : List Int) (s : Run ConScrollingTextWindow) (n : Int) (fuel : Nat),
      t.length ≤ k → s.win.outputOk → t.length + 1 ≤ fuel →
      ∃ r cnt, ConScrollingTextWindow.wrapLoop ctx 0 fuel s (some t) n = some (r, cnt) ∧
        r.win.outputOk ∧ laterState s r := by
  induction k using Nat.strong_induction_on with
  | _ k ih =>
      intro t s n fuel hk hok hfuel
      obtain ⟨f, hf⟩ : ∃ f, fuel = f + 1 := ⟨fuel - 1, by omega⟩
      subst hf
      rw [wrapLoop_some]
      obtain ⟨hok1, hl1, hx1⟩ := newline_ok ctx s hok
      obtain ⟨s2, r, he, hok2, hl2, hprog⟩ := Line_total ctx t.length t _ (le_refl _) hok1
      rw [wrapFrom_of_line ctx _ s2 t r 0 (n + 1) f he]
      cases r with
      | none =>
          rw [wrapLoop_none]
          exact ⟨s2, n + 1, rfl, hok2, laterState_trans hl1 hl2⟩
      | some t2 =>
          have hlt := (hprog t2 rfl).2 hx1
          obtain ⟨r, cnt, hr, hokr, hlr⟩ :=
            ih t2.length (by omega) t2 s2 (n + 1) f (le_refl _) hok2 (by omega)
          exact ⟨r, cnt, hr, hokr, laterState_trans (laterState_trans hl1 hl2) hlr⟩

theorem wrapFrom_total (ctx : OwnerCtx) (t : List Int) (s : Run ConScrollingTextWindow)
    (n : Int) (fuel : Nat) (hok : s.win.outputOk) (hfuel : t.length + 1 ≤ fuel) :
    ∃ r cnt, ConScrollingTextWindow.wrapFrom ctx s t 0 n fuel = some (r, cnt) ∧
      r.win.outputOk ∧ laterState s r := by
  obtain ⟨s2, r, he, hok2, hl2, hprog⟩ := Line_total ctx t.length t s (le_refl _) hok
  rw [wrapFrom_of_line ctx s s2 t r 0 n fuel he]
  cases r with
  | none =>
      rw [wrapLoop_none]
      exact ⟨s2, n, rfl, hok2, hl2⟩
  | some t2 =>
      have hle := (hprog t2 rfl).1
      obtain ⟨r, cnt, hr, hokr, hlr⟩ :=
        wrapLoop_total ctx t2.length t2 s2 n fuel (le_refl _) hok2 (by omega)
      exact ⟨r, cnt, hr, hokr, laterState_trans hl2 hlr⟩


/-! ## Words are written whole -/

theorem isspace_cases (c : Int) (h : isspace c = true) : (9 ≤ c ∧ c ≤ 13) ∨ c = 32 := by
  unfold isspace at h
  simp only [Bool.or_eq_true, Bool.and_eq_true, decide_eq_true_eq] at h
  exact h

/-- Writing whitespace other than tabs and newlines that fits on the row
stays on the row and advances the column by at most one per character. -/
theorem Write_spaces (ctx : OwnerCtx) (u : List Int) :
    ∀ s : Run ConScrollingTextWindow, (∀ c ∈ u, isspace c = true ∧ c ≠ 10 ∧ c ≠ 9) →
      s.win.outputOk → s.win.mOutputLoc.x + (u.length : Int) < s.win.mPos.w →
      (ConScrollingTextWindow.Write ctx s u).win.outputOk ∧
        laterState s (ConScrollingTextWindow.Write ctx s u) ∧
        (ConScrollingTextWindow.Write ctx s u).win.mOutputLoc.y = s.win.mOutputLoc.y ∧
        s.win.mOutputLoc.x ≤ (ConScrollingTextWindow.Write ctx s u).win.mOutputLoc.x ∧
        (ConScrollingTextWindow.Write ctx s u).win.mOutputLoc.x
          ≤ s.win.mOutputLoc.x + (u.length : Int) := by
  induction u with
  | nil =>
      intro s _ hok _
      rw [Write_nil]
      exact ⟨hok, laterState_refl s, rfl, le_refl _, by simp⟩
  | cons c t ih =>
      intro s hu hok hfit
      have hc := hu c (List.mem_cons_self c t)
      have ht : ∀ a ∈ t, isspace a = true ∧ a ≠ 10 ∧ a ≠ 9 :=
        fun a ha => hu a (List.mem_cons_of_mem c ha)
      have hlen : ((c :: t).length : Int) = (t.length : Int) + 1 := by
        simp only [List.length_cons, Nat.cast_add, Nat.cast_one]
      rw [hlen] at hfit ⊢
      rw [Write_cons]
      by_cases hp : isprint c = true
      · have hx : ¬ (s.win.mOutputLoc.x = s.win.mPos.w) := by omega
        have hlt : s.win.mOutputLoc.x < s.win.mPos.w := by omega
        rw [WCI_printable ctx s c hp, if_neg hx]
        obtain ⟨hpos, hloc, _, _, _⟩ := putChar_spec ctx s c
        obtain ⟨hok2, hl2⟩ := putChar_ok ctx s c hok hlt
        have hfit2 : (ConScrollingTextWindow.putChar ctx s c).win.mOutputLoc.x + (t.length : Int)
            < (ConScrollingTextWindow.putChar ctx s c).win.mPos.w := by
          rw [hpos, hloc]; dsimp only []; omega
        obtain ⟨i1, i2, i3, i4, i5⟩ := ih _ ht hok2 hfit2
        rw [hloc] at i3 i4 i5
        dsimp only [] at i3 i4 i5
        exact ⟨i1, laterState_trans hl2 i2, i3, by omega, by omega⟩
      · have hp2 : isprint c = false := by simpa using hp
        rw [WCI_dropped ctx s c hc.2.2 hc.2.1 hp2]
        obtain ⟨i1, i2, i3, i4, i5⟩ := ih s ht hok (by omega)
        exact ⟨i1, i2, i3, i4, by omega⟩

theorem mem_takeWhile_append {p : Int → Bool} (x y : List Int) (c : Int)
    (h : c ∈ x.takeWhile p) : c ∈ (x ++ y).takeWhile p := by
  induction x with
  | nil => simp at h
  | cons a x ih =>
      rw [List.cons_append]
      by_cases ha : p a = true
      · rw [List.takeWhile_cons_of_pos ha] at h ⊢
        rcases List.mem_cons.mp h with h1 | h1
        · rw [h1]; exact List.mem_cons_self _ _
        · exact List.mem_cons_of_mem _ (ih h1)
      · rw [List.takeWhile_cons_of_neg ha] at h
        simp at h

theorem trailingSpaces_suffix (a b : List Int) (h : (9 : Int) ∉ trailingSpaces (a ++ b)) :
    (9 : Int) ∉ trailingSpaces b := by
  intro hc
  apply h
  unfold trailingSpaces at hc ⊢
  rw [List.reverse_append]
  exact mem_takeWhile_append _ _ 9 hc

theorem trailingSpaces_all (u : List Int) (hu : ∀ c ∈ u, isspace c = true)
    (h : (9 : Int) ∉ trailingSpaces u) : (9 : Int) ∉ u := by
  intro hc
  apply h
  unfold trailingSpaces
  have : u.reverse.takeWhile isspace = u.reverse := by
    rw [List.takeWhile_eq_self_iff]
    intro x hx
    exact hu x (List.mem_reverse.mp hx)
  rw [this]
  exact List.mem_reverse.mpr hc

theorem endsWithSpace_suffix (a b : List Int) (h : ∀ c ∈ (a ++ b).getLast?, isspace c = true) :
    ∀ c ∈ b.getLast?, isspace c = true := by
  intro c hc
  apply h c
  rw [List.getLast?_append]
  rw [Option.mem_def] at hc ⊢
  rw [hc]; rfl


/-- The iteration that reaches the word `word` behind the whitespace `u`
(no tab, no newline): either the word is written whole on the current row,
or the call returns the text at the word without writing anything. -/
theorem Line_word_here (ctx : OwnerCtx) (word : List Int)
    (hword : ∀ c ∈ word, isprint c = true ∧ isspace c = false) (hne : word ≠ [])
    (u : List Int) (s : Run ConScrollingTextWindow)
    (hu : ∀ c ∈ u, isspace c = true ∧ c ≠ 10 ∧ c ≠ 9) (hok : s.win.outputOk)
    (hlen : (word.length : Int) < s.win.mPos.w) :
    (∃ m l row col, m.win.outputOk ∧ m.win.mPos = s.win.mPos ∧
        cellWrites m.screen = cellWrites s.screen ++ l ++ rowWrites ctx s.win.mPos row col word ∧
        0 ≤ row ∧ row < s.win.mPos.h ∧ 0 ≤ col ∧ col + (word.length : Int) ≤ s.win.mPos.w ∧
        ∀ post, (∀ c ∈ post.head?, isspace c = true) →
          ConScrollingTextWindow.Write_WordWrap_Line ctx s (u ++ word ++ post) 0
            = ConScrollingTextWindow.Write_WordWrap_Line ctx m post 0) ∨
    ((s.win.mOutputLoc.x = 0 → 0 < u.length) ∧
        ∀ post, (∀ c ∈ post.head?, isspace c = true) →
          ConScrollingTextWindow.Write_WordWrap_Line ctx s (u ++ word ++ post) 0
            = some (s, some (word ++ post))) := by
  have hu2 : ∀ c ∈ u, isspace c = true ∧ c ≠ 10 := fun c hc => ⟨(hu c hc).1, (hu c hc).2.1⟩
  have hg : ∀ c ∈ word, isspace c = false := fun c hc => (hword c hc).2
  have hpr : ∀ c ∈ word, isprint c = true := fun c hc => (hword c hc).1
  have hne2 : u ++ word ≠ [] := fun hc => hne (List.append_eq_nil.mp hc).2
  have hwpos : 0 < word.length := List.length_pos.mpr hne
  have hchunk := fun post (hpost : ∀ c ∈ post.head?, isspace c = true) =>
    Line_chunk ctx s 0 u word post hu2 hg hpost hne2 (Or.inl hne)
  simp only [if_true] at hchunk
  by_cases h1 : s.win.mOutputLoc.x + (u.length : Int) > s.win.mPos.w
  · right
    refine ⟨?_, ?_⟩
    · intro hx; rw [hx] at h1; have := hok.1; omega
    · intro post hpost
      rw [hchunk post hpost, if_pos h1]
  · by_cases h2 : (word.length : Int) < s.win.mPos.w ∧
        s.win.mOutputLoc.x + ((word.length : Int) + (u.length : Int)) > s.win.mPos.w
    · right
      refine ⟨?_, ?_⟩
      · intro hx; rw [hx] at h2; omega
      · intro post hpost
        rw [hchunk post hpost, if_neg h1, if_pos h2]
    · left
      have hfit : s.win.mOutputLoc.x + ((word.length : Int) + (u.length : Int)) ≤ s.win.mPos.w := by
        by_contra hc
        exact h2 ⟨hlen, by omega⟩
      obtain ⟨hok1, hl1, hy1, hx1a, hx1b⟩ := Write_spaces ctx u s hu hok (by omega)
      have hpos1 := hl1.1
      obtain ⟨l, hl⟩ := laterState_cellWrites hl1
      have hfit2 : (ConScrollingTextWindow.Write ctx s u).win.mOutputLoc.x + (word.length : Int)
          ≤ (ConScrollingTextWindow.Write ctx s u).win.mPos.w := by
        rw [hpos1]; omega
      obtain ⟨r1, r2, r3, _⟩ := Write_row ctx word _ hpr hok1 hfit2
      obtain ⟨hok2, _⟩ := Write_ok ctx word _ hok1
      have hokc := hok
      unfold ConScrollingTextWindow.outputOk at hok hok1
      refine ⟨ConScrollingTextWindow.Write ctx s (u ++ word), l,
        s.win.mOutputLoc.y, (ConScrollingTextWindow.Write ctx s u).win.mOutputLoc.x,
        ?_, ?_, ?_, hok.2.2.2.2.1, hok.2.2.2.2.2, by omega, by omega, ?_⟩
      · rw [Write_append]; exact hok2
      · rw [Write_append, r1, hpos1]
      · rw [Write_append, r3, hl, hpos1, hy1]
      · intro post hpost
        rw [hchunk post hpost, if_neg h1, if_neg h2]


/-- One call of `Write_WordWrap_Line` on a text `P ++ word ++ post`, where the
word is preceded by whitespace without a tab (or by nothing) and followed by
whitespace (or by nothing): either the call writes the word whole on one row
and goes on with `post`, or it returns a text `P2 ++ word ++ post` with `P2`
of the same kind, shorter than `P` when the call started at column 0. What
happens does not depend on `post`. -/
theorem Line_word (ctx : OwnerCtx) (word : List Int)
    (hword : ∀ c ∈ word, isprint c = true ∧ isspace c = false) (hne : word ≠ []) (n : Nat) :
    ∀ (P : List Int) (s : Run ConScrollingTextWindow), P.length ≤ n → s.win.outputOk →
      (word.length : Int) < s.win.mPos.w → (∀ c ∈ P.getLast?, isspace c = true) →
      (9 : Int) ∉ trailingSpaces P →
      (∃ m l row col, m.win.outputOk ∧ m.win.mPos = s.win.mPos ∧
          cellWrites m.screen = cellWrites s.screen ++ l ++ rowWrites ctx s.win.mPos row col word ∧
          0 ≤ row ∧ row < s.win.mPos.h ∧ 0 ≤ col ∧ col + (word.length : Int) ≤ s.win.mPos.w ∧
          ∀ post, (∀ c ∈ post.head?, isspace c = true) →
            ConScrollingTextWindow.Write_WordWrap_Line ctx s (P ++ word ++ post) 0
              = ConScrollingTextWindow.Write_WordWrap_Line ctx m post 0) ∨
      (∃ s2 P2, s2.win.outputOk ∧ laterState s s2 ∧ (∀ c ∈ P2.getLast?, isspace c = true) ∧
          (9 : Int) ∉ trailingSpaces P2 ∧ P2.length ≤ P.length ∧
          (s.win.mOutputLoc.x = 0 → P2.length < P.length) ∧
          ∀ post, (∀ c ∈ post.head?, isspace c = true) →
            ConScrollingTextWindow.Write_WordWrap_Line ctx s (P ++ word ++ post) 0
              = some (s2, some (P2 ++ word ++ post))) := by
  induction n with
  | zero =>
      intro P s hn hok hlen _ _
      have hP : P = [] := List.length_eq_zero.mp (Nat.le_zero.mp hn)
      subst hP
      rcases Line_word_here ctx word hword hne [] s (by simp) hok hlen with h | h
      · exact Or.inl h
      · right
        refine ⟨s, [], hok, laterState_refl s, by simp, by simp [trailingSpaces], le_refl _,
          ?_, h.2⟩
        intro hx; exact absurd (h.1 hx) (by simp)
  | succ n ih =>
      intro P s hn hok hlen hends htab
      rcases text_shape P with hP | ⟨u, v, e, hu⟩ | ⟨u, g, rest, e, hu, hg, hrest, hne2, hmax⟩
      · subst hP
        rcases Line_word_here ctx word hword hne [] s (by simp) hok hlen with h | h
        · exact Or.inl h
        · right
          refine ⟨s, [], hok, laterState_refl s, by simp, by simp [trailingSpaces], le_refl _,
            ?_, h.2⟩
          intro hx; exact absurd (h.1 hx) (by simp)
      · right
        have e2 : P = (u ++ [10]) ++ v := by rw [e]; simp
        refine ⟨s, v, hok, laterState_refl s, ?_, ?_, ?_, ?_, ?_⟩
        · rw [e2] at hends; exact endsWithSpace_suffix _ _ hends
        · rw [e2] at htab; exact trailingSpaces_suffix _ _ htab
        · rw [e]; simp only [List.length_append, List.length_cons]; omega
        · intro _; rw [e]; simp only [List.length_append, List.length_cons]; omega
        · intro post _
          have e3 : P ++ word ++ post = u ++ 10 :: (v ++ word ++ post) := by
            rw [e]; simp
          rw [e3]
          exact Line_newline ctx s 0 u _ hu
      · by_cases hgn : g = []
        · have hr : rest = [] := by
            rcases hmax with h | h
            · exact absurd hgn h
            · exact h
          have eP : P = u := by rw [e, hgn, hr]; simp
          have hu9 : (9 : Int) ∉ u := by
            rw [eP] at htab
            exact trailingSpaces_all u (fun c hc => (hu c hc).1) htab
          have hu3 : ∀ c ∈ u, isspace c = true ∧ c ≠ 10 ∧ c ≠ 9 := by
            intro c hc
            exact ⟨(hu c hc).1, (hu c hc).2, fun h9 => hu9 (h9 ▸ hc)⟩
          rw [eP]
          rcases Line_word_here ctx word hword hne u s hu3 hok hlen with h | h
          · exact Or.inl h
          · right
            refine ⟨s, [], hok, laterState_refl s, by simp, by simp [trailingSpaces],
              Nat.zero_le _, ?_, h.2⟩
            intro hx; exact h.1 hx
        · have hrne : rest ≠ [] := by
            intro hr
            rw [hr, List.append_nil] at e
            have hlast : (u ++ g).getLast? = g.getLast? := by
              rw [List.getLast?_append]
              cases hgl : g.getLast? with
              | none => exact absurd (List.getLast?_eq_none_iff.mp hgl) hgn
              | some c => rfl
            cases hgl : g.getLast? with
            | none => exact hgn (List.getLast?_eq_none_iff.mp hgl)
            | some c =>
                have hc1 : isspace c = true := hends c (by rw [e, hlast, hgl]; rfl)
                have hc2 : isspace c = false := hg c (List.mem_of_getLast?_eq_some hgl)
                rw [hc1] at hc2; exact absurd hc2 (by simp)
          have hlP : P.length = u.length + g.length + rest.length := by
            rw [e]; simp only [List.length_append]
          have hgpos : 0 < g.length := List.length_pos.mpr hgn
          have hends2 : ∀ c ∈ rest.getLast?, isspace c = true := by
            rw [e] at hends; exact endsWithSpace_suffix _ _ hends
          have htab2 : (9 : Int) ∉ trailingSpaces rest := by
            rw [e] at htab; exact trailingSpaces_suffix _ _ htab
          have hends3 : ∀ c ∈ (g ++ rest).getLast?, isspace c = true := by
            rw [e, List.append_assoc] at hends; exact endsWithSpace_suffix _ _ hends
          have htab3 : (9 : Int) ∉ trailingSpaces (g ++ rest) := by
            rw [e, List.append_assoc] at htab; exact trailingSpaces_suffix _ _ htab
          have hhead : ∀ post : List Int, ∀ c ∈ (rest ++ word ++ post).head?,
              isspace c = true := by
            intro post c hc
            apply hrest c
            cases rest with
            | nil => exact absurd rfl hrne
            | cons a r => simpa using hc
          have hchunk := fun post : List Int =>
            Line_chunk ctx s 0 u g (rest ++ word ++ post) hu hg (hhead post) hne2 (Or.inl hgn)
          simp only [if_true] at hchunk
          have eT : ∀ post : List Int, P ++ word ++ post = u ++ g ++ (rest ++ word ++ post) := by
            intro post; rw [e]; simp only [List.append_assoc]
          have eR : ∀ post : List Int, g ++ (rest ++ word ++ post) = (g ++ rest) ++ word ++ post := by
            intro post; simp only [List.append_assoc]
          by_cases h1 : s.win.mOutputLoc.x + (u.length : Int) > s.win.mPos.w
          · right
            refine ⟨s, g ++ rest, hok, laterState_refl s, hends3, htab3, ?_, ?_, ?_⟩
            · rw [hlP, List.length_append]; omega
            · intro hx; rw [hx] at h1; have := hok.1
              rw [hlP, List.length_append]; omega
            · intro post _
              rw [eT post, hchunk post, if_pos h1, eR post]
          · by_cases h2 : (g.length : Int) < s.win.mPos.w ∧
                s.win.mOutputLoc.x + ((g.length : Int) + (u.length : Int)) > s.win.mPos.w
            · right
              refine ⟨s, g ++ rest, hok, laterState_refl s, hends3, htab3, ?_, ?_, ?_⟩
              · rw [hlP, List.length_append]; omega
              · intro hx; rw [hx] at h2
                rw [hlP, List.length_append]; omega
              · intro post _
                rw [eT post, hchunk post, if_neg h1, if_pos h2, eR post]
            · obtain ⟨hok3, hl3⟩ := Write_ok ctx (u ++ g) s hok
              have hpos3 := hl3.1
              have hstep : ∀ post : List Int,
                  ConScrollingTextWindow.Write_WordWrap_Line ctx s (P ++ word ++ post) 0
                    = ConScrollingTextWindow.Write_WordWrap_Line ctx
                        (ConScrollingTextWindow.Write ctx s (u ++ g))
                        (rest ++ word ++ post) 0 := by
                intro post
                rw [eT post, hchunk post, if_neg h1, if_neg h2]
              rcases ih rest _ (by omega) hok3 (by rw [hpos3]; exact hlen) hends2 htab2 with
                ⟨m, l, row, col, a1, a2, a3, a4, a5, a6, a7, a8⟩ |
                ⟨s2, P2, b1, b2, b3, b4, b5, b6, b7⟩
              · left
                obtain ⟨l0, hl0⟩ := laterState_cellWrites hl3
                refine ⟨m, l0 ++ l, row, col, a1, a2.trans hpos3, ?_, a4, ?_, a6, ?_, ?_⟩
                · rw [a3, hl0, hpos3]; simp only [List.append_assoc]
                · rw [← hpos3]; exact a5
                · rw [← hpos3]; exact a7
                · intro post hpost
                  rw [hstep post, a8 post hpost]
              · right
                refine ⟨s2, P2, b1, laterState_trans hl3 b2, b3, b4, by omega,
                  fun _ => by omega, ?_⟩
                intro post hpost
                rw [hstep post, b7 post hpost]


/-- The call `Write_WordWrap` from column 0 on `P ++ word ++ post`: after at most
`P.length` newlines the word has been written whole on one row, and the call
goes on with `post`. The state `m` then and the number `K` of newlines do not
depend on `post`. -/
theorem wrapFrom_word_col0 (ctx : OwnerCtx) (word : List Int)
    (hword : ∀ c ∈ word, isprint c = true ∧ isspace c = false) (hne : word ≠ []) (k : Nat) :
    ∀ (P : List Int) (s : Run ConScrollingTextWindow), P.length ≤ k → s.win.outputOk →
      s.win.mOutputLoc.x = 0 →
      (word.length : Int) < s.win.mPos.w → (∀ c ∈ P.getLast?, isspace c = true) →
      (9 : Int) ∉ trailingSpaces P →
      ∃ (m : Run ConScrollingTextWindow) (l : List SurfaceOp) (row col : Int) (K : Nat),
        K ≤ P.length ∧ m.win.outputOk ∧ m.win.mPos = s.win.mPos ∧
          cellWrites m.screen = cellWrites s.screen ++ l ++ rowWrites ctx s.win.mPos row col word ∧
          0 ≤ row ∧ row < s.win.mPos.h ∧ 0 ≤ col ∧ col + (word.length : Int) ≤ s.win.mPos.w ∧
          ∀ post, (∀ c ∈ post.head?, isspace c = true) → ∀ (n : Int) (fuel : Nat),
            ConScrollingTextWindow.wrapFrom ctx s (P ++ word ++ post) 0 n (K + fuel)
              = ConScrollingTextWindow.wrapFrom ctx m post 0 (n + (K : Int)) fuel := by
  induction k with
  | zero =>
      intro P s hk hok hx hlen hends htab
      rcases Line_word ctx word hword hne P.length P s (le_refl _) hok hlen hends htab with
        ⟨m, l, row, col, a1, a2, a3, a4, a5, a6, a7, a8⟩ | ⟨s2, P2, _, _, _, _, _, b6, _⟩
      · refine ⟨m, l, row, col, 0, Nat.zero_le _, a1, a2, a3, a4, a5, a6, a7, ?_⟩
        intro post hpost n fuel
        unfold ConScrollingTextWindow.wrapFrom
        rw [a8 post hpost]
        simp
      · have := b6 hx; omega
  | succ k ih =>
      intro P s hk hok hx hlen hends htab
      rcases Line_word ctx word hword hne P.length P s (le_refl _) hok hlen hends htab with
        ⟨m, l, row, col, a1, a2, a3, a4, a5, a6, a7, a8⟩ | ⟨s2, P2, b1, b2, b3, b4, _, b6, b7⟩
      · refine ⟨m, l, row, col, 0, Nat.zero_le _, a1, a2, a3, a4, a5, a6, a7, ?_⟩
        intro post hpost n fuel
        unfold ConScrollingTextWindow.wrapFrom
        rw [a8 post hpost]
        simp
      · have hlt := b6 hx
        obtain ⟨hok3, hl3, hx3⟩ := newline_ok ctx s2 b1
        have hl13 := laterState_trans b2 hl3
        have hpos3 := hl13.1
        obtain ⟨m, l, row, col, K, c0, c1, c2, c3, c4, c5, c6, c7, c8⟩ :=
          ih P2 _ (by omega) hok3 hx3 (by rw [hpos3]; exact hlen) b3 b4
        obtain ⟨l0, hl0⟩ := laterState_cellWrites hl13
        refine ⟨m, l0 ++ l, row, col, K + 1, by omega, c1, c2.trans hpos3, ?_, c4, ?_, c6, ?_, ?_⟩
        · rw [c3, hl0, hpos3]; simp only [List.append_assoc]
        · rw [← hpos3]; exact c5
        · rw [← hpos3]; exact c7
        · intro post hpost n fuel
          have hf : K + 1 + fuel = (K + fuel) + 1 := by omega
          rw [wrapFrom_of_line ctx s s2 _ _ 0 n _ (b7 post hpost), hf, wrapLoop_some,
            c8 post hpost (n + 1) fuel]
          have hn : n + 1 + (K : Int) = n + ((K + 1 : Nat) : Int) := by push_cast; ring
          rw [hn]

/-- The same from any output position inside the window: at most
`P.length + 1` newlines. -/
theorem wrapFrom_word (ctx : OwnerCtx) (word : List Int)
    (hword : ∀ c ∈ word, isprint c = true ∧ isspace c = false) (hne : word ≠ [])
    (P : List Int) (s : Run ConScrollingTextWindow) (hok : s.win.outputOk)
    (hlen : (word.length : Int) < s.win.mPos.w) (hends : ∀ c ∈ P.getLast?, isspace c = true)
    (htab : (9 : Int) ∉ trailingSpaces P) :
    ∃ (m : Run ConScrollingTextWindow) (l : List SurfaceOp) (row col : Int) (K : Nat),
      K ≤ P.length + 1 ∧ m.win.outputOk ∧ m.win.mPos = s.win.mPos ∧
        cellWrites m.screen = cellWrites s.screen ++ l ++ rowWrites ctx s.win.mPos row col word ∧
        0 ≤ row ∧ row < s.win.mPos.h ∧ 0 ≤ col ∧ col + (word.length : Int) ≤ s.win.mPos.w ∧
        ∀ post, (∀ c ∈ post.head?, isspace c = true) → ∀ (n : Int) (fuel : Nat),
          ConScrollingTextWindow.wrapFrom ctx s (P ++ word ++ post) 0 n (K + fuel)
            = ConScrollingTextWindow.wrapFrom ctx m post 0 (n + (K : Int)) fuel := by
  rcases Line_word ctx word hword hne P.length P s (le_refl _) hok hlen hends htab with
    ⟨m, l, row, col, a1, a2, a3, a4, a5, a6, a7, a8⟩ | ⟨s2, P2, b1, b2, b3, b4, b5, _, b7⟩
  · refine ⟨m, l, row, col, 0, Nat.zero_le _, a1, a2, a3, a4, a5, a6, a7, ?_⟩
    intro post hpost n fuel
    unfold ConScrollingTextWindow.wrapFrom
    rw [a8 post hpost]
    simp
  · obtain ⟨hok3, hl3, hx3⟩ := newline_ok ctx s2 b1
    have hl13 := laterState_trans b2 hl3
    have hpos3 := hl13.1
    obtain ⟨m, l, row, col, K, c0, c1, c2, c3, c4, c5, c6, c7, c8⟩ :=
      wrapFrom_word_col0 ctx word hword hne P2.length P2 _ (le_refl _) hok3 hx3
        (by rw [hpos3]; exact hlen) b3 b4
    obtain ⟨l0, hl0⟩ := laterState_cellWrites hl13
    refine ⟨m, l0 ++ l, row, col, K + 1, by omega, c1, c2.trans hpos3, ?_, c4, ?_, c6, ?_, ?_⟩
    · rw [c3, hl0, hpos3]; simp only [List.append_assoc]
    · rw [← hpos3]; exact c5
    · rw [← hpos3]; exact c7
    · intro post hpost n fuel
      have hf : K + 1 + fuel = (K + fuel) + 1 := by omega
      rw [wrapFrom_of_line ctx s s2 _ _ 0 n _ (b7 post hpost), hf, wrapLoop_some,
        c8 post hpost (n + 1) fuel]
      have hn : n + 1 + (K : Int) = n + ((K + 1 : Nat) : Int) := by push_cast; ring
      rw [hn]


/-! ## Claim C6: words shorter than the line -/

/-- C6 as stated fails: on a fresh 5 x 2 window `Write_WordWrap` of the text
`abcd`, the control character 1, `ef` writes the run `ef` of printable
non-whitespace characters (length 2, less than the width 5) on two rows: `e`
in the last column of row 0 and `f` in column 0 of row 1. The token the code
scans is the whole whitespace-delimited text, 7 characters long, and a token
at least as long as the line is written without a wrap before it. -/
theorem C6_counterexample :
    (ConScrollingTextWindow.Write_WordWrap demoCtx (freshText 0 ⟨0, 0, 5, 2⟩)
        [97, 98, 99, 100, 1, 101, 102] 0 8).map
      (fun r => (cellWrites r.1.screen, r.1.win.toConWindowBase.GetChar 0 4,
        r.1.win.toConWindowBase.GetChar 1 0, r.2))
      = some (rowWrites demoCtx ⟨0, 0, 5, 2⟩ 0 0 [97, 98, 99, 100, 101] ++
              rowWrites demoCtx ⟨0, 0, 5, 2⟩ 1 0 [102], 101, 102, 0) := by
  decide

/-- A tab in front of a word is counted as one column by `Write_WordWrap_Line`
and expanded to up to four by `WriteCharInternal`: on a fresh 10 x 2 window
the word `abc` of the text `12345`, tab, `abc` is written with `ab` at the end
of row 0 and `c` at the start of row 1. -/
theorem tab_before_word_splits_it :
    (ConScrollingTextWindow.Write_WordWrap demoCtx (freshText 0 ⟨0, 0, 10, 2⟩)
        (cstr "12345\tabc") 0 8).map
      (fun r => (cellWrites r.1.screen, r.2))
      = some (rowWrites demoCtx ⟨0, 0, 10, 2⟩ 0 0 (cstr "12345   ab") ++
              rowWrites demoCtx ⟨0, 0, 10, 2⟩ 1 0 (cstr "c"), 0) := by
  decide

/-- C6, amended: with the default line length, from an output position inside
the window (`w > 0`, `h > 0`). Let `word` be a non-empty run of printable
non-whitespace characters, shorter than the window width, that is preceded in
the text by whitespace (or by nothing) and followed by whitespace (or by
nothing), and let the whitespace run before it contain no tab. Then
`Write_WordWrap` on the text up to the end of the word returns a state `m`
(after `K` newlines, for every fuel of at least `K`) whose last cell writes are
the characters of the word on one row `row`, in the consecutive columns
`col, col + 1, ...` inside the window; and `Write_WordWrap` on the whole text
returns, with a surface log whose cell writes extend those of `m`. -/
theorem C6_word_written_whole (ctx : OwnerCtx) (s : Run ConScrollingTextWindow)
    (pre word post : List Int) (hok : s.win.outputOk)
    (hword : ∀ c ∈ word, isprint c = true ∧ isspace c = false) (hne : word ≠ [])
    (hlen : (word.length : Int) < s.win.mPos.w)
    (hpre : ∀ c ∈ pre.getLast?, isspace c = true) (htab : (9 : Int) ∉ trailingSpaces pre)
    (hpost : ∀ c ∈ post.head?, isspace c = true) :
    ∃ (m : Run ConScrollingTextWindow) (K : Nat) (l1 : List SurfaceOp) (row col : Int),
      K ≤ pre.length + 1 ∧
        (∀ fuel, K ≤ fuel →
          ConScrollingTextWindow.Write_WordWrap ctx s (pre ++ word) 0 fuel = some (m, (K : Int))) ∧
        cellWrites m.screen = cellWrites s.screen ++ l1 ++ rowWrites ctx s.win.mPos row col word ∧
        0 ≤ row ∧ row < s.win.mPos.h ∧ 0 ≤ col ∧ col + (word.length : Int) ≤ s.win.mPos.w ∧
        (∀ fuel, (pre ++ word ++ post).length + 1 ≤ fuel →
          ∃ r cnt l2,
            ConScrollingTextWindow.Write_WordWrap ctx s (pre ++ word ++ post) 0 fuel
              = some (r, cnt) ∧
            cellWrites r.screen = cellWrites m.screen ++ l2) := by
  obtain ⟨m, l, row, col, K, hK, hokm, _, hcw, h1, h2, h3, h4, hrun⟩ :=
    wrapFrom_word ctx word hword hne pre s hok hlen hpre htab
  refine ⟨m, K, l, row, col, hK, ?_, hcw, h1, h2, h3, h4, ?_⟩
  · intro fuel hfuel
    obtain ⟨f, hf⟩ : ∃ f, fuel = K + f := ⟨fuel - K, by omega⟩
    have h := hrun [] (by simp) 0 f
    rw [List.append_nil] at h
    rw [Write_WordWrap_eq, hf, h, wrapFrom_of_line ctx m m [] none 0 _ f (Line_nil ctx m 0),
      wrapLoop_none, zero_add]
  · intro fuel hfuel
    have hwpos : 0 < word.length := List.length_pos.mpr hne
    have hl : (pre ++ word ++ post).length = pre.length + word.length + post.length := by
      simp only [List.length_append]
    obtain ⟨f, hf⟩ : ∃ f, fuel = K + f := ⟨fuel - K, by omega⟩
    obtain ⟨r, cnt, hr, _, hlr⟩ := wrapFrom_total ctx post m (0 + (K : Int)) f hokm (by omega)
    obtain ⟨l2, hl2⟩ := laterState_cellWrites hlr
    refine ⟨r, cnt, l2, ?_, hl2⟩
    rw [Write_WordWrap_eq, hf, hrun post hpost 0 f, hr]

/-- C6 (amended) at the word `world` of the text `hello world foo`, on a fresh
10 x 2 window. -/
theorem C6_word_written_whole_witness :
    (freshText 0 ⟨0, 0, 10, 2⟩).win.outputOk ∧
      (∀ c ∈ cstr "world", isprint c = true ∧ isspace c = false) ∧ cstr "world" ≠ [] ∧
      (((cstr "world").length : Int) < (freshText 0 ⟨0, 0, 10, 2⟩).win.mPos.w) ∧
      (∀ c ∈ (cstr "hello ").getLast?, isspace c = true) ∧
      (9 : Int) ∉ trailingSpaces (cstr "hello ") ∧
      (∀ c ∈ (cstr " foo").head?, isspace c = true) ∧
      ∃ (m : Run ConScrollingTextWindow) (K : Nat) (l1 : List SurfaceOp) (row col : Int),
        K ≤ (cstr "hello ").length + 1 ∧
          (∀ fuel, K ≤ fuel →
            ConScrollingTextWindow.Write_WordWrap demoCtx (freshText 0 ⟨0, 0, 10, 2⟩)
              (cstr "hello " ++ cstr "world") 0 fuel = some (m, (K : Int))) ∧
          cellWrites m.screen = cellWrites (freshText 0 ⟨0, 0, 10, 2⟩).screen ++ l1 ++
            rowWrites demoCtx (freshText 0 ⟨0, 0, 10, 2⟩).win.mPos row col (cstr "world") ∧
          0 ≤ row ∧ row < (freshText 0 ⟨0, 0, 10, 2⟩).win.mPos.h ∧ 0 ≤ col ∧
          col + ((cstr "world").length : Int) ≤ (freshText 0 ⟨0, 0, 10, 2⟩).win.mPos.w ∧
          (∀ fuel, (cstr "hello " ++ cstr "world" ++ cstr " foo").length + 1 ≤ fuel →
            ∃ r cnt l2,
              ConScrollingTextWindow.Write_WordWrap demoCtx (freshText 0 ⟨0, 0, 10, 2⟩)
                (cstr "hello " ++ cstr "world" ++ cstr " foo") 0 fuel = some (r, cnt) ∧
              cellWrites r.screen = cellWrites m.screen ++ l2) :=
  ⟨by decide, by decide, by decide, by decide, by decide, by decide, by decide,
    C6_word_written_whole demoCtx (freshText 0 ⟨0, 0, 10, 2⟩) (cstr "hello ") (cstr "world")
      (cstr " foo") (by decide) (by decide) (by decide) (by decide) (by decide) (by decide)
      (by decide)⟩


/-! ## Concrete layouts on a fresh window -/

theorem freshText_facts (owner : Nat) (px py w h : Int) (hw : 0 < w) (hh : 0 < h) :
    (freshText owner ⟨px, py, w, h⟩).win.outputOk ∧
      (freshText owner ⟨px, py, w, h⟩).win.toConWindowBase.sizeOk ∧
      (freshText owner ⟨px, py, w, h⟩).win.mPos = ⟨px, py, w, h⟩ ∧
      (freshText owner ⟨px, py, w, h⟩).win.mOutputLoc = ⟨0, 0⟩ ∧
      ∀ r k, 0 ≤ r → r < h → 0 ≤ k → k < w →
        (freshText owner ⟨px, py, w, h⟩).win.toConWindowBase.GetChar r k = blank := by
  refine ⟨⟨hw, hh, le_refl _, le_of_lt hw, le_refl _, hh⟩, ?_, rfl, rfl, ?_⟩
  · simp [ConWindowBase.sizeOk, freshText, ConScrollingTextWindow.init, ConWindowBase.init]
  · intro r k h0 h1 h2 h3
    have hlt := cell_index_lt h0 h1 h2 h3
    have hr : ¬ (r < 0 ∨ r ≥ h ∨ k < 0 ∨ k ≥ w) := by omega
    simp only [ConWindowBase.GetChar, freshText, ConScrollingTextWindow.init, ConWindowBase.init,
      if_neg hr]
    rw [List.getD_eq_getElem?_getD, List.getElem?_replicate, if_pos hlt]
    rfl

/-- A chunk that passes neither wrap test is written, and the call goes on. -/
theorem Line_chunk_print (ctx : OwnerCtx) (s : Run ConScrollingTextWindow)
    (u g rest : List Int)
    (hu : ∀ c ∈ u, isspace c = true ∧ c ≠ 10) (hg : ∀ c ∈ g, isspace c = false)
    (hrest : ∀ c ∈ rest.head?, isspace c = true) (hne : u ++ g ≠ [])
    (hmax : g ≠ [] ∨ rest = [])
    (h1 : s.win.mOutputLoc.x + (u.length : Int) ≤ s.win.mPos.w)
    (h2 : s.win.mPos.w ≤ (g.length : Int) ∨
      s.win.mOutputLoc.x + ((g.length : Int) + (u.length : Int)) ≤ s.win.mPos.w) :
    ConScrollingTextWindow.Write_WordWrap_Line ctx s (u ++ g ++ rest) 0 =
      ConScrollingTextWindow.Write_WordWrap_Line ctx
        (ConScrollingTextWindow.Write ctx s (u ++ g)) rest 0 := by
  rw [Line_chunk ctx s 0 u g rest hu hg hrest hne hmax]
  simp only [if_true]
  rw [if_neg (by omega), if_neg (by omega)]

/-- A chunk that fails a wrap test is not written: the call returns the text
at the word. -/
theorem Line_chunk_return (ctx : OwnerCtx) (s : Run ConScrollingTextWindow)
    (u g rest : List Int)
    (hu : ∀ c ∈ u, isspace c = true ∧ c ≠ 10) (hg : ∀ c ∈ g, isspace c = false)
    (hrest : ∀ c ∈ rest.head?, isspace c = true) (hne : u ++ g ≠ [])
    (hmax : g ≠ [] ∨ rest = [])
    (h : (g.length : Int) < s.win.mPos.w ∧
      s.win.mOutputLoc.x + ((g.length : Int) + (u.length : Int)) > s.win.mPos.w) :
    ConScrollingTextWindow.Write_WordWrap_Line ctx s (u ++ g ++ rest) 0 =
      some (s, some (g ++ rest)) := by
  rw [Line_chunk ctx s 0 u g rest hu hg hrest hne hmax]
  simp only [if_true]
  by_cases h1 : s.win.mOutputLoc.x + (u.length : Int) > s.win.mPos.w
  · rw [if_pos h1]
  · rw [if_neg h1, if_pos h]

/-- A printable character written when the column is parked one past the last
column goes to column 0 of the next row: the text is written as it is after a
line feed. -/
theorem Write_parked (ctx : OwnerCtx) (s : Run ConScrollingTextWindow) (c : Int) (t : List Int)
    (hc : isprint c = true) (hw : 0 < s.win.mPos.w) (hx : s.win.mOutputLoc.x = s.win.mPos.w) :
    ConScrollingTextWindow.Write ctx s (c :: t)
      = ConScrollingTextWindow.Write ctx (ConScrollingTextWindow.lineFeed ctx s) (c :: t) := by
  obtain ⟨hp, _, hloc, _⟩ := lineFeed_spec ctx s
  have hx2 : ¬ ((ConScrollingTextWindow.lineFeed ctx s).win.mOutputLoc.x
      = (ConScrollingTextWindow.lineFeed ctx s).win.mPos.w) := by
    rw [hp, hloc]; dsimp only []; omega
  rw [Write_cons, Write_cons, WCI_printable ctx s c hc, if_pos hx,
    WCI_printable ctx _ c hc, if_neg hx2]

/-- The line feed from a row that is not the last one. -/
theorem lineFeed_next (ctx : OwnerCtx) (s : Run ConScrollingTextWindow)
    (hok : s.win.outputOk) (hsz : s.win.toConWindowBase.sizeOk)
    (hy : s.win.mOutputLoc.y + 1 < s.win.mPos.h) :
    (ConScrollingTextWindow.lineFeed ctx s).win.outputOk ∧
      (ConScrollingTextWindow.lineFeed ctx s).win.toConWindowBase.sizeOk ∧
      (ConScrollingTextWindow.lineFeed ctx s).win.mPos = s.win.mPos ∧
      (ConScrollingTextWindow.lineFeed ctx s).win.mOutputLoc = ⟨0, s.win.mOutputLoc.y + 1⟩ ∧
      ∀ r k, (ConScrollingTextWindow.lineFeed ctx s).win.toConWindowBase.GetChar r k
        = s.win.toConWindowBase.GetChar r k := by
  obtain ⟨hp, _, hloc, _⟩ := lineFeed_spec ctx s
  obtain ⟨hsz2, hb⟩ := lineFeed_buffer ctx s hsz
  refine ⟨(lineFeed_ok ctx s hok).1, hsz2, hp, ?_, hb⟩
  rw [hloc, if_neg (by omega)]


/-- The lemma `Write_row` for a state whose output position is known. -/
theorem Write_row_at (ctx : OwnerCtx) (u : List Int) (s : Run ConScrollingTextWindow)
    (x0 y0 n x1 : Int) (hu : ∀ c ∈ u, isprint c = true) (hok : s.win.outputOk)
    (hsz : s.win.toConWindowBase.sizeOk) (hloc : s.win.mOutputLoc = ⟨x0, y0⟩)
    (hn : (u.length : Int) = n) (hx1 : x0 + n = x1) (hfit : x1 ≤ s.win.mPos.w) :
    (ConScrollingTextWindow.Write ctx s u).win.outputOk ∧
      (ConScrollingTextWindow.Write ctx s u).win.toConWindowBase.sizeOk ∧
      (ConScrollingTextWindow.Write ctx s u).win.mPos = s.win.mPos ∧
      (ConScrollingTextWindow.Write ctx s u).win.mOutputLoc = ⟨x1, y0⟩ ∧
      cellWrites (ConScrollingTextWindow.Write ctx s u).screen
        = cellWrites s.screen ++ rowWrites ctx s.win.mPos y0 x0 u ∧
      (∀ k, x0 ≤ k → k < x1 →
        (ConScrollingTextWindow.Write ctx s u).win.toConWindowBase.GetChar y0 k
          = toWchar (u.getD (k - x0).toNat 0)) ∧
      (∀ r k, (r ≠ y0 ∨ k < x0 ∨ x1 ≤ k) →
        (ConScrollingTextWindow.Write ctx s u).win.toConWindowBase.GetChar r k
          = s.win.toConWindowBase.GetChar r k) := by
  have hX : s.win.mOutputLoc.x = x0 := by rw [hloc]
  have hY : s.win.mOutputLoc.y = y0 := by rw [hloc]
  obtain ⟨p1, l1, c1, b1⟩ := Write_row ctx u s hu hok (by rw [hX, hn, hx1]; exact hfit)
  obtain ⟨hok1, _⟩ := Write_ok ctx u s hok
  obtain ⟨hsz1, hbuf1⟩ := b1 hsz
  rw [hX, hY, hn, hx1] at l1 hbuf1
  rw [hX, hY] at c1
  refine ⟨hok1, hsz1, p1, l1, c1, ?_, ?_⟩
  · intro k hk0 hk1
    rw [hbuf1 y0 k, if_pos ⟨rfl, hk0, hk1⟩]
  · intro r k hrk
    rw [hbuf1 r k, if_neg (by omega)]

/-- The lemma `lineFeed_next` for a state whose output position is known. -/
theorem lineFeed_next_at (ctx : OwnerCtx) (s : Run ConScrollingTextWindow) (x0 y0 y1 : Int)
    (hok : s.win.outputOk) (hsz : s.win.toConWindowBase.sizeOk)
    (hloc : s.win.mOutputLoc = ⟨x0, y0⟩) (hy1 : y0 + 1 = y1) (hy : y1 < s.win.mPos.h) :
    (ConScrollingTextWindow.lineFeed ctx s).win.outputOk ∧
      (ConScrollingTextWindow.lineFeed ctx s).win.toConWindowBase.sizeOk ∧
      (ConScrollingTextWindow.lineFeed ctx s).win.mPos = s.win.mPos ∧
      (ConScrollingTextWindow.lineFeed ctx s).win.mOutputLoc = ⟨0, y1⟩ ∧
      cellWrites (ConScrollingTextWindow.lineFeed ctx s).screen = cellWrites s.screen ∧
      ∀ r k, (ConScrollingTextWindow.lineFeed ctx s).win.toConWindowBase.GetChar r k
        = s.win.toConWindowBase.GetChar r k := by
  have hY : s.win.mOutputLoc.y = y0 := by rw [hloc]
  obtain ⟨a1, a2, a3, a4, a5⟩ := lineFeed_next ctx s hok hsz (by rw [hY, hy1]; exact hy)
  rw [hY, hy1] at a4
  obtain ⟨_, _, _, ops, hops, hcw⟩ := lineFeed_spec ctx s
  refine ⟨a1, a2, a3, a4, ?_, a5⟩
  rw [hops, cellWrites_append, hcw, List.append_nil]

/-! ## Claim C4: an explicit newline -/

/-- C4: on a fresh window of width `w >= 2` and height `h >= 2`, with the
default line length, `Write_WordWrap("ab\ncd")` returns 1 (the explicit
newline is the only line break counted) and leaves the window exactly as the
plain `Write("ab\ncd")` does: `ab` in columns 0-1 of row 0, `cd` in columns 0-1
of row 1, every other cell blank, the output position after `cd`. -/
theorem C4_explicit_newline (ctx : OwnerCtx) (owner : Nat) (px py w h : Int)
    (hw : 2 ≤ w) (hh : 2 ≤ h) :
    (∀ fuel, 1 ≤ fuel →
      ConScrollingTextWindow.Write_WordWrap ctx (freshText owner ⟨px, py, w, h⟩)
          (cstr "ab\ncd") 0 fuel
        = some (ConScrollingTextWindow.Write ctx (freshText owner ⟨px, py, w, h⟩)
            (cstr "ab\ncd"), 1)) ∧
      (ConScrollingTextWindow.Write ctx (freshText owner ⟨px, py, w, h⟩)
          (cstr "ab\ncd")).win.mOutputLoc = ⟨2, 1⟩ ∧
      ∀ row col, 0 ≤ row → row < h → 0 ≤ col → col < w →
        (ConScrollingTextWindow.Write ctx (freshText owner ⟨px, py, w, h⟩)
            (cstr "ab\ncd")).win.toConWindowBase.GetChar row col
          = if row = 0 ∧ col = 0 then 97 else if row = 0 ∧ col = 1 then 98
            else if row = 1 ∧ col = 0 then 99 else if row = 1 ∧ col = 1 then 100
            else blank := by
  obtain ⟨hok0, hsz0, hpos0, hloc0, hbuf0⟩ :=
    freshText_facts owner px py w h (by omega) (by omega)
  generalize freshText owner ⟨px, py, w, h⟩ = s0 at hok0 hsz0 hpos0 hloc0 hbuf0 ⊢
  have hW0 : s0.win.mPos.w = w := by rw [hpos0]
  have hH0 : s0.win.mPos.h = h := by rw [hpos0]
  have etext : cstr "ab\ncd" = cstr "ab" ++ 10 :: cstr "cd" := by decide
  -- the first row
  obtain ⟨hok1, hsz1, p1, l1, _, in1, out1⟩ := Write_row_at ctx (cstr "ab") s0 0 0 2 2
    (by decide) hok0 hsz0 hloc0 (by decide) (by decide) (by rw [hW0]; exact hw)
  generalize hs1 : ConScrollingTextWindow.Write ctx s0 (cstr "ab") = s1
    at p1 l1 hok1 hsz1 in1 out1
  -- the newline
  obtain ⟨hok2, hsz2, p2, l2, _, hbuf2⟩ := lineFeed_next_at ctx s1 2 0 1 hok1 hsz1 l1
    (by decide) (by rw [p1, hH0]; omega)
  generalize hs2 : ConScrollingTextWindow.lineFeed ctx s1 = s2 at hok2 hsz2 p2 l2 hbuf2
  have hW2 : s2.win.mPos.w = w := by rw [p2, p1, hW0]
  -- the second row
  obtain ⟨_, _, _, l3, _, in3, out3⟩ := Write_row_at ctx (cstr "cd") s2 0 1 2 2
    (by decide) hok2 hsz2 l2 (by decide) (by decide) (by rw [hW2]; exact hw)
  have hfinal : ConScrollingTextWindow.Write ctx s0 (cstr "ab\ncd")
      = ConScrollingTextWindow.Write ctx s2 (cstr "cd") := by
    rw [etext, Write_append, Write_cons, hs1, WCI_newline, hs2]
  refine ⟨?_, ?_, ?_⟩
  · intro fuel hfuel
    obtain ⟨f, hf⟩ : ∃ f, fuel = f + 1 := ⟨fuel - 1, by omega⟩
    have e1 : cstr "ab\ncd" = [] ++ cstr "ab" ++ (10 :: cstr "cd") := by decide
    have hline1 : ConScrollingTextWindow.Write_WordWrap_Line ctx s0 (cstr "ab\ncd") 0
        = some (s1, some (cstr "cd")) := by
      rw [e1, Line_chunk_print ctx s0 [] (cstr "ab") (10 :: cstr "cd") (by simp) (by decide)
          (by decide) (by decide) (Or.inl (by decide))
          (by rw [hloc0, hW0]; show (0 : Int) + 0 ≤ w; omega)
          (Or.inr (by rw [hloc0, hW0]; show (0 : Int) + (2 + 0) ≤ w; omega)),
        List.nil_append, hs1]
      exact Line_newline ctx s1 0 [] (cstr "cd") (by simp)
    have e2 : cstr "cd" = [] ++ cstr "cd" ++ [] := by decide
    have hline2 : ConScrollingTextWindow.Write_WordWrap_Line ctx s2 (cstr "cd") 0
        = some (ConScrollingTextWindow.Write ctx s2 (cstr "cd"), none) := by
      rw [e2, Line_chunk_print ctx s2 [] (cstr "cd") [] (by simp) (by decide)
          (by simp) (by decide) (Or.inl (by decide))
          (by rw [l2, hW2]; show (0 : Int) + 0 ≤ w; omega)
          (Or.inr (by rw [l2, hW2]; show (0 : Int) + (2 + 0) ≤ w; omega)),
        List.nil_append, Line_nil]
      rfl
    rw [Write_WordWrap_eq, wrapFrom_of_line ctx s0 s1 _ _ 0 0 fuel hline1, hf, wrapLoop_some,
      WCI_newline, hs2, wrapFrom_of_line ctx s2 _ _ _ 0 (0 + 1) f hline2, wrapLoop_none,
      hfinal]
    rfl
  · rw [hfinal, l3]
  · intro row col hr0 hr1 hc0 hc1
    rw [hfinal]
    by_cases hrow1 : row = 1
    · subst hrow1
      by_cases hcol : col < 2
      · rw [in3 col hc0 hcol]
        have hk : col = 0 ∨ col = 1 := by omega
        rcases hk with hk | hk <;> subst hk <;> decide
      · rw [out3 1 col (by omega), hbuf2, out1 1 col (by omega), hbuf0 1 col hr0 hr1 hc0 hc1]
        split_ifs <;> first | rfl | omega
    · rw [out3 row col (Or.inl hrow1), hbuf2]
      by_cases hrow0 : row = 0
      · subst hrow0
        by_cases hcol : col < 2
        · rw [in1 col hc0 hcol]
          have hk : col = 0 ∨ col = 1 := by omega
          rcases hk with hk | hk <;> subst hk <;> decide
        · rw [out1 0 col (by omega), hbuf0 0 col hr0 hr1 hc0 hc1]
          split_ifs <;> first | rfl | omega
      · rw [out1 row col (Or.inl hrow0), hbuf0 row col hr0 hr1 hc0 hc1]
        split_ifs <;> first | rfl | omega

/-- C4 on a 2 x 2 window at the origin. -/
theorem C4_explicit_newline_witness :
    (2 : Int) ≤ 2 ∧ (2 : Int) ≤ 2 ∧
      ((∀ fuel, 1 ≤ fuel →
        ConScrollingTextWindow.Write_WordWrap demoCtx (freshText 0 ⟨0, 0, 2, 2⟩)
            (cstr "ab\ncd") 0 fuel
          = some (ConScrollingTextWindow.Write demoCtx (freshText 0 ⟨0, 0, 2, 2⟩)
              (cstr "ab\ncd"), 1)) ∧
        (ConScrollingTextWindow.Write demoCtx (freshText 0 ⟨0, 0, 2, 2⟩)
            (cstr "ab\ncd")).win.mOutputLoc = ⟨2, 1⟩ ∧
        ∀ row col, 0 ≤ row → row < 2 → 0 ≤ col → col < 2 →
          (ConScrollingTextWindow.Write demoCtx (freshText 0 ⟨0, 0, 2, 2⟩)
              (cstr "ab\ncd")).win.toConWindowBase.GetChar row col
            = if row = 0 ∧ col = 0 then 97 else if row = 0 ∧ col = 1 then 98
              else if row = 1 ∧ col = 0 then 99 else if row = 1 ∧ col = 1 then 100
              else blank) :=
  ⟨by decide, by decide, C4_explicit_newline demoCtx 0 0 0 2 2 (by decide) (by decide)⟩


/-! ## Claim C3: a word that would overflow moves to the next row -/

theorem toWchar_printable (c : Int) (h : isprint c = true) : toWchar c = c := by
  have hb := isprint_bounds c h
  unfold toWchar; omega

/-- A word shorter than the line that would overflow the current line is not
written on it: `Write_WordWrap` drops the whitespace before it, writes a
newline, and writes the word whole from column 0 of the row the newline
leads to. -/
theorem word_moved_to_next_row (ctx : OwnerCtx) (s : Run ConScrollingTextWindow)
    (ws word post : List Int) (hok : s.win.outputOk) (hsz : s.win.toConWindowBase.sizeOk)
    (hws : ∀ c ∈ ws, isspace c = true ∧ c ≠ 10)
    (hword : ∀ c ∈ word, isprint c = true ∧ isspace c = false) (hne : word ≠ [])
    (hpost : ∀ c ∈ post.head?, isspace c = true)
    (hshort : (word.length : Int) < s.win.mPos.w)
    (hover : s.win.mOutputLoc.x + ((word.length : Int) + (ws.length : Int)) > s.win.mPos.w) :
    (∀ fuel, ConScrollingTextWindow.Write_WordWrap ctx s (ws ++ word ++ post) 0 (fuel + 1)
        = ConScrollingTextWindow.wrapFrom ctx
            (ConScrollingTextWindow.Write ctx
              (ConScrollingTextWindow.WriteCharInternal ctx s 10) word) post 0 1 fuel) ∧
      (ConScrollingTextWindow.WriteCharInternal ctx s 10).win.mOutputLoc
        = ⟨0, if s.win.mOutputLoc.y + 1 = s.win.mPos.h then s.win.mOutputLoc.y
              else s.win.mOutputLoc.y + 1⟩ ∧
      (ConScrollingTextWindow.Write ctx
          (ConScrollingTextWindow.WriteCharInternal ctx s 10) word).win.mOutputLoc
        = ⟨(word.length : Int),
            (ConScrollingTextWindow.WriteCharInternal ctx s 10).win.mOutputLoc.y⟩ ∧
      cellWrites (ConScrollingTextWindow.Write ctx
          (ConScrollingTextWindow.WriteCharInternal ctx s 10) word).screen
        = cellWrites s.screen ++ rowWrites ctx s.win.mPos
            (ConScrollingTextWindow.WriteCharInternal ctx s 10).win.mOutputLoc.y 0 word ∧
      ∀ k, 0 ≤ k → k < (word.length : Int) →
        (ConScrollingTextWindow.Write ctx
            (ConScrollingTextWindow.WriteCharInternal ctx s 10) word).win.toConWindowBase.GetChar
              (ConScrollingTextWindow.WriteCharInternal ctx s 10).win.mOutputLoc.y k
          = word.getD k.toNat 0 := by
  have hg : ∀ c ∈ word, isspace c = false := fun c hc => (hword c hc).2
  have hpr : ∀ c ∈ word, isprint c = true := fun c hc => (hword c hc).1
  have hne2 : ws ++ word ≠ [] := fun hc => hne (List.append_eq_nil.mp hc).2
  have hne3 : [] ++ word ≠ [] := by simpa using hne
  obtain ⟨hok1, hl1, hx1⟩ := newline_ok ctx s hok
  have hsz1 : (ConScrollingTextWindow.WriteCharInternal ctx s 10).win.toConWindowBase.sizeOk := by
    rw [WCI_newline]; exact (lineFeed_buffer ctx s hsz).1
  have hloc1 : (ConScrollingTextWindow.WriteCharInternal ctx s 10).win.mOutputLoc
      = ⟨0, if s.win.mOutputLoc.y + 1 = s.win.mPos.h then s.win.mOutputLoc.y
            else s.win.mOutputLoc.y + 1⟩ := by
    rw [WCI_newline]; exact (lineFeed_spec ctx s).2.2.1
  have hcw1 : cellWrites (ConScrollingTextWindow.WriteCharInternal ctx s 10).screen
      = cellWrites s.screen := by
    rw [WCI_newline]
    obtain ⟨_, _, _, ops, hops, hcw⟩ := lineFeed_spec ctx s
    rw [hops, cellWrites_append, hcw, List.append_nil]
  have hpos1 := hl1.1
  generalize hs1 : ConScrollingTextWindow.WriteCharInternal ctx s 10 = s1
    at hok1 hl1 hx1 hsz1 hloc1 hcw1 hpos1 ⊢
  have hloc1b : s1.win.mOutputLoc = ⟨0, s1.win.mOutputLoc.y⟩ := by
    rw [← hx1]
  obtain ⟨_, _, _, l2, c2, in2, _⟩ := Write_row_at ctx word s1 0 s1.win.mOutputLoc.y
    (word.length : Int) (word.length : Int) hpr hok1 hsz1 hloc1b rfl (zero_add _)
    (by rw [hpos1]; omega)
  refine ⟨?_, hloc1, l2, ?_, ?_⟩
  · intro fuel
    have hline1 := Line_chunk_return ctx s ws word post hws hg hpost hne2 (Or.inl hne)
      ⟨hshort, hover⟩
    have hline2 := Line_chunk_print ctx s1 [] word post (by simp) hg hpost hne3 (Or.inl hne)
      (by rw [hx1, hpos1]; simp only [List.length_nil, Nat.cast_zero, add_zero]; omega)
      (Or.inr (by
        rw [hx1, hpos1]; simp only [List.length_nil, Nat.cast_zero, add_zero, zero_add]; omega))
    rw [List.nil_append] at hline2
    rw [Write_WordWrap_eq, wrapFrom_of_line ctx s s _ _ 0 0 _ hline1, wrapLoop_some, hs1]
    unfold ConScrollingTextWindow.wrapFrom
    rw [hline2]
    rfl
  · rw [c2, hcw1, hpos1]
  · intro k hk0 hk1
    rw [in2 k hk0 hk1, sub_zero]
    apply toWchar_printable
    apply hpr
    have hlt : k.toNat < word.length := by omega
    rw [List.getD_eq_getElem _ _ hlt]
    exact List.getElem_mem hlt


/-- The run of `Write_WordWrap("hello world foo")` on a fresh window of width
10 and height at least 2. -/
theorem hello_world_foo (ctx : OwnerCtx) (owner : Nat) (px py h : Int) (hh : 2 ≤ h) :
    (∀ fuel, 1 ≤ fuel →
      ConScrollingTextWindow.Write_WordWrap ctx (freshText owner ⟨px, py, 10, h⟩)
          (cstr "hello world foo") 0 fuel
        = some (ConScrollingTextWindow.Write ctx (freshText owner ⟨px, py, 10, h⟩)
            (cstr "hello\nworld foo"), 1)) ∧
      (ConScrollingTextWindow.Write ctx (freshText owner ⟨px, py, 10, h⟩)
          (cstr "hello\nworld foo")).win.mOutputLoc = ⟨9, 1⟩ ∧
      (∀ col, 0 ≤ col → col < 10 →
        (ConScrollingTextWindow.Write ctx (freshText owner ⟨px, py, 10, h⟩)
            (cstr "hello\nworld foo")).win.toConWindowBase.GetChar 0 col
          = (cstr "hello     ").getD col.toNat 0) ∧
      (∀ col, 0 ≤ col → col < 10 →
        (ConScrollingTextWindow.Write ctx (freshText owner ⟨px, py, 10, h⟩)
            (cstr "hello\nworld foo")).win.toConWindowBase.GetChar 1 col
          = (cstr "world foo ").getD col.toNat 0) := by
  obtain ⟨hok0, hsz0, hpos0, hloc0, hbuf0⟩ :=
    freshText_facts owner px py 10 h (by decide) (by omega)
  generalize freshText owner ⟨px, py, 10, h⟩ = s0 at hok0 hsz0 hpos0 hloc0 hbuf0 ⊢
  have hW0 : s0.win.mPos.w = 10 := by rw [hpos0]
  have hH0 : s0.win.mPos.h = h := by rw [hpos0]
  -- "hello" on row 0
  obtain ⟨hok1, hsz1, p1, l1, _, in1, out1⟩ := Write_row_at ctx (cstr "hello") s0 0 0 5 5
    (by decide) hok0 hsz0 hloc0 (by decide) (by decide) (by rw [hW0]; decide)
  generalize hs1 : ConScrollingTextWindow.Write ctx s0 (cstr "hello") = s1
    at p1 l1 hok1 hsz1 in1 out1
  have hW1 : s1.win.mPos.w = 10 := by rw [p1, hW0]
  -- the inserted newline
  obtain ⟨hok2, hsz2, p2, l2, _, hbuf2⟩ := lineFeed_next_at ctx s1 5 0 1 hok1 hsz1 l1
    (by decide) (by rw [p1, hH0]; omega)
  generalize hs2 : ConScrollingTextWindow.lineFeed ctx s1 = s2 at hok2 hsz2 p2 l2 hbuf2
  have hW2 : s2.win.mPos.w = 10 := by rw [p2, hW1]
  -- "world" and " foo" on row 1
  obtain ⟨hok3, _, p3, l3, _, _, _⟩ := Write_row_at ctx (cstr "world") s2 0 1 5 5
    (by decide) hok2 hsz2 l2 (by decide) (by decide) (by rw [hW2]; decide)
  have hW3 : (ConScrollingTextWindow.Write ctx s2 (cstr "world")).win.mPos.w = 10 := by
    rw [p3, hW2]
  obtain ⟨_, _, _, l4, _, in4, out4⟩ := Write_row_at ctx (cstr "world foo") s2 0 1 9 9
    (by decide) hok2 hsz2 l2 (by decide) (by decide) (by rw [hW2]; decide)
  have etext : cstr "hello\nworld foo" = cstr "hello" ++ 10 :: cstr "world foo" := by decide
  have hfinal : ConScrollingTextWindow.Write ctx s0 (cstr "hello\nworld foo")
      = ConScrollingTextWindow.Write ctx s2 (cstr "world foo") := by
    rw [etext, Write_append, Write_cons, hs1, WCI_newline, hs2]
  refine ⟨?_, ?_, ?_, ?_⟩
  · intro fuel hfuel
    obtain ⟨f, hf⟩ : ∃ f, fuel = f + 1 := ⟨fuel - 1, by omega⟩
    have e1 : cstr "hello world foo" = [] ++ cstr "hello" ++ cstr " world foo" := by decide
    have e2 : cstr " world foo" = cstr " " ++ cstr "world" ++ cstr " foo" := by decide
    have e3 : cstr "world" ++ cstr " foo" = [] ++ cstr "world" ++ cstr " foo" := by decide
    have e4 : cstr " foo" = cstr " " ++ cstr "foo" ++ [] := by decide
    have e5 : cstr "world foo" = cstr "world" ++ (cstr " " ++ cstr "foo") := by decide
    have hline1 : ConScrollingTextWindow.Write_WordWrap_Line ctx s0 (cstr "hello world foo") 0
        = some (s1, some (cstr "world" ++ cstr " foo")) := by
      rw [e1, Line_chunk_print ctx s0 [] (cstr "hello") (cstr " world foo") (by simp)
          (by decide) (by decide) (by decide) (Or.inl (by decide))
          (by rw [hloc0, hW0]; decide) (Or.inr (by rw [hloc0, hW0]; decide)),
        List.nil_append, hs1, e2]
      exact Line_chunk_return ctx s1 (cstr " ") (cstr "world") (cstr " foo") (by decide)
        (by decide) (by decide) (by decide) (Or.inl (by decide))
        (by rw [l1, hW1]; decide)
    have hline2 : ConScrollingTextWindow.Write_WordWrap_Line ctx s2
          (cstr "world" ++ cstr " foo") 0
        = some (ConScrollingTextWindow.Write ctx s2 (cstr "world foo"), none) := by
      rw [e3, Line_chunk_print ctx s2 [] (cstr "world") (cstr " foo") (by simp)
          (by decide) (by decide) (by decide) (Or.inl (by decide))
          (by rw [l2, hW2]; decide) (Or.inr (by rw [l2, hW2]; decide)),
        List.nil_append, e4,
        Line_chunk_print ctx _ (cstr " ") (cstr "foo") [] (by decide)
          (by decide) (by simp) (by decide) (Or.inl (by decide))
          (by rw [l3, hW3]; decide) (Or.inr (by rw [l3, hW3]; decide)),
        Line_nil, e5, Write_append ctx s2 (cstr "world") (cstr " " ++ cstr "foo")]
    rw [Write_WordWrap_eq, wrapFrom_of_line ctx s0 s1 _ _ 0 0 fuel hline1, hf, wrapLoop_some,
      WCI_newline, hs2, wrapFrom_of_line ctx s2 _ _ _ 0 (0 + 1) f hline2, wrapLoop_none,
      hfinal]
    rfl
  · rw [hfinal, l4]
  · intro col hc0 hc1
    rw [hfinal, out4 0 col (Or.inl (by decide)), hbuf2]
    by_cases hcol : col < 5
    · rw [in1 col hc0 hcol]
      interval_cases col <;> decide
    · rw [out1 0 col (by omega), hbuf0 0 col (by decide) (by omega) hc0 hc1]
      interval_cases col <;> decide
  · intro col hc0 hc1
    rw [hfinal]
    by_cases hcol : col < 9
    · rw [in4 col hc0 hcol]
      interval_cases col <;> decide
    · rw [out4 1 col (by omega), hbuf2, out1 1 col (Or.inl (by decide)),
        hbuf0 1 col (by decide) (by omega) hc0 hc1]
      interval_cases col
      decide

/-- C3: on a fresh scrolling text window of width 10 and height at least 2,
with the default line length, `Write_WordWrap("hello world foo")` returns 1
and leaves the window exactly as `Write("hello\nworld foo")` does: row 0 reads
`hello` and five blanks, row 1 reads `world foo` and one blank. In general, a
word shorter than the line that would overflow the current line is written
whole from column 0 of the row the inserted newline leads to. -/
theorem C3_word_wrap_example (ctx : OwnerCtx) (owner : Nat) (px py h : Int) (hh : 2 ≤ h) :
    ((∀ fuel, 1 ≤ fuel →
        ConScrollingTextWindow.Write_WordWrap ctx (freshText owner ⟨px, py, 10, h⟩)
            (cstr "hello world foo") 0 fuel
          = some (ConScrollingTextWindow.Write ctx (freshText owner ⟨px, py, 10, h⟩)
              (cstr "hello\nworld foo"), 1)) ∧
      (ConScrollingTextWindow.Write ctx (freshText owner ⟨px, py, 10, h⟩)
          (cstr "hello\nworld foo")).win.mOutputLoc = ⟨9, 1⟩ ∧
      (∀ col, 0 ≤ col → col < 10 →
        (ConScrollingTextWindow.Write ctx (freshText owner ⟨px, py, 10, h⟩)
            (cstr "hello\nworld foo")).win.toConWindowBase.GetChar 0 col
          = (cstr "hello     ").getD col.toNat 0) ∧
      (∀ col, 0 ≤ col → col < 10 →
        (ConScrollingTextWindow.Write ctx (freshText owner ⟨px, py, 10, h⟩)
            (cstr "hello\nworld foo")).win.toConWindowBase.GetChar 1 col
          = (cstr "world foo ").getD col.toNat 0)) ∧
    (∀ (s : Run ConScrollingTextWindow) (ws word post : List Int),
      s.win.outputOk → s.win.toConWindowBase.sizeOk →
      (∀ c ∈ ws, isspace c = true ∧ c ≠ 10) →
      (∀ c ∈ word, isprint c = true ∧ isspace c = false) → word ≠ [] →
      (∀ c ∈ post.head?, isspace c = true) →
      (word.length : Int) < s.win.mPos.w →
      s.win.mOutputLoc.x + ((word.length : Int) + (ws.length : Int)) > s.win.mPos.w →
      (∀ fuel, ConScrollingTextWindow.Write_WordWrap ctx s (ws ++ word ++ post) 0 (fuel + 1)
          = ConScrollingTextWindow.wrapFrom ctx
              (ConScrollingTextWindow.Write ctx
                (ConScrollingTextWindow.WriteCharInternal ctx s 10) word) post 0 1 fuel) ∧
        (ConScrollingTextWindow.WriteCharInternal ctx s 10).win.mOutputLoc
          = ⟨0, if s.win.mOutputLoc.y + 1 = s.win.mPos.h then s.win.mOutputLoc.y
                else s.win.mOutputLoc.y + 1⟩ ∧
        (ConScrollingTextWindow.Write ctx
            (ConScrollingTextWindow.WriteCharInternal ctx s 10) word).win.mOutputLoc
          = ⟨(word.length : Int),
              (ConScrollingTextWindow.WriteCharInternal ctx s 10).win.mOutputLoc.y⟩ ∧
        cellWrites (ConScrollingTextWindow.Write ctx
            (ConScrollingTextWindow.WriteCharInternal ctx s 10) word).screen
          = cellWrites s.screen ++ rowWrites ctx s.win.mPos
              (ConScrollingTextWindow.WriteCharInternal ctx s 10).win.mOutputLoc.y 0 word ∧
        ∀ k, 0 ≤ k → k < (word.length : Int) →
          (ConScrollingTextWindow.Write ctx
              (ConScrollingTextWindow.WriteCharInternal ctx s 10) word).win.toConWindowBase.GetChar
                (ConScrollingTextWindow.WriteCharInternal ctx s 10).win.mOutputLoc.y k
            = word.getD k.toNat 0) :=
  ⟨hello_world_foo ctx owner px py h hh,
    fun s ws word post hok hsz hws hword hne hpost hshort hover =>
      word_moved_to_next_row ctx s ws word post hok hsz hws hword hne hpost hshort hover⟩

/-- C3 on a 10 x 2 window at the origin: the run itself, evaluated. -/
theorem C3_word_wrap_example_witness :
    (2 : Int) ≤ 2 ∧
      (ConScrollingTextWindow.Write_WordWrap demoCtx (freshText 0 ⟨0, 0, 10, 2⟩)
          (cstr "hello world foo") 0 1).map (fun r => (r.1.win.mData, r.2))
        = some (cstr "hello     world foo ", 1) :=
  ⟨by decide, by
    rw [(C3_word_wrap_example demoCtx 0 0 0 2 (by decide)).1.1 1 (le_refl 1)]
    decide⟩


/-! ## Claim C5: a word longer than the line -/

/-- C5 as stated fails: on a fresh 3 x 2 window `Write_WordWrap("abcdef")`
returns 0, but the six characters are not on one row: `abc` is written on row
0 and `def` on row 1 (the cell at row 1, column 0 holds `d`). -/
theorem C5_counterexample :
    (ConScrollingTextWindow.Write_WordWrap demoCtx (freshText 0 ⟨0, 0, 3, 2⟩)
        (cstr "abcdef") 0 4).map
      (fun r => (cellWrites r.1.screen, r.1.win.toConWindowBase.GetChar 1 0, r.2))
      = some (rowWrites demoCtx ⟨0, 0, 3, 2⟩ 0 0 (cstr "abc") ++
              rowWrites demoCtx ⟨0, 0, 3, 2⟩ 1 0 (cstr "def"), 100, 0) := by
  decide

/-- C5, amended: on a fresh scrolling text window of width 3 and height at
least 2, with the default line length, `Write_WordWrap("abcdef")` inserts no
wrap (it returns 0, whatever the fuel) and leaves the window exactly as
`Write("abcdef")` does; the single-character writer wraps at the window width:
`abc` is written on row 0 and `def` on row 1, columns 0-2 each, and the output
position is left at row 1, one past the last column. -/
theorem C5_long_word_hard_wrapped (ctx : OwnerCtx) (owner : Nat) (px py h : Int)
    (hh : 2 ≤ h) :
    (∀ fuel, ConScrollingTextWindow.Write_WordWrap ctx (freshText owner ⟨px, py, 3, h⟩)
        (cstr "abcdef") 0 fuel
      = some (ConScrollingTextWindow.Write ctx (freshText owner ⟨px, py, 3, h⟩)
          (cstr "abcdef"), 0)) ∧
      (ConScrollingTextWindow.Write ctx (freshText owner ⟨px, py, 3, h⟩)
          (cstr "abcdef")).win.mOutputLoc = ⟨3, 1⟩ ∧
      cellWrites (ConScrollingTextWindow.Write ctx (freshText owner ⟨px, py, 3, h⟩)
          (cstr "abcdef")).screen
        = rowWrites ctx ⟨px, py, 3, h⟩ 0 0 (cstr "abc") ++
            rowWrites ctx ⟨px, py, 3, h⟩ 1 0 (cstr "def") ∧
      (∀ col, 0 ≤ col → col < 3 →
        (ConScrollingTextWindow.Write ctx (freshText owner ⟨px, py, 3, h⟩)
            (cstr "abcdef")).win.toConWindowBase.GetChar 0 col
          = (cstr "abc").getD col.toNat 0) ∧
      (∀ col, 0 ≤ col → col < 3 →
        (ConScrollingTextWindow.Write ctx (freshText owner ⟨px, py, 3, h⟩)
            (cstr "abcdef")).win.toConWindowBase.GetChar 1 col
          = (cstr "def").getD col.toNat 0) := by
  obtain ⟨hok0, hsz0, hpos0, hloc0, _⟩ :=
    freshText_facts owner px py 3 h (by decide) (by omega)
  have hscr0 : (freshText owner ⟨px, py, 3, h⟩).screen = [] := rfl
  generalize freshText owner ⟨px, py, 3, h⟩ = s0 at hok0 hsz0 hpos0 hloc0 hscr0 ⊢
  have hW0 : s0.win.mPos.w = 3 := by rw [hpos0]
  have hH0 : s0.win.mPos.h = h := by rw [hpos0]
  -- "abc" fills row 0 and parks the column one past the last one
  obtain ⟨hok1, hsz1, p1, l1, c1, in1, _⟩ := Write_row_at ctx (cstr "abc") s0 0 0 3 3
    (by decide) hok0 hsz0 hloc0 (by decide) (by decide) (by rw [hW0])
  generalize hs1 : ConScrollingTextWindow.Write ctx s0 (cstr "abc") = s1
    at p1 l1 c1 hok1 hsz1 in1
  have hW1 : s1.win.mPos.w = 3 := by rw [p1, hW0]
  -- the writer wraps before "d"
  obtain ⟨hok2, hsz2, p2, l2, c2, hbuf2⟩ := lineFeed_next_at ctx s1 3 0 1 hok1 hsz1 l1
    (by decide) (by rw [p1, hH0]; omega)
  generalize hs2 : ConScrollingTextWindow.lineFeed ctx s1 = s2 at hok2 hsz2 p2 l2 c2 hbuf2
  have hW2 : s2.win.mPos.w = 3 := by rw [p2, hW1]
  obtain ⟨_, _, _, l3, c3, in3, out3⟩ := Write_row_at ctx (cstr "def") s2 0 1 3 3
    (by decide) hok2 hsz2 l2 (by decide) (by decide) (by rw [hW2])
  have etext : cstr "abcdef" = cstr "abc" ++ cstr "def" := by decide
  have edef : cstr "def" = 100 :: cstr "ef" := by decide
  have hfinal : ConScrollingTextWindow.Write ctx s0 (cstr "abcdef")
      = ConScrollingTextWindow.Write ctx s2 (cstr "def") := by
    rw [etext, Write_append, hs1, edef,
      Write_parked ctx s1 100 (cstr "ef") (by decide) (by rw [hW1]; decide)
        (by rw [l1, hW1]), hs2]
  refine ⟨?_, ?_, ?_, ?_, ?_⟩
  · intro fuel
    have e1 : cstr "abcdef" = [] ++ cstr "abcdef" ++ [] := by decide
    have hline : ConScrollingTextWindow.Write_WordWrap_Line ctx s0 (cstr "abcdef") 0
        = some (ConScrollingTextWindow.Write ctx s0 (cstr "abcdef"), none) := by
      rw [e1, Line_chunk_print ctx s0 [] (cstr "abcdef") [] (by simp) (by decide)
          (by simp) (by decide) (Or.inl (by decide))
          (by rw [hloc0, hW0]; decide) (Or.inl (by rw [hW0]; decide)),
        Line_nil]
      rfl
    rw [Write_WordWrap_eq, wrapFrom_of_line ctx s0 _ _ _ 0 0 fuel hline, wrapLoop_none]
  · rw [hfinal, l3]
  · rw [hfinal, c3, c2, c1, hscr0, p2, p1, hpos0]
    rfl
  · intro col hc0 hc1
    rw [hfinal, out3 0 col (Or.inl (by decide)), hbuf2, in1 col hc0 hc1]
    interval_cases col <;> decide
  · intro col hc0 hc1
    rw [hfinal, in3 col hc0 hc1]
    interval_cases col <;> decide

/-- C5 (amended) on a 3 x 2 window at the origin. -/
theorem C5_long_word_hard_wrapped_witness :
    (2 : Int) ≤ 2 ∧
      (∀ fuel, ConScrollingTextWindow.Write_WordWrap demoCtx (freshText 0 ⟨0, 0, 3, 2⟩)
          (cstr "abcdef") 0 fuel
        = some (ConScrollingTextWindow.Write demoCtx (freshText 0 ⟨0, 0, 3, 2⟩)
            (cstr "abcdef"), 0)) ∧
      (ConScrollingTextWindow.Write demoCtx (freshText 0 ⟨0, 0, 3, 2⟩)
          (cstr "abcdef")).win.mOutputLoc = ⟨3, 1⟩ :=
  ⟨by decide, (C5_long_word_hard_wrapped demoCtx 0 0 0 2 (by decide)).1,
    (C5_long_word_hard_wrapped demoCtx 0 0 0 2 (by decide)).2.1⟩


/-! ## Claim C11: removing the focused window -/

theorem World.dispatchKey_no_focus (W : World) (key : Int) (h : W.con.mFocusWindow = none) :
    W.dispatchKey key = W := by
  simp only [World.dispatchKey, h]

theorem World.dispatchFunctionKey_no_focus (W : World) (code : Int)
    (h : W.con.mFocusWindow = none) : W.dispatchFunctionKey code = W := by
  simp only [World.dispatchFunctionKey, h]

/-- Without a focus window `Update` consumes the pending keys and changes nothing. -/
theorem World.Update_no_focus_aux (n : Nat) : ∀ (keys : List Int) (W V : World),
    keys.length ≤ n → W.con.mFocusWindow = none → W.Update keys = some V → V = W := by
  induction n with
  | zero =>
      intro keys W V hlen _ h
      cases keys with
      | nil =>
          simp only [World.Update, Option.some.injEq] at h
          exact h.symm
      | cons k ks => simp at hlen
  | succ n ih =>
      intro keys W V hlen hf h
      cases keys with
      | nil =>
          simp only [World.Update, Option.some.injEq] at h
          exact h.symm
      | cons key rest =>
          by_cases hm : key = 0 ∨ key = 224
          · cases rest with
            | nil => simp [World.Update, hm] at h
            | cons code rest2 =>
                rw [World.Update.eq_def] at h
                simp only [if_pos hm] at h
                rw [World.dispatchFunctionKey_no_focus W code hf] at h
                exact ih rest2 W V (by simp at hlen; omega) hf h
          · rw [World.Update.eq_def] at h
            simp only [if_neg hm] at h
            rw [World.dispatchKey_no_focus W key hf] at h
            exact ih rest W V (by simp at hlen; omega) hf h

theorem World.Update_no_focus (W : World) (hf : W.con.mFocusWindow = none) :
    (∀ key : Int, key ≠ 0 → key ≠ 224 → W.Update [key] = some W) ∧
      (∀ marker code : Int, marker = 0 ∨ marker = 224 → W.Update [marker, code] = some W) ∧
      (∀ (keys : List Int) (V : World), W.Update keys = some V → V = W) := by
  refine ⟨?_, ?_, ?_⟩
  · intro key h0 h1
    have hm : ¬ (key = 0 ∨ key = 224) := by
      intro hc; cases hc with
      | inl h => exact h0 h
      | inr h => exact h1 h
    simp only [World.Update, if_neg hm, World.dispatchKey_no_focus W key hf]
  · intro marker code hm
    simp only [World.Update, if_pos hm, World.dispatchFunctionKey_no_focus W code hf]
  · intro keys V h
    exact World.Update_no_focus_aux keys.length keys W V (le_refl _) hf h

/-- Without a focus window `Update` returns, leaving the state as it is, for
any pending plain keys. -/
theorem World.Update_no_focus_plain (keys : List Int) : ∀ W : World,
    W.con.mFocusWindow = none → (∀ k ∈ keys, k ≠ 0 ∧ k ≠ 224) → W.Update keys = some W := by
  induction keys with
  | nil => intro W _ _; rfl
  | cons key rest ih =>
      intro W hf hk
      have hm : ¬ (key = 0 ∨ key = 224) := by
        have := hk key (List.mem_cons_self key rest)
        intro hc
        cases hc with
        | inl h => exact this.1 h
        | inr h => exact this.2 h
      rw [World.Update.eq_def]
      simp only [if_neg hm]
      rw [World.dispatchKey_no_focus W key hf]
      exact ih W hf (fun k hk2 => hk k (List.mem_cons_of_mem key hk2))

/-- What `RemoveWindow` does to the focus reference and to the window, when it
accepts the window. -/
theorem World.RemoveWindow_accepted (W : World) (p : Nat)
    (hown : W.ownerOf p = some W.conAddr) :
    (W.RemoveWindow p).con.mFocusWindow
        = (if W.con.mFocusWindow = some p then none else W.con.mFocusWindow) ∧
      (W.RemoveWindow p).ownerOf p = none ∧
      ((W.RemoveWindow p).heap p).isSome = true ∧
      ((W.con.mFocusWindow = some p) → (W.RemoveWindow p).HasFocus p = false) := by
  have hlive : (W.heap p).isSome = true := World.owner_live W p _ hown
  unfold World.RemoveWindow
  rw [if_neg (not_not.mpr hown)]
  dsimp only []
  have hW1 : ∃ W1 : World, (if W.con.mFocusWindow = some p then W.SetFocusWindow none else W)
      = W1 ∧ W1.con.mFocusWindow = (if W.con.mFocusWindow = some p then none
          else W.con.mFocusWindow) ∧ (W1.heap p).isSome = true ∧
        (W.con.mFocusWindow = some p → (W1.peer p).mbFocus = false) := by
    by_cases hf : W.con.mFocusWindow = some p
    · rw [if_pos hf, if_pos hf]
      have hacc : ∀ q, (none : Option Nat) = some q → W.ownerOf q = some W.conAddr := by
        intro q hq; cases hq
      have hne : W.con.mFocusWindow ≠ none := by rw [hf]; simp
      have hc := World.SetFocusWindow_changed W none hacc hne
      refine ⟨_, rfl, by rw [hc.1], by rw [hc.2.2.1]; exact hlive, ?_⟩
      intro _
      rw [hc.2.2.2 p]
      have h1 : ¬ ((none : Option Nat) = some p ∧ (W.heap p).isSome = true) := by
        intro h; cases h.1
      rw [if_neg h1, if_pos ⟨hf, hlive⟩]
    · rw [if_neg hf, if_neg hf]
      exact ⟨W, rfl, rfl, hlive, fun h => absurd h hf⟩
  obtain ⟨W1, hW1eq, hfoc1, hlive1, hflag1⟩ := hW1
  rw [hW1eq]
  have hc := World.modifyBase_con W1 p (fun b => { b with mOwner := none })
  have hpeer : (W1.modifyBase p (fun b => { b with mOwner := none })).peer p
      = { W1.peer p with mOwner := none } := by
    rw [World.modifyBase_peer, if_pos ⟨rfl, hlive1⟩]
  have hlv : ((W1.modifyBase p (fun b => { b with mOwner := none })).heap p).isSome = true := by
    rw [World.modifyBase_live]; exact hlive1
  generalize W1.modifyBase p (fun b => { b with mOwner := none }) = W2 at hc hpeer hlv
  refine ⟨?_, ?_, hlv, ?_⟩
  · show W2.con.mFocusWindow = _
    rw [hc.1, hfoc1]
  · show (W2.peer p).mOwner = none
    rw [hpeer]
  · intro hf
    show (W2.peer p).mbFocus = false
    rw [hpeer]
    exact hflag1 hf

/-- C11: in a state that satisfies the console invariant (every reachable
state does) and whose focus reference is the window `p`: after
`RemoveWindow(p)`, and likewise after the destruction of `p`, the console has
no focus reference, `p` does not report focus, `p` is neither registered nor
owned (after destruction it is gone), and `Update` returns the state it was
given: for any pending plain keys, for an extended-key marker with its code,
and whenever it returns at all. The keys are dropped, and neither `p` nor any
other window changes. -/
theorem C11_remove_focused_window (W : World) (p : Nat) (hInv : W.Inv)
    (hfocus : W.con.mFocusWindow = some p) :
    ((W.RemoveWindow p).con.mFocusWindow = none ∧ (W.RemoveWindow p).HasFocus p = false ∧
        p ∉ (W.RemoveWindow p).con.mWindows ∧ (W.RemoveWindow p).ownerOf p = none ∧
        (∀ keys : List Int, (∀ k ∈ keys, k ≠ 0 ∧ k ≠ 224) →
          (W.RemoveWindow p).Update keys = some (W.RemoveWindow p)) ∧
        (∀ marker code : Int, marker = 0 ∨ marker = 224 →
          (W.RemoveWindow p).Update [marker, code] = some (W.RemoveWindow p)) ∧
        (∀ (keys : List Int) (V : World),
          (W.RemoveWindow p).Update keys = some V → V = W.RemoveWindow p)) ∧
      ((W.destroy p).con.mFocusWindow = none ∧ (W.destroy p).HasFocus p = false ∧
        p ∉ (W.destroy p).con.mWindows ∧ (W.destroy p).heap p = none ∧
        (∀ keys : List Int, (∀ k ∈ keys, k ≠ 0 ∧ k ≠ 224) →
          (W.destroy p).Update keys = some (W.destroy p)) ∧
        (∀ marker code : Int, marker = 0 ∨ marker = 224 →
          (W.destroy p).Update [marker, code] = some (W.destroy p)) ∧
        (∀ (keys : List Int) (V : World),
          (W.destroy p).Update keys = some V → V = W.destroy p)) := by
  have hmem : p ∈ W.con.mWindows := hInv.2.1 p hfocus
  have hown : W.ownerOf p = some W.conAddr := (hInv.2.2.1 p hmem).2
  have hr := World.Inv_RemoveWindow W p hInv
  have ha := World.RemoveWindow_accepted W p hown
  have hfoc : (W.RemoveWindow p).con.mFocusWindow = none := by
    rw [ha.1, if_pos hfocus]
  have hnot : p ∉ (W.RemoveWindow p).con.mWindows := by
    rw [hr.2.2 hown]
    exact List.Nodup.not_mem_erase hInv.2.2.2.2
  have hup := World.Update_no_focus (W.RemoveWindow p) hfoc
  refine ⟨⟨hfoc, ha.2.2.2 hfocus, hnot, ha.2.1,
    fun keys hk => World.Update_no_focus_plain keys _ hfoc hk, hup.2.1, hup.2.2⟩, ?_⟩
  have hd : W.destroy p
      = { W.RemoveWindow p with heap := fun a => if a = p then none else (W.RemoveWindow p).heap a } := by
    unfold World.destroy
    rw [if_pos hown]
  have hfocd : (W.destroy p).con.mFocusWindow = none := by rw [hd]; exact hfoc
  have hupd := World.Update_no_focus (W.destroy p) hfocd
  have hheap : (W.destroy p).heap p = none := by rw [hd]; simp
  refine ⟨hfocd, ?_, by rw [hd]; exact hnot, hheap,
    fun keys hk => World.Update_no_focus_plain keys _ hfocd hk, hupd.2.1, hupd.2.2⟩
  unfold World.HasFocus
  rw [World.peer_dead (W.destroy p) p (by rw [hheap]; rfl)]
  rfl

/-- C11 at `demoWorld` with the focus on the window at address 2. -/
theorem C11_remove_focused_window_witness :
    (demoWorld.SetFocusWindow (some 2)).Inv ∧
      (demoWorld.SetFocusWindow (some 2)).con.mFocusWindow = some 2 ∧
      ((demoWorld.SetFocusWindow (some 2)).RemoveWindow 2).con.mFocusWindow = none ∧
      ((demoWorld.SetFocusWindow (some 2)).RemoveWindow 2).HasFocus 2 = false ∧
      2 ∉ ((demoWorld.SetFocusWindow (some 2)).RemoveWindow 2).con.mWindows :=
  have hInv : (demoWorld.SetFocusWindow (some 2)).Inv :=
    World.Inv_SetFocusWindow demoWorld (some 2)
      (World.Inv_construct _ 2 WinKind.char ⟨0, 0, 8, 4⟩ (some 0)
        (World.Inv_construct _ 1 WinKind.line ⟨0, 24, 8, 1⟩ (some 0)
          (World.Inv_fresh 0 ⟨0, 0, 79, 25⟩ ⟨0, 0, 79, 25⟩ 7) rfl) (by decide))
      (by intro q hq; cases hq; decide)
  ⟨hInv, by decide,
    (C11_remove_focused_window (demoWorld.SetFocusWindow (some 2)) 2 hInv (by decide)).1.1,
    (C11_remove_focused_window (demoWorld.SetFocusWindow (some 2)) 2 hInv (by decide)).1.2.1,
    (C11_remove_focused_window (demoWorld.SetFocusWindow (some 2)) 2 hInv (by decide)).1.2.2.1⟩


/-! ## Claim C14: the raw key queue -/

theorem CharHandleKey_fold (keys : List Int) : ∀ s : Run ConCharInputWindow,
    (keys.foldl ConCharInputWindow.HandleKey s).win.mPendingKeys = s.win.mPendingKeys ++ keys ∧
      (keys.foldl ConCharInputWindow.HandleKey s).win.toConScrollingTextWindow
        = s.win.toConScrollingTextWindow ∧
      (keys.foldl ConCharInputWindow.HandleKey s).screen = s.screen := by
  induction keys with
  | nil => intro s; simp
  | cons k ks ih =>
      intro s
      rw [List.foldl_cons]
      obtain ⟨h1, h2, h3⟩ := ih (ConCharInputWindow.HandleKey s k)
      refine ⟨?_, ?_, ?_⟩
      · rw [h1]; simp [ConCharInputWindow.HandleKey]
      · rw [h2]; rfl
      · rw [h3]; rfl

theorem readMany_queue (keys : List Int) : ∀ win : ConCharInputWindow,
    win.mPendingKeys = keys →
    (ConCharInputWindow.readMany (keys.length + 1) win).2 = keys.map some ++ [none] ∧
      (ConCharInputWindow.readMany (keys.length + 1) win).1.mPendingKeys = [] ∧
      (ConCharInputWindow.readMany (keys.length + 1) win).1.toConScrollingTextWindow
        = win.toConScrollingTextWindow := by
  induction keys with
  | nil =>
      intro win h
      simp [ConCharInputWindow.readMany, ConCharInputWindow.ReadChar, h]
  | cons k ks ih =>
      intro win h
      have hr : ConCharInputWindow.ReadChar win = ({ win with mPendingKeys := ks }, some k) := by
        simp [ConCharInputWindow.ReadChar, h]
      obtain ⟨h1, h2, h3⟩ := ih { win with mPendingKeys := ks } rfl
      have hlen : (k :: ks).length + 1 = (ks.length + 1) + 1 := rfl
      rw [hlen, ConCharInputWindow.readMany, hr]
      exact ⟨by simp only [h1, List.map_cons, List.cons_append], h2, h3⟩

/-- C14: for a char input window whose key queue is empty and any key codes
`keys` handed to `HandleKey` one after the other, the next `keys.length + 1`
calls of `ReadChar` return the keys in order and unchanged, then "no data";
the queue is empty afterwards. No `HandleKey` call (in any state) changes the
scrolling-text part of the window (buffer, output position, cursor) or
writes to the surface, so neither does the whole sequence; the reads do not
change it either. -/
theorem C14_raw_key_fifo (s : Run ConCharInputWindow) (keys : List Int)
    (hempty : s.win.mPendingKeys = []) :
    (ConCharInputWindow.readMany (keys.length + 1)
        (keys.foldl ConCharInputWindow.HandleKey s).win).2 = keys.map some ++ [none] ∧
      (ConCharInputWindow.readMany (keys.length + 1)
        (keys.foldl ConCharInputWindow.HandleKey s).win).1.mPendingKeys = [] ∧
      (ConCharInputWindow.readMany (keys.length + 1)
        (keys.foldl ConCharInputWindow.HandleKey s).win).1.toConScrollingTextWindow
          = s.win.toConScrollingTextWindow ∧
      (∀ (t : Run ConCharInputWindow) (key : Int),
        (ConCharInputWindow.HandleKey t key).win.toConScrollingTextWindow
            = t.win.toConScrollingTextWindow ∧
          (ConCharInputWindow.HandleKey t key).screen = t.screen) ∧
      (keys.foldl ConCharInputWindow.HandleKey s).win.toConScrollingTextWindow
        = s.win.toConScrollingTextWindow ∧
      (keys.foldl ConCharInputWindow.HandleKey s).screen = s.screen := by
  obtain ⟨h1, h2, h3⟩ := CharHandleKey_fold keys s
  rw [hempty, List.nil_append] at h1
  obtain ⟨r1, r2, r3⟩ := readMany_queue keys _ h1
  exact ⟨r1, r2, r3.trans h2, fun t key => ⟨rfl, rfl⟩, h2, h3⟩

/-- C14 for a fresh 8x4 window and the keys `a`, carriage return, 200, `a`. -/
theorem C14_raw_key_fifo_witness :
    (ConCharInputWindow.readMany 5
        ([97, 13, 200, 97].foldl ConCharInputWindow.HandleKey
          ⟨ConCharInputWindow.init ⟨0, 0, 8, 4⟩, []⟩).win).2
      = [some 97, some 13, some 200, some 97, none] :=
  (C14_raw_key_fifo ⟨ConCharInputWindow.init ⟨0, 0, 8, 4⟩, []⟩ [97, 13, 200, 97] rfl).1

/-! ## Claim C16: `ScrollWindow` and the window model -/

theorem lineFeed_base (ctx : OwnerCtx) (s : Run ConScrollingTextWindow) :
    (ConScrollingTextWindow.lineFeed ctx s).win.toConWindowBase = s.win.toConWindowBase := by
  unfold ConScrollingTextWindow.lineFeed
  by_cases hy : s.win.mOutputLoc.y + 1 = s.win.mPos.h
  · simp only [hy, if_true]
    have hf := ScrollWindow_frame ctx ⟨s.win.toConWindowBase, s.screen⟩
      ⟨0, 1, s.win.mPos.w, s.win.mPos.h - 1⟩ ⟨0, 0⟩ blank
    unfold ConScrollingTextWindow.onBase
    simp only [hf.1]
  · simp only [if_neg hy]

/-- C16: `ScrollWindow` returns the window it was given, for every window,
region, target and fill character: every `GetChar` answers as before, the
cursor and the focus flag are unchanged. When the region has `w <= 0` or
`h <= 0` nothing at all happens (the surface log is unchanged too); otherwise
exactly one block scroll is issued to the surface. A line break written to a
scrolling text window, with or without a scroll, leaves the base part of the
window, so every buffer cell, as it was. -/
theorem C16_ScrollWindow_model_unchanged (ctx : OwnerCtx) (s : Run ConWindowBase)
    (moveArea : ConRect) (target : ConPoint) (fillChar : Int) :
    (ConWindowBase.ScrollWindow ctx s moveArea target fillChar).win = s.win ∧
      (∀ row col : Int,
        ConWindowBase.GetChar (ConWindowBase.ScrollWindow ctx s moveArea target fillChar).win
          row col = ConWindowBase.GetChar s.win row col) ∧
      (ConWindowBase.ScrollWindow ctx s moveArea target fillChar).win.mCursor = s.win.mCursor ∧
      (ConWindowBase.ScrollWindow ctx s moveArea target fillChar).win.mbFocus = s.win.mbFocus ∧
      (if moveArea.w ≤ 0 ∨ moveArea.h ≤ 0 then
          ConWindowBase.ScrollWindow ctx s moveArea target fillChar = s
        else ∃ op, (ConWindowBase.ScrollWindow ctx s moveArea target fillChar).screen
            = s.screen ++ [op] ∧ op.isCellWrite = false) ∧
      (∀ t : Run ConScrollingTextWindow,
        (ConScrollingTextWindow.WriteCharInternal ctx t 10).win.toConWindowBase
            = t.win.toConWindowBase ∧
          ∀ row col : Int,
            ConWindowBase.GetChar
              (ConScrollingTextWindow.WriteCharInternal ctx t 10).win.toConWindowBase row col
              = ConWindowBase.GetChar t.win.toConWindowBase row col) := by
  have hw := (ScrollWindow_frame ctx s moveArea target fillChar).1
  refine ⟨hw, fun row col => by rw [hw], by rw [hw], by rw [hw], ?_, ?_⟩
  · unfold ConWindowBase.ScrollWindow
    split_ifs with h
    · rfl
    · exact ⟨_, rfl, rfl⟩
  · intro t
    rw [WCI_newline, lineFeed_base]
    exact ⟨rfl, fun _ _ => rfl⟩


/-! ## Claim C13: `Initialize` when the surface cannot be queried -/

/-- On an uninitialised console, with both queries answered, `Initialize`
succeeds and stores the handle. -/
theorem World.Initialize_success (W : World) (hd : Int) (i1 i2 : ScreenBufferInfo)
    (hW : W.con.mHandle = INVALID_HANDLE_VALUE) :
    (W.Initialize hd (some i1) (some i2)).2 = true ∧
      (W.Initialize hd (some i1) (some i2)).1.con.mHandle = hd ∧
      (W.Initialize hd (some i1) (some i2)).1.con.mRect = ⟨0, 0, i1.dwSizeX - 1, i1.dwSizeY⟩ := by
  unfold World.Initialize
  rw [if_neg (not_not.mpr hW)]
  exact ⟨rfl, rfl, rfl⟩

/-- A console whose handle is valid refuses `Initialize` and is left as it was. -/
theorem World.Initialize_twice (W : World) (hd : Int) (q1 q2 : Option ScreenBufferInfo)
    (hW : W.con.mHandle ≠ INVALID_HANDLE_VALUE) : W.Initialize hd q1 q2 = (W, false) := by
  unfold World.Initialize
  rw [if_pos hW]

/-- C13 fails on the code: when `Initialize` is called with a handle `hd` on an
uninitialised console and the first geometry query fails, it returns false
but has already stored `hd`: the console's handle is `hd`, not the invalid
handle (everything else is as before), and a later `Initialize` whose queries
both succeed returns false as "already initialized", although the same call
on the untouched console would have succeeded. -/
theorem C13_Initialize_failure_keeps_handle (W : World) (hd hd2 : Int)
    (q2 : Option ScreenBufferInfo) (i1 i2 : ScreenBufferInfo)
    (hW : W.con.mHandle = INVALID_HANDLE_VALUE) (hhd : hd ≠ INVALID_HANDLE_VALUE) :
    (W.Initialize hd none q2).2 = false ∧
      (W.Initialize hd none q2).1 = { W with con := { W.con with mHandle := hd } } ∧
      (W.Initialize hd none q2).1.con.mHandle ≠ INVALID_HANDLE_VALUE ∧
      ((W.Initialize hd none q2).1.Initialize hd2 (some i1) (some i2)).2 = false ∧
      (W.Initialize hd2 (some i1) (some i2)).2 = true := by
  have h : W.Initialize hd none q2 = ({ W with con := { W.con with mHandle := hd } }, false) := by
    unfold World.Initialize
    rw [if_neg (not_not.mpr hW)]
  rw [h]
  refine ⟨rfl, rfl, hhd, ?_, (World.Initialize_success W hd2 i1 i2 hW).1⟩
  rw [World.Initialize_twice _ hd2 _ _ hhd]

/-- C13 at the failing input: a freshly constructed console, handle 5, the
first query failing; then handle 5 again with an 80x25 surface. -/
theorem C13_Initialize_failure_keeps_handle_witness :
    ((World.fresh 0 ⟨0, 0, 0, 0⟩ ⟨0, 0, 0, 0⟩ 0).Initialize 5 none none).2 = false ∧
      ((World.fresh 0 ⟨0, 0, 0, 0⟩ ⟨0, 0, 0, 0⟩ 0).Initialize 5 none none).1.con.mHandle = 5 ∧
      (((World.fresh 0 ⟨0, 0, 0, 0⟩ ⟨0, 0, 0, 0⟩ 0).Initialize 5 none none).1.Initialize 5
        (some ⟨80, 25, 7, 0, 0⟩) (some ⟨80, 25, 7, 0, 0⟩)).2 = false :=
  have h := C13_Initialize_failure_keeps_handle (World.fresh 0 ⟨0, 0, 0, 0⟩ ⟨0, 0, 0, 0⟩ 0) 5 5
    none ⟨80, 25, 7, 0, 0⟩ ⟨80, 25, 7, 0, 0⟩ rfl (by decide)
  ⟨h.1, by rw [h.2.1], h.2.2.2.1⟩


/-! ## Claim C15: the display row of a line input window -/

/-- A loop of `SetChar( 0, i, v i )` over the columns `cols` of a line input
window: the cells of `cols` hold the values written, every other cell of row
0 is as before. -/
theorem rowFold (ctx : OwnerCtx) (v : List Int → Nat → Int) (cols : List Nat) :
    ∀ t : Run ConLineInputWindow, t.win.toConWindowBase.sizeOk → 1 ≤ t.win.mPos.h →
      (∀ i ∈ cols, (i : Int) < t.win.mPos.w) →
      (cols.foldl (fun u (i : Nat) => ConLineInputWindow.onBase
          (fun b => ConWindowBase.SetChar ctx b 0 (i : Int) (v u.win.mCurrentInput i)) u) t).win.mPos
        = t.win.mPos ∧
      (cols.foldl (fun u (i : Nat) => ConLineInputWindow.onBase
          (fun b => ConWindowBase.SetChar ctx b 0 (i : Int) (v u.win.mCurrentInput i)) u) t).win.toConWindowBase.sizeOk ∧
      (cols.foldl (fun u (i : Nat) => ConLineInputWindow.onBase
          (fun b => ConWindowBase.SetChar ctx b 0 (i : Int) (v u.win.mCurrentInput i)) u) t).win.mCurrentInput
        = t.win.mCurrentInput ∧
      (cols.foldl (fun u (i : Nat) => ConLineInputWindow.onBase
          (fun b => ConWindowBase.SetChar ctx b 0 (i : Int) (v u.win.mCurrentInput i)) u) t).win.mCursor
        = t.win.mCursor ∧
      (cols.foldl (fun u (i : Nat) => ConLineInputWindow.onBase
          (fun b => ConWindowBase.SetChar ctx b 0 (i : Int) (v u.win.mCurrentInput i)) u) t).win.mbFocus
        = t.win.mbFocus ∧
      ∀ j : Nat, ConWindowBase.GetChar
          (cols.foldl (fun u (i : Nat) => ConLineInputWindow.onBase
            (fun b => ConWindowBase.SetChar ctx b 0 (i : Int) (v u.win.mCurrentInput i)) u)
            t).win.toConWindowBase 0 (j : Int)
        = if j ∈ cols then v t.win.mCurrentInput j
          else ConWindowBase.GetChar t.win.toConWindowBase 0 (j : Int) := by
  induction cols with
  | nil =>
      intro t hsz _ _
      exact ⟨rfl, hsz, rfl, rfl, rfl, fun j => by simp⟩
  | cons i l ih =>
      intro t hsz hh hcols
      rw [List.foldl_cons]
      have hi : (i : Int) < t.win.mPos.w := hcols i (List.mem_cons_self _ _)
      have hf := SetChar_frame ctx ⟨t.win.toConWindowBase, t.screen⟩ 0 (i : Int)
        (v t.win.mCurrentInput i)
      have hg := fun r k => GetChar_SetChar ctx ⟨t.win.toConWindowBase, t.screen⟩ 0 (i : Int)
        (v t.win.mCurrentInput i) r k hsz (le_refl 0) (by show (0 : Int) < t.win.mPos.h; omega)
        (Int.ofNat_nonneg i) hi
      generalize ht1 : ConLineInputWindow.onBase
        (fun b => ConWindowBase.SetChar ctx b 0 (i : Int) (v t.win.mCurrentInput i)) t = t1
      have hb : t1.win.toConWindowBase
          = (ConWindowBase.SetChar ctx ⟨t.win.toConWindowBase, t.screen⟩ 0 (i : Int)
              (v t.win.mCurrentInput i)).win := by rw [← ht1]; rfl
      have hcur : t1.win.mCurrentInput = t.win.mCurrentInput := by rw [← ht1]; rfl
      have hpos : t1.win.mPos = t.win.mPos := by
        show t1.win.toConWindowBase.mPos = _
        rw [hb]; exact hf.1
      have hsz1 : t1.win.toConWindowBase.sizeOk := by
        unfold ConWindowBase.sizeOk
        rw [hb, hf.2.2.2.2, hf.1]
        exact hsz
      obtain ⟨a1, a2, a3, a4, a5, a6⟩ := ih t1 hsz1 (by rw [hpos]; exact hh)
        (fun k hk => by rw [hpos]; exact hcols k (List.mem_cons_of_mem _ hk))
      refine ⟨a1.trans hpos, a2, a3.trans hcur, ?_, ?_, ?_⟩
      · rw [a4]
        show t1.win.toConWindowBase.mCursor = _
        rw [hb]; exact hf.2.2.2.1
      · rw [a5]
        show t1.win.toConWindowBase.mbFocus = _
        rw [hb]; exact hf.2.1
      · intro j
        rw [a6 j, hcur, hb, hg 0 (j : Int)]
        by_cases hjl : j ∈ l
        · rw [if_pos hjl, if_pos (List.mem_cons_of_mem _ hjl)]
        · rw [if_neg hjl]
          by_cases hji : j = i
          · rw [if_pos ⟨rfl, by rw [hji]⟩, if_pos (by rw [hji]; exact List.mem_cons_self _ _), hji]
          · have hn : ¬ ((0 : Int) = 0 ∧ (j : Int) = (i : Int)) := by
              intro hc; exact hji (by exact_mod_cast hc.2)
            have hm : j ∉ i :: l := by
              intro hc
              cases List.mem_cons.mp hc with
              | inl h => exact hji h
              | inr h => exact hjl h
            rw [if_neg hn, if_neg hm]


/-- The display row after `UpdateInputLine`: the trailing `w` code units of
the edit buffer, then blanks; nothing else of the window changes. -/
theorem UpdateInputLine_row (ctx : OwnerCtx) (s : Run ConLineInputWindow)
    (hsz : s.win.toConWindowBase.sizeOk) (hw : 0 ≤ s.win.mPos.w) (hh : 1 ≤ s.win.mPos.h) :
    (ConLineInputWindow.UpdateInputLine ctx s).win.mPos = s.win.mPos ∧
      (ConLineInputWindow.UpdateInputLine ctx s).win.toConWindowBase.sizeOk ∧
      (ConLineInputWindow.UpdateInputLine ctx s).win.mCursor = s.win.mCursor ∧
      (ConLineInputWindow.UpdateInputLine ctx s).win.mbFocus = s.win.mbFocus ∧
      ∀ j : Nat, (j : Int) < s.win.mPos.w →
        ConWindowBase.GetChar (ConLineInputWindow.UpdateInputLine ctx s).win.toConWindowBase
            0 (j : Int)
          = if (j : Int) < min (s.win.mCurrentInput.length : Int) s.win.mPos.w then
              s.win.mCurrentInput.getD
                ((s.win.mCurrentInput.length : Int)
                  - min (s.win.mCurrentInput.length : Int) s.win.mPos.w + (j : Int)).toNat 0
            else blank := by
  unfold ConLineInputWindow.UpdateInputLine
  dsimp only []
  generalize hstart : (if (s.win.mCurrentInput.length : Int) > s.win.mPos.w then
      (s.win.mCurrentInput.length : Int) - s.win.mPos.w else 0) = start
  generalize hlen : (if (s.win.mCurrentInput.length : Int) > s.win.mPos.w then
      s.win.mPos.w else (s.win.mCurrentInput.length : Int)) = len
  have hlen0 : 0 ≤ len := by rw [← hlen]; split_ifs <;> omega
  have hlenw : len ≤ s.win.mPos.w := by rw [← hlen]; split_ifs <;> omega
  have hmin : min (s.win.mCurrentInput.length : Int) s.win.mPos.w = len := by
    rw [← hlen]; split_ifs <;> omega
  have hst : (s.win.mCurrentInput.length : Int) - len = start := by
    rw [← hlen, ← hstart]; split_ifs <;> omega
  rw [hmin, hst]
  obtain ⟨a1, a2, a3, a4, a5, a6⟩ := rowFold ctx
    (fun cur i => cur.getD (start + (i : Int)).toNat 0) (List.range len.toNat) s hsz hh
    (fun i hi => by have := List.mem_range.mp hi; omega)
  generalize (List.range len.toNat).foldl
    (fun u (i : Nat) => ConLineInputWindow.onBase
      (fun b => ConWindowBase.SetChar ctx b 0 (i : Int)
        (u.win.mCurrentInput.getD (start + (i : Int)).toNat 0)) u) s = s1 at a1 a2 a3 a4 a5 a6
  obtain ⟨b1, b2, _, b4, b5, b6⟩ := rowFold ctx (fun _ _ => blank)
    (List.range' len.toNat (s.win.mPos.w.toNat - len.toNat)) s1 a2 (by rw [a1]; exact hh)
    (fun i hi => by rw [a1]; have := List.mem_range'_1.mp hi; omega)
  refine ⟨b1.trans a1, b2, b4.trans a4, b5.trans a5, ?_⟩
  intro j hj
  rw [b6 j, a6 j]
  by_cases hjn : (j : Int) < len
  · have h1 : j ∉ List.range' len.toNat (s.win.mPos.w.toNat - len.toNat) := by
      intro hc; have := List.mem_range'_1.mp hc; omega
    have h2 : j ∈ List.range len.toNat := List.mem_range.mpr (by omega)
    rw [if_neg h1, if_pos h2, if_pos hjn]
  · have h1 : j ∈ List.range' len.toNat (s.win.mPos.w.toNat - len.toNat) :=
      List.mem_range'_1.mpr (by omega)
    rw [if_pos h1, if_neg hjn]

/-- C15: for a line input window of width `w >= 0` and height `h >= 1` (with
the buffer the constructor allocates), after `HandleKey` with any key code,
`L` being the length of the resulting edit buffer and `n = min(L, w)`: column
`i < n` of row 0 holds the edit buffer's code unit at index `L - n + i`,
column `n <= i < w` holds a blank, and the window cursor is at row 0, column
`n`. -/
theorem C15_line_input_display (ctx : OwnerCtx) (s : Run ConLineInputWindow) (keyCode : Int)
    (hsz : s.win.toConWindowBase.sizeOk) (hw : 0 ≤ s.win.mPos.w) (hh : 1 ≤ s.win.mPos.h) :
    (∀ i : Nat, (i : Int) < min
          ((ConLineInputWindow.HandleKey ctx s keyCode).win.mCurrentInput.length : Int)
          s.win.mPos.w →
        ConWindowBase.GetChar (ConLineInputWindow.HandleKey ctx s keyCode).win.toConWindowBase
            0 (i : Int)
          = (ConLineInputWindow.HandleKey ctx s keyCode).win.mCurrentInput.getD
              (((ConLineInputWindow.HandleKey ctx s keyCode).win.mCurrentInput.length : Int)
                - min ((ConLineInputWindow.HandleKey ctx s keyCode).win.mCurrentInput.length : Int)
                    s.win.mPos.w + (i : Int)).toNat 0) ∧
      (∀ i : Nat, min ((ConLineInputWindow.HandleKey ctx s keyCode).win.mCurrentInput.length : Int)
          s.win.mPos.w ≤ (i : Int) → (i : Int) < s.win.mPos.w →
        ConWindowBase.GetChar (ConLineInputWindow.HandleKey ctx s keyCode).win.toConWindowBase
            0 (i : Int) = blank) ∧
      (ConLineInputWindow.HandleKey ctx s keyCode).win.mCursor
        = ⟨min ((ConLineInputWindow.HandleKey ctx s keyCode).win.mCurrentInput.length : Int)
            s.win.mPos.w, 0⟩ ∧
      (ConLineInputWindow.HandleKey ctx s keyCode).win.mPos = s.win.mPos := by
  have hcur := (HandleKey_edit ctx s keyCode).1
  rw [hcur]
  have hpos0 : (ConLineInputWindow.editKey s.win keyCode).mPos = s.win.mPos := by
    unfold ConLineInputWindow.editKey
    split_ifs <;> rfl
  have hbase0 : (ConLineInputWindow.editKey s.win keyCode).toConWindowBase
      = s.win.toConWindowBase := by
    unfold ConLineInputWindow.editKey
    split_ifs <;> rfl
  obtain ⟨u1, u2, _, _, u5⟩ := UpdateInputLine_row ctx
    { s with win := ConLineInputWindow.editKey s.win keyCode }
    (by show (ConLineInputWindow.editKey s.win keyCode).toConWindowBase.sizeOk
        rw [hbase0]; exact hsz)
    (by show 0 ≤ (ConLineInputWindow.editKey s.win keyCode).mPos.w
        rw [hpos0]; exact hw)
    (by show 1 ≤ (ConLineInputWindow.editKey s.win keyCode).mPos.h
        rw [hpos0]; exact hh)
  have ucur := (UpdateInputLine_edit ctx
    { s with win := ConLineInputWindow.editKey s.win keyCode }).1
  have u1 : (ConLineInputWindow.UpdateInputLine ctx
      { s with win := ConLineInputWindow.editKey s.win keyCode }).win.mPos = s.win.mPos :=
    u1.trans hpos0
  have u5 : ∀ j : Nat, (j : Int) < s.win.mPos.w →
      ConWindowBase.GetChar (ConLineInputWindow.UpdateInputLine ctx
          { s with win := ConLineInputWindow.editKey s.win keyCode }).win.toConWindowBase 0 (j : Int)
        = if (j : Int) < min ((ConLineInputWindow.editKey s.win keyCode).mCurrentInput.length : Int)
              s.win.mPos.w then
            (ConLineInputWindow.editKey s.win keyCode).mCurrentInput.getD
              (((ConLineInputWindow.editKey s.win keyCode).mCurrentInput.length : Int)
                - min ((ConLineInputWindow.editKey s.win keyCode).mCurrentInput.length : Int)
                    s.win.mPos.w + (j : Int)).toNat 0
          else blank := by
    intro j hj
    have := u5 j (by show (j : Int) < (ConLineInputWindow.editKey s.win keyCode).mPos.w
                     rw [hpos0]; exact hj)
    rw [this]
    show (if (j : Int) < min _ (ConLineInputWindow.editKey s.win keyCode).mPos.w then _ else _) = _
    rw [hpos0]
  unfold ConLineInputWindow.HandleKey ConLineInputWindow.ResetCursor
  dsimp only []
  generalize hq : ConLineInputWindow.UpdateInputLine ctx
    { s with win := ConLineInputWindow.editKey s.win keyCode } = q at u1 u2 u5 ucur
  have ucur : q.win.mCurrentInput = (ConLineInputWindow.editKey s.win keyCode).mCurrentInput :=
    ucur
  generalize (ConLineInputWindow.editKey s.win keyCode).mCurrentInput = cur at u5 ucur ⊢
  have hlen : (if (q.win.mCurrentInput.length : Int) > q.win.mPos.w then q.win.mPos.w
      else (q.win.mCurrentInput.length : Int)) = min (cur.length : Int) s.win.mPos.w := by
    rw [u1, ucur]; split_ifs <;> omega
  rw [hlen]
  have hsc := SetCursor_frame ctx ⟨q.win.toConWindowBase, q.screen⟩ 0
    (min (cur.length : Int) s.win.mPos.w)
  have hcursor : (ConWindowBase.SetCursor ctx ⟨q.win.toConWindowBase, q.screen⟩ 0
      (min (cur.length : Int) s.win.mPos.w)).win.mCursor
        = ⟨min (cur.length : Int) s.win.mPos.w, 0⟩ := by
    have hr : ¬ ((0 : Int) < 0 ∨ (0 : Int) ≥ q.win.mPos.h ∨
        min (cur.length : Int) s.win.mPos.w < 0 ∨
        min (cur.length : Int) s.win.mPos.w > q.win.mPos.w) := by
      rw [u1]; omega
    unfold ConWindowBase.SetCursor
    rw [if_neg hr]
    dsimp only []
    split_ifs <;> rfl
  have hget : ∀ k : Int, ConWindowBase.GetChar (ConWindowBase.SetCursor ctx
      ⟨q.win.toConWindowBase, q.screen⟩ 0 (min (cur.length : Int) s.win.mPos.w)).win 0 k
        = ConWindowBase.GetChar q.win.toConWindowBase 0 k := by
    intro k
    unfold ConWindowBase.GetChar
    rw [hsc.1, hsc.2.2.2.1]
  refine ⟨?_, ?_, hcursor, hsc.1.trans u1⟩
  · intro i hi
    show ConWindowBase.GetChar (ConWindowBase.SetCursor ctx
      ⟨q.win.toConWindowBase, q.screen⟩ 0 (min (cur.length : Int) s.win.mPos.w)).win 0 (i : Int) = _
    rw [hget, u5 i (by omega), if_pos hi]
  · intro i hi hiw
    show ConWindowBase.GetChar (ConWindowBase.SetCursor ctx
      ⟨q.win.toConWindowBase, q.screen⟩ 0 (min (cur.length : Int) s.win.mPos.w)).win 0 (i : Int) = _
    rw [hget, u5 i hiw, if_neg (by omega)]


/-- C15 on an 8x1 window whose edit buffer holds `12345678`, for the key `9`:
the row shows `23456789` and the cursor is at column 8. -/
theorem C15_line_input_display_witness :
    ConWindowBase.GetChar (ConLineInputWindow.HandleKey demoCtx
        ⟨{ demoLineWindow with mCurrentInput := cstr "12345678" }, []⟩ 57).win.toConWindowBase 0 0
        = 50 ∧
      (ConLineInputWindow.HandleKey demoCtx
        ⟨{ demoLineWindow with mCurrentInput := cstr "12345678" }, []⟩ 57).win.mCursor = ⟨8, 0⟩ :=
  have h := C15_line_input_display demoCtx
    ⟨{ demoLineWindow with mCurrentInput := cstr "12345678" }, []⟩ 57
    (by decide) (by decide) (by decide)
  ⟨(h.1 0 (by decide)).trans (by decide), h.2.2.1.trans (by decide)⟩


/-! ## Claim C18: a whitespace run that passes the line length -/

/-- C18 as stated fails: on a 3 x 2 window with `ab` written (output column
2), `Write_WordWrap_Line` of two blanks and `c` finds `2 + 2 > 3`, writes
nothing (surface log and window are unchanged) and returns the remainder `c`:
the run of blanks has been skipped, the remainder does not begin with it. -/
theorem C18_counterexample :
    (ConScrollingTextWindow.Write demoCtx (freshText 0 ⟨0, 0, 3, 2⟩) (cstr "ab")).win.mOutputLoc.x
        + 2 > 3 ∧
      (ConScrollingTextWindow.Write_WordWrap_Line demoCtx
          (ConScrollingTextWindow.Write demoCtx (freshText 0 ⟨0, 0, 3, 2⟩) (cstr "ab"))
          (cstr "  c") 0).map (fun r => (r.2, r.1.screen, r.1.win))
        = some (some (cstr "c"),
            (ConScrollingTextWindow.Write demoCtx (freshText 0 ⟨0, 0, 3, 2⟩) (cstr "ab")).screen,
            (ConScrollingTextWindow.Write demoCtx (freshText 0 ⟨0, 0, 3, 2⟩) (cstr "ab")).win) ∧
      ¬ ∃ r rest, ConScrollingTextWindow.Write_WordWrap_Line demoCtx
          (ConScrollingTextWindow.Write demoCtx (freshText 0 ⟨0, 0, 3, 2⟩) (cstr "ab"))
          (cstr "  c") 0 = some (r, some (cstr "  " ++ rest)) := by
  have h : (ConScrollingTextWindow.Write_WordWrap_Line demoCtx
      (ConScrollingTextWindow.Write demoCtx (freshText 0 ⟨0, 0, 3, 2⟩) (cstr "ab"))
      (cstr "  c") 0).map (fun r => r.2) = some (some (cstr "c")) := by decide
  refine ⟨by decide, by decide, ?_⟩
  rintro ⟨r, rest, hr⟩
  have e1 : cstr "  " = [32, 32] := by decide
  have e2 : cstr "c" = [99] := by decide
  rw [hr, e1, e2] at h
  simp at h

/-- C18, amended: for every window state with output column `x`, every line
length argument (0 standing for the window width) and every text that begins
with a run `u` of `k >= 1` whitespace characters without a newline, followed
by `v` that is empty or begins with a non-whitespace character: if `x + k`
exceeds the line length, `Write_WordWrap_Line` writes nothing (it returns the
state it was given, window and surface log) and the remainder it returns is
`v`, the text after the whitespace run: the run has been skipped. -/
theorem C18_whitespace_overflow_skips_run (ctx : OwnerCtx) (s : Run ConScrollingTextWindow)
    (lineLen : Int) (u v : List Int) (hk : 1 ≤ u.length)
    (hu : ∀ c ∈ u, isspace c = true ∧ c ≠ 10) (hv : ∀ c ∈ v.head?, isspace c = false)
    (hover : s.win.mOutputLoc.x + (u.length : Int)
      > (if lineLen = 0 then s.win.mPos.w else lineLen)) :
    ConScrollingTextWindow.Write_WordWrap_Line ctx s (u ++ v) lineLen = some (s, some v) := by
  obtain ⟨g, rest, e, hg, hrest⟩ := split_word v
  have hne : u ++ g ≠ [] := by
    intro hc
    have : (u ++ g).length = 0 := by rw [hc]; rfl
    rw [List.length_append] at this
    omega
  have hmax : g ≠ [] ∨ rest = [] := by
    cases g with
    | cons a g2 => exact Or.inl (by simp)
    | nil =>
        right
        rw [List.nil_append] at e
        cases rest with
        | nil => rfl
        | cons a r2 =>
            have h1 := hrest a (by simp)
            have h2 := hv a (by rw [e]; simp)
            rw [h1] at h2
            cases h2
  have hl := Line_chunk ctx s lineLen u g rest hu hg hrest hne hmax
  rw [if_pos hover, List.append_assoc, ← e] at hl
  exact hl

/-- C18, amended, at the input of the counterexample. -/
theorem C18_whitespace_overflow_skips_run_witness :
    ConScrollingTextWindow.Write_WordWrap_Line demoCtx
        (ConScrollingTextWindow.Write demoCtx (freshText 0 ⟨0, 0, 3, 2⟩) (cstr "ab"))
        (cstr "  " ++ cstr "c") 0
      = some (ConScrollingTextWindow.Write demoCtx (freshText 0 ⟨0, 0, 3, 2⟩) (cstr "ab"),
          some (cstr "c")) :=
  C18_whitespace_overflow_skips_run demoCtx
    (ConScrollingTextWindow.Write demoCtx (freshText 0 ⟨0, 0, 3, 2⟩) (cstr "ab")) 0
    (cstr "  ") (cstr "c") (by decide) (by decide) (by decide) (by decide)


/-! ## Claim C20: `Write_WordWrap` terminates -/

/-- For any line length argument `Write_WordWrap_Line` returns; the window is a
later state of the same window, an output position inside the window stays
inside, the remainder is never longer than the text, and it is strictly
shorter when the effective line length is not negative and the call starts at
column 0. -/
theorem Line_general (ctx : OwnerCtx) (lineLen : Int) (n : Nat) :
    ∀ (t : List Int) (s : Run ConScrollingTextWindow), t.length ≤ n →
      ∃ s2 r, ConScrollingTextWindow.Write_WordWrap_Line ctx s t lineLen = some (s2, r) ∧
        laterState s s2 ∧ (s.win.outputOk → s2.win.outputOk) ∧
        ∀ t2, r = some t2 → t2.length ≤ t.length ∧
          (0 ≤ (if lineLen = 0 then s.win.mPos.w else lineLen) → s.win.mOutputLoc.x = 0 →
            t2.length < t.length) := by
  induction n with
  | zero =>
      intro t s hn
      have ht : t = [] := List.length_eq_zero.mp (Nat.le_zero.mp hn)
      subst ht
      exact ⟨s, none, Line_nil ctx s lineLen, laterState_refl s, id, by intro t2 h; cases h⟩
  | succ n ih =>
      intro t s hn
      rcases text_shape t with ht | ⟨u, v, e, hu⟩ | ⟨u, g, rest, e, hu, hg, hrest, hne, hmax⟩
      · subst ht
        exact ⟨s, none, Line_nil ctx s lineLen, laterState_refl s, id, by intro t2 h; cases h⟩
      · subst e
        refine ⟨s, some v, Line_newline ctx s lineLen u v hu, laterState_refl s, id, ?_⟩
        intro t2 h
        cases h
        simp only [List.length_append, List.length_cons]
        omega
      · subst e
        have hpos : 0 < (u ++ g).length := List.length_pos.mpr hne
        have hl : (u ++ g ++ rest).length = u.length + g.length + rest.length := by
          simp only [List.length_append]
        have hl2 : (u ++ g).length = u.length + g.length := List.length_append _ _
        have hl3 : (g ++ rest).length = g.length + rest.length := List.length_append _ _
        rw [Line_chunk ctx s lineLen u g rest hu hg hrest hne hmax]
        generalize (if lineLen = 0 then s.win.mPos.w else lineLen) = L
        by_cases h1 : s.win.mOutputLoc.x + (u.length : Int) > L
        · rw [if_pos h1]
          refine ⟨s, some (g ++ rest), rfl, laterState_refl s, id, ?_⟩
          intro t2 h
          cases h
          refine ⟨by omega, ?_⟩
          intro hL hx
          rw [hx] at h1
          omega
        · rw [if_neg h1]
          by_cases h2 : (g.length : Int) < L ∧
              s.win.mOutputLoc.x + ((g.length : Int) + (u.length : Int)) > L
          · rw [if_pos h2]
            refine ⟨s, some (g ++ rest), rfl, laterState_refl s, id, ?_⟩
            intro t2 h
            cases h
            refine ⟨by omega, ?_⟩
            intro hL hx
            rw [hx] at h2
            omega
          · rw [if_neg h2]
            obtain ⟨s3, r, he, hl3s, hok3, hprog⟩ :=
              ih rest (ConScrollingTextWindow.Write ctx s (u ++ g)) (by omega)
            refine ⟨s3, r, he, laterState_trans (Write_later ctx (u ++ g) s) hl3s,
              fun hok => hok3 (Write_ok ctx (u ++ g) s hok).1, ?_⟩
            intro t2 h
            have := (hprog t2 h).1
            exact ⟨by omega, fun _ _ => by omega⟩

/-- The state after the newline `Write_WordWrap` writes before each further
line: same region, column 0. -/
theorem newline_col0 (ctx : OwnerCtx) (s : Run ConScrollingTextWindow) :
    (ConScrollingTextWindow.WriteCharInternal ctx s 10).win.mPos = s.win.mPos ∧
      (ConScrollingTextWindow.WriteCharInternal ctx s 10).win.mOutputLoc.x = 0 := by
  rw [WCI_newline]
  obtain ⟨hp, _, hloc, _⟩ := lineFeed_spec ctx s
  exact ⟨hp, by rw [hloc]⟩

/-- For a line length that is not negative the loop of `Write_WordWrap` ends
within `text.length + 1` iterations, each of which writes one newline. -/
theorem wrapLoop_terminates (ctx : OwnerCtx) (lineLen : Int) (hL : 0 ≤ lineLen) (k : Nat) :
    ∀ (t : List Int) (s : Run ConScrollingTextWindow) (n : Int) (fuel : Nat),
      t.length ≤ k → (lineLen = 0 → 0 ≤ s.win.mPos.w) → t.length + 1 ≤ fuel →
      ∃ r cnt, ConScrollingTextWindow.wrapLoop ctx lineLen fuel s (some t) n = some (r, cnt) ∧
        laterState s r ∧ n + 1 ≤ cnt ∧ cnt ≤ n + (t.length : Int) + 1 := by
  induction k using Nat.strong_induction_on with
  | _ k ih =>
      intro t s n fuel hk hw hfuel
      obtain ⟨f, hf⟩ : ∃ f, fuel = f + 1 := ⟨fuel - 1, by omega⟩
      subst hf
      rw [wrapLoop_some]
      obtain ⟨hp1, hx1⟩ := newline_col0 ctx s
      have hl1 := WCI_later ctx s 10
      obtain ⟨s2, r, he, hl2, _, hprog⟩ := Line_general ctx lineLen t.length t
        (ConScrollingTextWindow.WriteCharInternal ctx s 10) (le_refl _)
      have hL1 : 0 ≤ (if lineLen = 0 then
          (ConScrollingTextWindow.WriteCharInternal ctx s 10).win.mPos.w else lineLen) := by
        rw [hp1]
        split_ifs with h0
        · exact hw h0
        · exact hL
      rw [wrapFrom_of_line ctx _ s2 t r lineLen (n + 1) f he]
      cases r with
      | none =>
          rw [wrapLoop_none]
          exact ⟨s2, n + 1, rfl, laterState_trans hl1 hl2, le_refl _, by omega⟩
      | some t2 =>
          have hlt := (hprog t2 rfl).2 hL1 hx1
          obtain ⟨r, cnt, hr, hlr, hc1, hc2⟩ :=
            ih t2.length (by omega) t2 s2 (n + 1) f (le_refl _)
              (by rw [hl2.1, hp1]; exact hw) (by omega)
          exact ⟨r, cnt, hr, laterState_trans (laterState_trans hl1 hl2) hlr, by omega, by omega⟩

/-- C20: for every line length `lineLen >= 0` (when `lineLen = 0` stands for
the window width, a width that is not negative), every window state, whatever
its output position, and every text: `Write_WordWrap` returns, within
`text.length + 1` iterations of its loop, having written between 0 and
`text.length + 1` newlines. Every call of `Write_WordWrap_Line` on the window
returns, with a remainder that is never longer than its text and strictly
shorter when the call starts at column 0; so when a call returns a remainder,
the call that follows the inserted newline returns a strictly shorter one,
also when the first call consumed nothing. -/
theorem C20_word_wrap_terminates (ctx : OwnerCtx) (s : Run ConScrollingTextWindow)
    (text : List Int) (lineLen : Int) (hL : 0 ≤ lineLen)
    (hw : lineLen = 0 → 0 ≤ s.win.mPos.w) :
    (∀ fuel : Nat, text.length + 1 ≤ fuel →
        ∃ r n, ConScrollingTextWindow.Write_WordWrap ctx s text lineLen fuel = some (r, n) ∧
          0 ≤ n ∧ n ≤ (text.length : Int) + 1) ∧
      (∀ (q : Run ConScrollingTextWindow) (t : List Int), q.win.mPos = s.win.mPos →
        ∃ q2 r, ConScrollingTextWindow.Write_WordWrap_Line ctx q t lineLen = some (q2, r) ∧
          q2.win.mPos = s.win.mPos ∧
          ∀ t2, r = some t2 → t2.length ≤ t.length ∧
            (q.win.mOutputLoc.x = 0 → t2.length < t.length)) ∧
      (∀ (q q2 : Run ConScrollingTextWindow) (t t2 : List Int), q.win.mPos = s.win.mPos →
        ConScrollingTextWindow.Write_WordWrap_Line ctx q t lineLen = some (q2, some t2) →
        ∃ q3 r3, ConScrollingTextWindow.Write_WordWrap_Line ctx
            (ConScrollingTextWindow.WriteCharInternal ctx q2 10) t2 lineLen = some (q3, r3) ∧
          ∀ t3, r3 = some t3 → t3.length < t2.length ∧ t3.length < t.length) := by
  have hline : ∀ (q : Run ConScrollingTextWindow) (t : List Int), q.win.mPos = s.win.mPos →
      ∃ q2 r, ConScrollingTextWindow.Write_WordWrap_Line ctx q t lineLen = some (q2, r) ∧
        q2.win.mPos = s.win.mPos ∧
        ∀ t2, r = some t2 → t2.length ≤ t.length ∧
          (q.win.mOutputLoc.x = 0 → t2.length < t.length) := by
    intro q t hq
    obtain ⟨q2, r, he, hl, _, hprog⟩ := Line_general ctx lineLen t.length t q (le_refl _)
    refine ⟨q2, r, he, hl.1.trans hq, ?_⟩
    intro t2 h2
    refine ⟨(hprog t2 h2).1, (hprog t2 h2).2 ?_⟩
    rw [hq]
    split_ifs with h0
    · exact hw h0
    · exact hL
  refine ⟨?_, hline, ?_⟩
  · intro fuel hfuel
    rw [Write_WordWrap_eq]
    obtain ⟨s2, r, he, hp2, hprog⟩ := hline s text rfl
    rw [wrapFrom_of_line ctx s s2 text r lineLen 0 fuel he]
    cases r with
    | none =>
        rw [wrapLoop_none]
        exact ⟨s2, 0, rfl, le_refl _, by omega⟩
    | some t2 =>
        have hle := (hprog t2 rfl).1
        obtain ⟨r, cnt, hr, _, hc1, hc2⟩ := wrapLoop_terminates ctx lineLen hL t2.length t2 s2 0
          fuel (le_refl _) (by rw [hp2]; exact hw) (by omega)
        exact ⟨r, cnt, hr, by omega, by omega⟩
  · intro q q2 t t2 hq he
    obtain ⟨q2b, r, he2, hp2, hprog⟩ := hline q t hq
    rw [he] at he2
    simp only [Option.some.injEq, Prod.mk.injEq] at he2
    obtain ⟨hq2, hr⟩ := he2
    subst hq2
    obtain ⟨hp1, hx1⟩ := newline_col0 ctx q2
    obtain ⟨q3, r3, he3, _, hprog3⟩ := hline (ConScrollingTextWindow.WriteCharInternal ctx q2 10)
      t2 (hp1.trans hp2)
    refine ⟨q3, r3, he3, ?_⟩
    intro t3 h3
    have h1 := (hprog3 t3 h3).2 hx1
    have h2 := (hprog t2 hr.symm).1
    exact ⟨h1, by omega⟩

/-- C20 on a fresh 3 x 2 window for a text with a word longer than the line. -/
theorem C20_word_wrap_terminates_witness :
    ∃ r n, ConScrollingTextWindow.Write_WordWrap demoCtx (freshText 0 ⟨0, 0, 3, 2⟩)
        (cstr "ab  abcdef g") 0 13 = some (r, n) ∧ 0 ≤ n ∧ n ≤ 12 + 1 :=
  (C20_word_wrap_terminates demoCtx (freshText 0 ⟨0, 0, 3, 2⟩) (cstr "ab  abcdef g") 0
    (by decide) (by decide)).1 13 (by decide)


/-! ## Claim C19: the output position stays inside the window -/

theorem clearFold_later (ctx : OwnerCtx) (cells : List (Int × Int)) :
    ∀ t : Run ConScrollingTextWindow,
      laterState t (cells.foldl (fun u yx => ConScrollingTextWindow.onBase
        (fun b => ConWindowBase.SetChar ctx b yx.1 yx.2 blank) u) t) := by
  induction cells with
  | nil => intro t; exact laterState_refl t
  | cons yx l ih =>
      intro t
      rw [List.foldl_cons]
      refine laterState_trans ?_ (ih _)
      have hf := SetChar_frame ctx ⟨t.win.toConWindowBase, t.screen⟩ yx.1 yx.2 blank
      have hs := SetChar_screen ctx ⟨t.win.toConWindowBase, t.screen⟩ yx.1 yx.2 blank
      exact ⟨hf.1, hs⟩

/-- After `Clear` the output position is the top-left cell. -/
theorem Clear_ok (ctx : OwnerCtx) (s : Run ConScrollingTextWindow) :
    laterState s (ConScrollingTextWindow.Clear ctx s) ∧
      (ConScrollingTextWindow.Clear ctx s).win.mOutputLoc = ⟨0, 0⟩ := by
  unfold ConScrollingTextWindow.Clear
  dsimp only []
  have h1 := clearFold_later ctx (cellsRowMajor s.win.mPos.w s.win.mPos.h) s
  generalize (cellsRowMajor s.win.mPos.w s.win.mPos.h).foldl (fun u yx =>
    ConScrollingTextWindow.onBase (fun b => ConWindowBase.SetChar ctx b yx.1 yx.2 blank) u) s
    = s1 at h1
  have hc := SetCursor_frame ctx ⟨s1.win.toConWindowBase, s1.screen⟩ 0 0
  obtain ⟨ops, hops, _⟩ := hc.2.2.2.2
  refine ⟨laterState_trans h1 ⟨hc.1, ops, hops⟩, rfl⟩

/-- When the loop of `Write_WordWrap` returns, an output position inside the
window is still inside, for any line length. -/
theorem wrapLoop_ok (ctx : OwnerCtx) (lineLen : Int) (fuel : Nat) :
    ∀ (s res : Run ConScrollingTextWindow) (r : Option (List Int)) (n cnt : Int),
      ConScrollingTextWindow.wrapLoop ctx lineLen fuel s r n = some (res, cnt) →
      s.win.outputOk → res.win.outputOk ∧ laterState s res := by
  induction fuel with
  | zero =>
      intro s res r n cnt h hok
      cases r with
      | none =>
          rw [wrapLoop_none] at h
          cases h
          exact ⟨hok, laterState_refl _⟩
      | some t => simp [ConScrollingTextWindow.wrapLoop] at h
  | succ f ih =>
      intro s res r n cnt h hok
      cases r with
      | none =>
          rw [wrapLoop_none] at h
          cases h
          exact ⟨hok, laterState_refl _⟩
      | some t =>
          rw [wrapLoop_some] at h
          obtain ⟨hok1, hl1, _⟩ := newline_ok ctx s hok
          obtain ⟨s2, r2, he, hl2, hok2, _⟩ := Line_general ctx lineLen t.length t
            (ConScrollingTextWindow.WriteCharInternal ctx s 10) (le_refl _)
          rw [wrapFrom_of_line ctx _ s2 t r2 lineLen (n + 1) f he] at h
          obtain ⟨h3, h4⟩ := ih s2 res r2 (n + 1) cnt h (hok2 hok1)
          exact ⟨h3, laterState_trans (laterState_trans hl1 hl2) h4⟩

/-- Every call of a writing method keeps the output position inside the window. -/
theorem TextStep_ok {s t : Run ConScrollingTextWindow} (h : TextStep s t)
    (hok : s.win.outputOk) : t.win.outputOk ∧ laterState s t := by
  cases h with
  | write ctx _ text => exact Write_ok ctx text s hok
  | wordWrap ctx _ _ text lineLen fuel n h =>
      rw [Write_WordWrap_eq] at h
      obtain ⟨s2, r2, he, hl2, hok2, _⟩ := Line_general ctx lineLen text.length text s (le_refl _)
      rw [wrapFrom_of_line ctx s s2 text r2 lineLen 0 fuel he] at h
      obtain ⟨h3, h4⟩ := wrapLoop_ok ctx lineLen fuel s2 t r2 0 n h (hok2 hok)
      exact ⟨h3, laterState_trans hl2 h4⟩
  | wordWrapLine ctx _ _ text lineLen rest h =>
      obtain ⟨s2, r2, he, hl2, hok2, _⟩ := Line_general ctx lineLen text.length text s (le_refl _)
      rw [h] at he
      simp only [Option.some.injEq, Prod.mk.injEq] at he
      rw [he.1]
      exact ⟨hok2 hok, hl2⟩
  | clear ctx _ =>
      obtain ⟨hl, hloc⟩ := Clear_ok ctx s
      refine ⟨?_, hl⟩
      unfold ConScrollingTextWindow.outputOk at hok ⊢
      rw [hl.1, hloc]
      exact ⟨hok.1, hok.2.1, le_refl _, le_of_lt hok.1, le_refl _, hok.2.1⟩

theorem TextReachable_ok (owner : Nat) (px py w h : Int) (hw : 0 < w) (hh : 0 < h)
    (s : Run ConScrollingTextWindow) (hr : TextReachable owner ⟨px, py, w, h⟩ s) :
    s.win.outputOk ∧ s.win.mPos = ⟨px, py, w, h⟩ := by
  induction hr with
  | fresh =>
      have hf := freshText_facts owner px py w h hw hh
      exact ⟨hf.1, hf.2.2.1⟩
  | step _ hstep ih =>
      obtain ⟨h1, h2⟩ := TextStep_ok hstep ih.1
      exact ⟨h1, h2.1.trans ih.2⟩

/-- With the output position inside the window, a printable character is
stored by a `SetChar` whose range test passes: exactly one cell write goes to
the surface, for the cell at the output position (after the line feed when
the column was parked one past the last column), and that cell is inside the
window. -/
theorem WCI_printable_in_range (ctx : OwnerCtx) (s : Run ConScrollingTextWindow) (c : Int)
    (hp : isprint c = true) (hok : s.win.outputOk) :
    ∃ row col : Int, 0 ≤ row ∧ row < s.win.mPos.h ∧ 0 ≤ col ∧ col < s.win.mPos.w ∧
      (if s.win.mOutputLoc.x = s.win.mPos.w then ConScrollingTextWindow.lineFeed ctx s
        else s).win.mOutputLoc = ⟨col, row⟩ ∧
      cellWrites (ConScrollingTextWindow.WriteCharInternal ctx s c).screen
        = cellWrites s.screen ++ [cellWrite ctx s.win.mPos row col (toWchar c)] ∧
      (ConScrollingTextWindow.WriteCharInternal ctx s c).win.mOutputLoc = ⟨col + 1, row⟩ := by
  rw [WCI_printable ctx s c hp]
  have key : ∀ t : Run ConScrollingTextWindow, t.win.outputOk → t.win.mPos = s.win.mPos →
      cellWrites t.screen = cellWrites s.screen → t.win.mOutputLoc.x < t.win.mPos.w →
      ∃ row col : Int, 0 ≤ row ∧ row < s.win.mPos.h ∧ 0 ≤ col ∧ col < s.win.mPos.w ∧
        t.win.mOutputLoc = ⟨col, row⟩ ∧
        cellWrites (ConScrollingTextWindow.putChar ctx t c).screen
          = cellWrites s.screen ++ [cellWrite ctx s.win.mPos row col (toWchar c)] ∧
        (ConScrollingTextWindow.putChar ctx t c).win.mOutputLoc = ⟨col + 1, row⟩ := by
    intro t htok hpos hcw hx
    obtain ⟨_, hloc, _, _, hcell⟩ := putChar_spec ctx t c
    unfold ConScrollingTextWindow.outputOk at htok
    refine ⟨t.win.mOutputLoc.y, t.win.mOutputLoc.x, htok.2.2.2.2.1, by rw [← hpos]; exact htok.2.2.2.2.2,
      htok.2.2.1, by rw [← hpos]; exact hx, rfl, ?_, hloc⟩
    rw [hcell htok.2.2.2.2.1 htok.2.2.2.2.2 htok.2.2.1 hx, hcw, hpos]
  by_cases hx : s.win.mOutputLoc.x = s.win.mPos.w
  · rw [if_pos hx]
    obtain ⟨hok1, _, hx1⟩ := lineFeed_ok ctx s hok
    obtain ⟨hp1, _, _, ops, hops, hcw⟩ := lineFeed_spec ctx s
    refine key _ hok1 hp1 ?_ (by rw [hx1]; exact hok1.1)
    rw [hops, cellWrites_append, hcw, List.append_nil]
  · rw [if_neg hx]
    refine key s hok rfl rfl ?_
    unfold ConScrollingTextWindow.outputOk at hok
    omega

/-- C19: for a scrolling text window with `w > 0` and `h > 0`, in every state
reached from the freshly constructed one by any sequence of `Write`,
`Write_WordWrap`, `Write_WordWrap_Line` and `Clear` calls (with any texts,
line lengths and console states): the region is the one it was constructed
for, the output position `(x, y)` has `0 <= y < h` and `0 <= x <= w`, and the
single-character writer stores every printable character with a `SetChar`
whose range test passes: the cell `(row, col)` it writes has `0 <= row < h`
and `0 <= col < w`, exactly one cell write reaches the surface, and the
output position moves to `(col + 1, row)`. -/
theorem C19_output_position_invariant (owner : Nat) (px py w h : Int) (hw : 0 < w) (hh : 0 < h)
    (s : Run ConScrollingTextWindow) (hr : TextReachable owner ⟨px, py, w, h⟩ s) :
    s.win.mPos = ⟨px, py, w, h⟩ ∧
      0 ≤ s.win.mOutputLoc.y ∧ s.win.mOutputLoc.y < h ∧
      0 ≤ s.win.mOutputLoc.x ∧ s.win.mOutputLoc.x ≤ w ∧
      ∀ (ctx : OwnerCtx) (c : Int), isprint c = true →
        ∃ row col : Int, 0 ≤ row ∧ row < h ∧ 0 ≤ col ∧ col < w ∧
          (if s.win.mOutputLoc.x = w then ConScrollingTextWindow.lineFeed ctx s
            else s).win.mOutputLoc = ⟨col, row⟩ ∧
          cellWrites (ConScrollingTextWindow.WriteCharInternal ctx s c).screen
            = cellWrites s.screen ++ [cellWrite ctx ⟨px, py, w, h⟩ row col (toWchar c)] ∧
          (ConScrollingTextWindow.WriteCharInternal ctx s c).win.mOutputLoc = ⟨col + 1, row⟩ := by
  obtain ⟨hok, hpos⟩ := TextReachable_ok owner px py w h hw hh s hr
  have hok2 := hok
  unfold ConScrollingTextWindow.outputOk at hok2
  rw [hpos] at hok2
  refine ⟨hpos, hok2.2.2.2.2.1, hok2.2.2.2.2.2, hok2.2.2.1, hok2.2.2.2.1, ?_⟩
  intro ctx c hp
  have h := WCI_printable_in_range ctx s c hp hok
  rw [hpos] at h
  exact h

/-- C19 for the 3 x 2 window after `Clear`, `Write("abcdefgh")` and a
`Write_WordWrap_Line` with line length 2. -/
theorem C19_output_position_invariant_witness :
    0 ≤ (ConScrollingTextWindow.Write demoCtx
          (ConScrollingTextWindow.Clear demoCtx (freshText 0 ⟨0, 0, 3, 2⟩))
          (cstr "abcdefgh")).win.mOutputLoc.y ∧
      (ConScrollingTextWindow.Write demoCtx
          (ConScrollingTextWindow.Clear demoCtx (freshText 0 ⟨0, 0, 3, 2⟩))
          (cstr "abcdefgh")).win.mOutputLoc.y < 2 :=
  have h := C19_output_position_invariant 0 0 0 3 2 (by decide) (by decide) _
    (TextReachable.step (TextReachable.step TextReachable.fresh (TextStep.clear demoCtx _))
      (TextStep.write demoCtx _ (cstr "abcdefgh")))
  ⟨h.2.1, h.2.2.1⟩


/-! ## Claim C17: tab expansion -/

/-- The loop of the tab branch is a `Write` of that many blanks. -/
theorem iterate_blank_eq_Write (ctx : OwnerCtx) (n : Nat) :
    ∀ s : Run ConScrollingTextWindow,
      Nat.iterate (fun u => ConScrollingTextWindow.WriteCharInternal ctx u blank) n s
        = ConScrollingTextWindow.Write ctx s (List.replicate n blank) := by
  induction n with
  | zero => intro s; rfl
  | succ n ih =>
      intro s
      rw [Function.iterate_succ_apply, List.replicate_succ, Write_cons, ih]

/-- Writing printable characters from an output position inside the window:
one cell write per character, each to a cell inside the window. -/
theorem Write_cells (ctx : OwnerCtx) (u : List Int) :
    ∀ s : Run ConScrollingTextWindow, (∀ c ∈ u, isprint c = true) → s.win.outputOk →
      ∃ cells, cellWrites (ConScrollingTextWindow.Write ctx s u).screen
          = cellWrites s.screen ++ cells ∧ cells.length = u.length ∧
        ∀ op ∈ cells, ∃ row col c, c ∈ u ∧ 0 ≤ row ∧ row < s.win.mPos.h ∧ 0 ≤ col ∧
          col < s.win.mPos.w ∧ op = cellWrite ctx s.win.mPos row col (toWchar c) := by
  induction u with
  | nil =>
      intro s _ _
      exact ⟨[], by rw [Write_nil, List.append_nil], rfl, by intro op h; cases h⟩
  | cons a t ih =>
      intro s hu hok
      rw [Write_cons]
      have ha := hu a (List.mem_cons_self a t)
      obtain ⟨row, col, h0, h1, h2, h3, _, hcw, _⟩ := WCI_printable_in_range ctx s a ha hok
      obtain ⟨hok1, hl1⟩ := WCI_ok ctx s a hok
      obtain ⟨cells, hc, hlen, hall⟩ := ih (ConScrollingTextWindow.WriteCharInternal ctx s a)
        (fun c hc => hu c (List.mem_cons_of_mem a hc)) hok1
      refine ⟨cellWrite ctx s.win.mPos row col (toWchar a) :: cells, ?_, ?_, ?_⟩
      · rw [hc, hcw, List.append_assoc]
        rfl
      · simp only [List.length_cons, hlen]
      · intro op hop
        rcases List.mem_cons.mp hop with h | h
        · exact ⟨row, col, a, List.mem_cons_self a t, h0, h1, h2, h3, h⟩
        · obtain ⟨r, k, c, hc1, hr0, hr1, hk0, hk1, he⟩ := hall op h
          rw [hl1.1] at hr1 hk1 he
          exact ⟨r, k, c, List.mem_cons_of_mem a hc1, hr0, hr1, hk0, hk1, he⟩

/-- C17 as stated fails: on a fresh 10 x 2 window with `123456789` written the
output position is column 9 of row 0; a tab then writes 3 blanks, the first in
column 9, the other two after a wrap in columns 0 and 1 of row 1, and leaves
the output position at column 2 of row 1: not a multiple of 4, and not 12, the
next multiple of 4 after column 9. -/
theorem C17_counterexample :
    (ConScrollingTextWindow.Write demoCtx (freshText 0 ⟨0, 0, 10, 2⟩)
        (cstr "123456789")).win.mOutputLoc = ⟨9, 0⟩ ∧
      (ConScrollingTextWindow.WriteCharInternal demoCtx
        (ConScrollingTextWindow.Write demoCtx (freshText 0 ⟨0, 0, 10, 2⟩) (cstr "123456789"))
        9).win.mOutputLoc = ⟨2, 1⟩ ∧
      cellWrites (ConScrollingTextWindow.WriteCharInternal demoCtx
        (ConScrollingTextWindow.Write demoCtx (freshText 0 ⟨0, 0, 10, 2⟩) (cstr "123456789"))
        9).screen
        = rowWrites demoCtx ⟨0, 0, 10, 2⟩ 0 0 (cstr "123456789") ++
            rowWrites demoCtx ⟨0, 0, 10, 2⟩ 0 9 [blank] ++
            rowWrites demoCtx ⟨0, 0, 10, 2⟩ 1 0 [blank, blank] ∧
      ¬ ((2 : Int) % 4 = 0) := by
  decide

/-- C17, amended: for a scrolling text window with `w > 0`, `h > 0` and the
output position inside it, the tab expansion starts from the output position
`(x0, y0)` reached after the wrap that a parked column (`x = w`) triggers,
otherwise the output position itself. Writing a tab is writing
`n = 4 - x0 mod 4` blanks, `1 <= n <= 4`, through the single-character
writer; each blank is one cell write to a cell inside the window; and when
the next multiple of 4 after `x0`, which is `x0 + n`, is at most `w`, the
blanks go to columns `x0 .. x0 + n - 1` of row `y0` and the output position
is left at column `x0 + n` of that row. -/
theorem C17_tab_expansion (ctx : OwnerCtx) (s : Run ConScrollingTextWindow)
    (hok : s.win.outputOk) :
    ∃ (t : Run ConScrollingTextWindow) (x0 y0 n : Int) (cells : List SurfaceOp),
      t = (if s.win.mOutputLoc.x = s.win.mPos.w then ConScrollingTextWindow.lineFeed ctx s
            else s) ∧
      t.win.mOutputLoc = ⟨x0, y0⟩ ∧
      (s.win.mOutputLoc.x = s.win.mPos.w → x0 = 0) ∧
      (s.win.mOutputLoc.x ≠ s.win.mPos.w → x0 = s.win.mOutputLoc.x ∧ y0 = s.win.mOutputLoc.y) ∧
      n = 4 - x0 % 4 ∧ 1 ≤ n ∧ n ≤ 4 ∧ (x0 + n) % 4 = 0 ∧
      ConScrollingTextWindow.WriteCharInternal ctx s 9
        = Nat.iterate (fun u => ConScrollingTextWindow.WriteCharInternal ctx u blank) n.toNat t ∧
      cellWrites (ConScrollingTextWindow.WriteCharInternal ctx s 9).screen
        = cellWrites s.screen ++ cells ∧
      (cells.length : Int) = n ∧
      (∀ op ∈ cells, ∃ row col, 0 ≤ row ∧ row < s.win.mPos.h ∧ 0 ≤ col ∧ col < s.win.mPos.w ∧
        op = cellWrite ctx s.win.mPos row col blank) ∧
      (x0 + n ≤ s.win.mPos.w →
        (ConScrollingTextWindow.WriteCharInternal ctx s 9).win.mOutputLoc = ⟨x0 + n, y0⟩ ∧
        cells = rowWrites ctx s.win.mPos y0 x0 (List.replicate n.toNat blank)) := by
  have hstart : ∃ t : Run ConScrollingTextWindow,
      t = (if s.win.mOutputLoc.x = s.win.mPos.w then ConScrollingTextWindow.lineFeed ctx s
            else s) ∧ t.win.outputOk ∧ t.win.mPos = s.win.mPos ∧
        cellWrites t.screen = cellWrites s.screen ∧
        (s.win.mOutputLoc.x = s.win.mPos.w → t.win.mOutputLoc.x = 0) ∧
        (s.win.mOutputLoc.x ≠ s.win.mPos.w → t.win.mOutputLoc = s.win.mOutputLoc) := by
    by_cases hx : s.win.mOutputLoc.x = s.win.mPos.w
    · obtain ⟨hok1, _, hx1⟩ := lineFeed_ok ctx s hok
      obtain ⟨hp1, _, _, ops, hops, hcw⟩ := lineFeed_spec ctx s
      refine ⟨_, rfl, ?_, ?_, ?_, ?_, ?_⟩
      · rw [if_pos hx]; exact hok1
      · rw [if_pos hx]; exact hp1
      · rw [if_pos hx, hops, cellWrites_append, hcw, List.append_nil]
      · intro _; rw [if_pos hx]; exact hx1
      · intro h; exact absurd hx h
    · refine ⟨_, rfl, ?_, ?_, ?_, ?_, ?_⟩
      · rw [if_neg hx]; exact hok
      · rw [if_neg hx]
      · rw [if_neg hx]
      · intro h; exact absurd h hx
      · intro _; rw [if_neg hx]
  obtain ⟨t, ht, htok, htpos, htcw, hpark, hstay⟩ := hstart
  have hx0 : 0 ≤ t.win.mOutputLoc.x := htok.2.2.1
  have hmod : Int.tmod t.win.mOutputLoc.x 4 = t.win.mOutputLoc.x % 4 :=
    Int.tmod_eq_emod hx0 (by decide)
  have hw : ConScrollingTextWindow.WriteCharInternal ctx s 9
      = Nat.iterate (fun u => ConScrollingTextWindow.WriteCharInternal ctx u blank)
          (4 - t.win.mOutputLoc.x % 4).toNat t := by
    rw [WCI_tab, ← ht, hmod]
  have hblank : ∀ c ∈ List.replicate (4 - t.win.mOutputLoc.x % 4).toNat blank,
      isprint c = true := by
    intro c hc
    rw [(List.mem_replicate.mp hc).2]
    decide
  obtain ⟨cells, hcells, hlen, hall⟩ := Write_cells ctx _ t hblank htok
  rw [List.length_replicate] at hlen
  refine ⟨t, t.win.mOutputLoc.x, t.win.mOutputLoc.y, 4 - t.win.mOutputLoc.x % 4, cells, ht, rfl,
    hpark, ?_, rfl, by omega, by omega, by omega, hw, ?_, by omega, ?_, ?_⟩
  · intro hne
    rw [hstay hne]
    exact ⟨rfl, rfl⟩
  · rw [hw, iterate_blank_eq_Write, hcells, htcw]
  · intro op hop
    obtain ⟨row, col, c, hc, h0, h1, h2, h3, he⟩ := hall op hop
    rw [(List.mem_replicate.mp hc).2, htpos] at he
    rw [htpos] at h1 h3
    exact ⟨row, col, h0, h1, h2, h3, he⟩
  · intro hfit
    have hrow := Write_row ctx (List.replicate (4 - t.win.mOutputLoc.x % 4).toNat blank) t
      hblank htok (by rw [List.length_replicate, htpos]; omega)
    rw [List.length_replicate] at hrow
    have hn : (((4 - t.win.mOutputLoc.x % 4).toNat : Nat) : Int) = 4 - t.win.mOutputLoc.x % 4 := by
      omega
    rw [hn] at hrow
    refine ⟨by rw [hw, iterate_blank_eq_Write]; exact hrow.2.1, ?_⟩
    have h2 := hrow.2.2.1
    rw [hcells, htpos] at h2
    exact List.append_cancel_left h2

/-- C17, amended, on a fresh 10 x 2 window with `12345` written: the tab
starts from column 5, writes 3 blanks and leaves the output column at 8. -/
theorem C17_tab_expansion_witness :
    ∃ (t : Run ConScrollingTextWindow) (x0 y0 n : Int) (cells : List SurfaceOp),
      t = (if (ConScrollingTextWindow.Write demoCtx (freshText 0 ⟨0, 0, 10, 2⟩)
                (cstr "12345")).win.mOutputLoc.x
              = (ConScrollingTextWindow.Write demoCtx (freshText 0 ⟨0, 0, 10, 2⟩)
                (cstr "12345")).win.mPos.w
            then ConScrollingTextWindow.lineFeed demoCtx
              (ConScrollingTextWindow.Write demoCtx (freshText 0 ⟨0, 0, 10, 2⟩) (cstr "12345"))
            else ConScrollingTextWindow.Write demoCtx (freshText 0 ⟨0, 0, 10, 2⟩)
              (cstr "12345")) ∧
      t.win.mOutputLoc = ⟨x0, y0⟩ ∧ n = 4 - x0 % 4 ∧ (cells.length : Int) = n :=
  have ⟨t, x0, y0, n, cells, h1, h2, _, _, h5, _, _, _, _, _, h11, _⟩ :=
    C17_tab_expansion demoCtx
      (ConScrollingTextWindow.Write demoCtx (freshText 0 ⟨0, 0, 10, 2⟩) (cstr "12345"))
      (by decide)
  ⟨t, x0, y0, n, cells, h1, h2, h5, h11⟩


/-! ## Claim C12: the buffer after a scroll -/

/-- A line of printable characters that fits on a row, written from column 0
of row `y` and followed by a newline: the line is stored on row `y`, every
other cell is as before, and the output position is column 0 of the next row,
or of the same row when `y` is the last row (the surface is scrolled, the
buffer is not). -/
theorem Write_line_break (ctx : OwnerCtx) (s : Run ConScrollingTextWindow) (l : List Int)
    (y : Int) (hl : ∀ c ∈ l, isprint c = true) (hok : s.win.outputOk)
    (hsz : s.win.toConWindowBase.sizeOk) (hloc : s.win.mOutputLoc = ⟨0, y⟩)
    (hfit : (l.length : Int) ≤ s.win.mPos.w) :
    (ConScrollingTextWindow.Write ctx s (l ++ [10])).win.outputOk ∧
      (ConScrollingTextWindow.Write ctx s (l ++ [10])).win.toConWindowBase.sizeOk ∧
      (ConScrollingTextWindow.Write ctx s (l ++ [10])).win.mPos = s.win.mPos ∧
      (ConScrollingTextWindow.Write ctx s (l ++ [10])).win.mOutputLoc
        = ⟨0, if y + 1 = s.win.mPos.h then y else y + 1⟩ ∧
      (∀ k, 0 ≤ k → k < (l.length : Int) →
        (ConScrollingTextWindow.Write ctx s (l ++ [10])).win.toConWindowBase.GetChar y k
          = toWchar (l.getD k.toNat 0)) ∧
      (∀ r k, (r ≠ y ∨ k < 0 ∨ (l.length : Int) ≤ k) →
        (ConScrollingTextWindow.Write ctx s (l ++ [10])).win.toConWindowBase.GetChar r k
          = s.win.toConWindowBase.GetChar r k) := by
  rw [Write_append, Write_cons, Write_nil, WCI_newline]
  obtain ⟨a1, a2, a3, a4, _, a6, a7⟩ := Write_row_at ctx l s 0 y (l.length : Int)
    (l.length : Int) hl hok hsz hloc rfl (by omega) hfit
  generalize ConScrollingTextWindow.Write ctx s l = s1 at a1 a2 a3 a4 a6 a7
  obtain ⟨hp, _, hpos, _⟩ := lineFeed_spec ctx s1
  obtain ⟨hsz2, hbuf⟩ := lineFeed_buffer ctx s1 a2
  refine ⟨(lineFeed_ok ctx s1 a1).1, hsz2, hp.trans a3, ?_, ?_, ?_⟩
  · rw [hpos, a4, a3]
  · intro k h0 h1
    rw [hbuf, a6 k h0 h1, sub_zero]
  · intro r k h
    rw [hbuf, a7 r k h]

/-- Lines written below row 0, one per row, each followed by a newline: row 0
of the buffer stays as it was, also when the last newline, written on the
last row, scrolls the surface. -/
theorem Write_lines_keep_row0 (ctx : OwnerCtx) (lines : List (List Int)) :
    ∀ (s : Run ConScrollingTextWindow) (y : Int),
      (∀ l ∈ lines, (∀ c ∈ l, isprint c = true) ∧ (l.length : Int) ≤ s.win.mPos.w) →
      s.win.outputOk → s.win.toConWindowBase.sizeOk → s.win.mOutputLoc = ⟨0, y⟩ → 1 ≤ y →
      y + (lines.length : Int) ≤ s.win.mPos.h →
      (ConScrollingTextWindow.Write ctx s (lines.flatMap fun l => l ++ [10])).win.mOutputLoc
          = ⟨0, if y + (lines.length : Int) = s.win.mPos.h then s.win.mPos.h - 1
                else y + (lines.length : Int)⟩ ∧
        ∀ k, (ConScrollingTextWindow.Write ctx s
            (lines.flatMap fun l => l ++ [10])).win.toConWindowBase.GetChar 0 k
          = s.win.toConWindowBase.GetChar 0 k := by
  induction lines with
  | nil =>
      intro s y _ hok _ hloc _ _
      have hy : s.win.mOutputLoc.y = y := by rw [hloc]
      unfold ConScrollingTextWindow.outputOk at hok
      simp only [List.flatMap_nil, Write_nil, List.length_nil, Nat.cast_zero, add_zero]
      rw [if_neg (by omega)]
      simp only [implies_true, and_true]
      exact hloc
  | cons l ls ih =>
      intro s y hlines hok hsz hloc hy1 hroom
      have hl := hlines l (List.mem_cons_self l ls)
      have hlen : (((l :: ls).length : Nat) : Int) = (ls.length : Int) + 1 := by
        simp only [List.length_cons, Nat.cast_add, Nat.cast_one]
      rw [hlen] at hroom ⊢
      obtain ⟨b1, b2, b3, b4, _, b6⟩ := Write_line_break ctx s l y hl.1 hok hsz hloc hl.2
      rw [List.flatMap_cons, Write_append]
      generalize ConScrollingTextWindow.Write ctx s (l ++ [10]) = s1 at b1 b2 b3 b4 b6
      by_cases hlast : y + 1 = s.win.mPos.h
      · have hls : ls = [] := List.length_eq_zero.mp (by omega)
        subst hls
        rw [if_pos hlast] at b4
        simp only [List.flatMap_nil, Write_nil, List.length_nil, Nat.cast_zero, zero_add]
        rw [if_pos hlast, b4]
        refine ⟨by congr 1; omega, ?_⟩
        intro k
        exact b6 0 k (Or.inl (by omega))
      · rw [if_neg hlast] at b4
        obtain ⟨c1, c2⟩ := ih s1 (y + 1)
          (fun l2 h2 => by rw [b3]; exact hlines l2 (List.mem_cons_of_mem l h2))
          b1 b2 b4 (by omega) (by rw [b3]; omega)
        rw [b3] at c1
        refine ⟨?_, ?_⟩
        · rw [c1]
          have e : y + 1 + (ls.length : Int) = y + ((ls.length : Int) + 1) := by omega
          rw [e]
        · intro k
          rw [c2 k]
          exact b6 0 k (Or.inl (by omega))

/-- On every fresh scrolling text window with `w > 0` and `h > 0`: after
`Write` of `h` lines of printable characters, each at most `w` long and
followed by a newline, the output position is column 0 of row `h - 1` and
row 0 of the buffer still holds the first line. -/
theorem scroll_keeps_first_line (ctx : OwnerCtx) (owner : Nat) (px py w h : Int)
    (hw : 0 < w) (hh : 0 < h) (l0 : List Int) (ls : List (List Int))
    (hcount : 1 + (ls.length : Int) = h)
    (hlines : ∀ l ∈ l0 :: ls, (∀ c ∈ l, isprint c = true) ∧ (l.length : Int) ≤ w) :
    (ConScrollingTextWindow.Write ctx (freshText owner ⟨px, py, w, h⟩)
        ((l0 :: ls).flatMap fun l => l ++ [10])).win.mOutputLoc = ⟨0, h - 1⟩ ∧
      ∀ k, 0 ≤ k → k < (l0.length : Int) →
        (ConScrollingTextWindow.Write ctx (freshText owner ⟨px, py, w, h⟩)
          ((l0 :: ls).flatMap fun l => l ++ [10])).win.toConWindowBase.GetChar 0 k
          = l0.getD k.toNat 0 := by
  obtain ⟨f1, f2, f3, f4, _⟩ := freshText_facts owner px py w h hw hh
  have h0 := hlines l0 (List.mem_cons_self l0 ls)
  obtain ⟨b1, b2, b3, b4, b5, _⟩ := Write_line_break ctx (freshText owner ⟨px, py, w, h⟩) l0 0
    h0.1 f1 f2 f4 (by rw [f3]; exact h0.2)
  rw [List.flatMap_cons, Write_append]
  rw [f3] at b3 b4
  generalize ConScrollingTextWindow.Write ctx (freshText owner ⟨px, py, w, h⟩) (l0 ++ [10])
    = s1 at b1 b2 b3 b4 b5
  have hval : ∀ k, 0 ≤ k → k < (l0.length : Int) →
      s1.win.toConWindowBase.GetChar 0 k = l0.getD k.toNat 0 := by
    intro k hk0 hk1
    rw [b5 k hk0 hk1]
    apply toWchar_printable
    have hlt : k.toNat < l0.length := by omega
    rw [List.getD_eq_getElem?_getD, List.getElem?_eq_getElem hlt, Option.getD_some]
    exact h0.1 _ (List.getElem_mem hlt)
  by_cases h1 : (0 : Int) + 1 = h
  · have hls : ls = [] := List.length_eq_zero.mp (by omega)
    subst hls
    rw [if_pos h1] at b4
    simp only [List.flatMap_nil, Write_nil]
    refine ⟨by rw [b4]; congr 1; omega, hval⟩
  · rw [if_neg h1] at b4
    obtain ⟨c1, c2⟩ := Write_lines_keep_row0 ctx ls s1 (0 + 1)
      (fun l2 h2 => by rw [b3]; exact hlines l2 (List.mem_cons_of_mem l0 h2))
      b1 b2 b4 (by omega) (by rw [b3]; show 0 + 1 + (ls.length : Int) ≤ h; omega)
    rw [b3] at c1
    have e : (0 : Int) + 1 + (ls.length : Int) = h := by omega
    simp only [e, if_true] at c1
    refine ⟨c1, ?_⟩
    intro k hk0 hk1
    rw [c2 k]
    exact hval k hk0 hk1

/-- C12 fails on the code: on a fresh 3 x 2 window, after `Write` of the two
lines `abc` and `def`, each followed by a newline, the output position is at
row 1 (`h - 1`) and the second newline has scrolled the surface (the last
surface call is the block scroll of row 1 to row 0, blank fill), but the
buffer was not scrolled: `GetChar` still returns `abc` on row 0 and `def` on
row 1, while the surface now shows `def` on row 0 and blanks on row 1. -/
theorem C12_first_line_still_in_buffer :
    (ConScrollingTextWindow.Write demoCtx (freshText 0 ⟨0, 0, 3, 2⟩)
        (cstr "abc\ndef\n")).win.mOutputLoc = ⟨0, 1⟩ ∧
      (ConScrollingTextWindow.Write demoCtx (freshText 0 ⟨0, 0, 3, 2⟩)
        (cstr "abc\ndef\n")).screen.getLast?
        = some (SurfaceOp.ScrollConsoleScreenBuffer 7 0 1 2 1 0 0 blank 7) ∧
      [0, 1, 2].map (ConWindowBase.GetChar
        (ConScrollingTextWindow.Write demoCtx (freshText 0 ⟨0, 0, 3, 2⟩)
          (cstr "abc\ndef\n")).win.toConWindowBase 0) = cstr "abc" ∧
      [0, 1, 2].map (ConWindowBase.GetChar
        (ConScrollingTextWindow.Write demoCtx (freshText 0 ⟨0, 0, 3, 2⟩)
          (cstr "abc\ndef\n")).win.toConWindowBase 1) = cstr "def" := by
  decide

end WinConsole
